import Mathlib

/-!
# Conjunctive query evaluation (`pisa/query/algorithm/and_query.hpp`)

A shallow embedding of `pisa::and_query` and `pisa::scored_and_query`, the two
leapfrog intersections over posting cursors, together with the properties of
the traversal that the specification states.

* Document identifiers (`uint32_t` in the source) are natural numbers.  The
  traversal only copies and compares identifiers, it performs no arithmetic on
  them, so the width of the machine word never matters.
* `float` scores are an arbitrary type `S` with an addition and a zero; nothing
  is assumed about the addition (in particular not associativity), so every
  theorem stated for all `S` holds for IEEE-754 addition as well.  The concrete
  examples use `Binary32`, the binary32 numbers that are non-negative integers
  with the correctly rounded addition.
* `std::vector<Cursor*> ordered_cursors` is a list of indices into the caller's
  collection; the cursors themselves are mutated in place in that collection.
* `std::sort` is a parameter of the embedding, constrained only by what the
  C++ standard promises (`StdSort`): the outcome is a sorted permutation.
  Where the order among equal sizes matters the parameter is `std_sort`, the
  `std::sort` of libstdc++ (`bits/stl_algo.h` and `bits/stl_heap.h` of GCC 12)
  function by function: `introsort_loop` followed by `final_insertion_sort`.
* The `while` loop carries a fuel argument; running out of it is the fault
  `Fault.outOfFuel`, an invalid pointer or index is `Fault.outOfRange`.
* `Reachable` and `ScoredReachable` are the states in which the `while` loop
  tests its condition; `LoopState.skips` counts the calls of `next_geq`.
-/

namespace Pisa

/-- Ways in which a run of the embedding can fail to produce a result. -/
inductive Fault where
  | outOfFuel
  | outOfRange
  | noScore
  deriving DecidableEq, Repr

/-- Modelled from the spec: the posting cursor (`concepts/posting_cursor.hpp` is
not part of the sources).  A cursor walks over the posting list `docs`; `pos` is
the index of the current posting, `pos = docs.length` means exhausted, in which case
`docid()` reports `sentinel`.  `scores` holds the per-position contributions of a
scored cursor. -/
structure Cursor (S : Type) where
  docs : List Nat
  scores : List S
  sentinel : Nat
  pos : Nat
  deriving DecidableEq

namespace Cursor

variable {S : Type}

/-- Modelled from the spec: `docid()`, the current position, or the sentinel once
the cursor is exhausted. -/
def docid (c : Cursor S) : Nat := c.docs.getD c.pos c.sentinel

/-- Modelled from the spec: `size()`, the fixed number of postings of the list. -/
def size (c : Cursor S) : Nat := c.docs.length

/-- Modelled from the spec: `next()`, advance to the next posting; a no-op once
exhausted. -/
def next (c : Cursor S) : Cursor S :=
  if c.pos < c.docs.length then { c with pos := c.pos + 1 } else c

/-- Modelled from the spec: `next_geq(target)`, advance to the first posting
`>= target`; a no-op if the current `docid()` is `>= target` already, or if the
cursor is exhausted.  It never moves backward. -/
def next_geq (c : Cursor S) (target : Nat) : Cursor S :=
  { c with pos := c.pos + ((c.docs.drop c.pos).takeWhile (fun d => decide (d < target))).length }

/-- Modelled from the spec: `score()`, the contribution of the current position;
there is none when the cursor is not on a posting. -/
def score (c : Cursor S) : Option S := c.scores[c.pos]?

/-- The cursor rewound to its first posting: what identifies a cursor apart
from its position. -/
def reset (c : Cursor S) : Cursor S := { c with pos := 0 }

/-- The score the cursor reports when it stands on document `d`. -/
def scoreAt (c : Cursor S) (d : Nat) : Option S := c.scores[c.docs.indexOf d]?

/-- A well-formed cursor for the bound `M`: a strictly increasing posting list,
positioned at its first posting, whose exhaustion sentinel is at least `M`. -/
def WellFormed (M : Nat) (c : Cursor S) : Prop :=
  c.docs.Pairwise (· < ·) ∧ c.pos = 0 ∧ M ≤ c.sentinel

/-- A well-formed scored cursor: moreover every posting has a score. -/
def WellFormedScored (M : Nat) (c : Cursor S) : Prop :=
  c.WellFormed M ∧ c.scores.length = c.docs.length

instance (M : Nat) (c : Cursor S) : Decidable (c.WellFormed M) := by
  unfold WellFormed; infer_instance

instance (M : Nat) (c : Cursor S) : Decidable (c.WellFormedScored M) := by
  unfold WellFormedScored; infer_instance

end Cursor

variable {S : Type}

/-- The key of the comparator handed to `std::sort` (lines 38-40 and 93-95,
`lhs->size() < rhs->size()`): the size a pointer into `cursors` refers to. -/
def sizeAt (cursors : List (Cursor S)) (p : Nat) : Nat :=
  (cursors[p]?.map Cursor.size).getD 0

/-- What the C++ standard promises of `std::sort` when the comparator orders by
a key: the outcome is a permutation of the input in which the keys do not
decrease.  The order among equal keys is left open. -/
def StdSort (sort : (Nat → Nat → Bool) → List Nat → List Nat) : Prop :=
  ∀ (key : Nat → Nat) (l : List Nat),
    (sort (fun a b => decide (key a < key b)) l).Perm l ∧
    (sort (fun a b => decide (key a < key b)) l).Pairwise (fun a b => key a ≤ key b)

/-- One admissible `std::sort`: insertion sort, which happens to be stable. -/
def insertionSort (lt : Nat → Nat → Bool) (l : List Nat) : List Nat :=
  List.insertionSort (fun a b => lt b a = false) l

/-- Lines 31-40 and 86-95: the Ordered Cursor View, pointers to all cursors
sorted by `size()`. -/
def ordered_cursors (sort : (Nat → Nat → Bool) → List Nat → List Nat)
    (cursors : List (Cursor S)) : List Nat :=
  sort (fun lhs rhs => decide (sizeAt cursors lhs < sizeAt cursors rhs))
    (List.range cursors.length)

/-- The mutable state of the traversal: the caller's cursors, `candidate`, the
index `i`, and (as a ghost counter) the number of `next_geq` calls made. -/
structure LoopState (S : Type) where
  cursors : List (Cursor S)
  candidate : Nat
  i : Nat
  skips : Nat

/-- Lines 46-53 and 101-108 (the same text in both functions): the inner `for`
loop, which resumes at the current `i`.  The first argument bounds the number
of iterations; `ordered.length - i` is always enough. -/
def forLoop (ordered : List Nat) : Nat → LoopState S → Except Fault (LoopState S)
  | 0, s => if s.i < ordered.length then .error .outOfFuel else .ok s
  | k + 1, s =>
    if h : s.i < ordered.length then
      match s.cursors[ordered[s.i]]? with
      | none => .error .outOfRange
      | some c =>
        let c1 := c.next_geq s.candidate
        let cs := s.cursors.set ordered[s.i] c1
        if c1.docid ≠ s.candidate then
          .ok { cursors := cs, candidate := c1.docid, i := 0, skips := s.skips + 1 }
        else
          forLoop ordered k
            { cursors := cs, candidate := s.candidate, i := s.i + 1, skips := s.skips + 1 }
    else .ok s

/-- Lines 58-60 and 117-119: `ordered_cursors[0]->next()`, then
`candidate = ordered_cursors[0]->docid()` and `i = 1`. -/
def advanceDriver (ordered : List Nat) (s : LoopState S) : Except Fault (LoopState S) :=
  match ordered[0]? with
  | none => .error .outOfRange
  | some p =>
    match s.cursors[p]? with
    | none => .error .outOfRange
    | some c =>
      .ok { cursors := s.cursors.set p c.next, candidate := c.next.docid, i := 1,
            skips := s.skips }

/-- Lines 46-61: one pass through the body of the `while` loop of `and_query`. -/
def and_query_body (ordered : List Nat) (s : LoopState S) (results : List Nat) :
    Except Fault (LoopState S × List Nat) :=
  match forLoop ordered (ordered.length - s.i) s with
  | .error e => .error e
  | .ok s1 =>
    if s1.i = ordered.length then
      match advanceDriver ordered s1 with
      | .error e => .error e
      | .ok s2 => .ok (s2, results ++ [s1.candidate])
    else .ok (s1, results)

/-- Lines 45-62: the `while (candidate < max_docid)` loop of `and_query`. -/
def and_query_loop (ordered : List Nat) (max_docid : Nat) :
    Nat → LoopState S → List Nat → Except Fault (LoopState S × List Nat)
  | 0, s, results => if s.candidate < max_docid then .error .outOfFuel else .ok (s, results)
  | fuel + 1, s, results =>
    if s.candidate < max_docid then
      match and_query_body ordered s results with
      | .error e => .error e
      | .ok (s1, results1) => and_query_loop ordered max_docid fuel s1 results1
    else .ok (s, results)

/-- Lines 21-64: `and_query::operator()`, returning the final state of the
traversal (which holds the caller's cursors) next to the results. -/
def and_query_run (sort : (Nat → Nat → Bool) → List Nat → List Nat) (fuel : Nat)
    (cursors : List (Cursor S)) (max_docid : Nat) : Except Fault (LoopState S × List Nat) :=
  if cursors.isEmpty then
    .ok ({ cursors := cursors, candidate := 0, i := 0, skips := 0 }, [])
  else
    match (ordered_cursors sort cursors)[0]? with
    | none => .error .outOfRange
    | some p =>
      match cursors[p]? with
      | none => .error .outOfRange
      | some c =>
        and_query_loop (ordered_cursors sort cursors) max_docid fuel
          { cursors := cursors, candidate := c.docid, i := 1, skips := 0 } []

/-- Lines 21-64: the value returned by `and_query::operator()`. -/
def and_query (sort : (Nat → Nat → Bool) → List Nat → List Nat) (fuel : Nat)
    (cursors : List (Cursor S)) (max_docid : Nat) : Except Fault (List Nat) :=
  match and_query_run sort fuel cursors max_docid with
  | .error e => .error e
  | .ok (_, results) => .ok results

/-- Lines 111-114: `score = 0.0F` followed by `score += ordered_cursors[i]->score()`
for every `i`, in the order of the view.  Called with the accumulator so far. -/
def sumScores [Add S] (cursors : List (Cursor S)) : List Nat → S → Except Fault S
  | [], acc => .ok acc
  | p :: ps, acc =>
    match cursors[p]? with
    | none => .error .outOfRange
    | some c =>
      match c.score with
      | none => .error .noScore
      | some x => sumScores cursors ps (acc + x)

/-- Lines 101-120: one pass through the body of the `while` loop of
`scored_and_query`. -/
def scored_and_query_body [Add S] [Zero S] (ordered : List Nat) (s : LoopState S)
    (results : List (Nat × S)) : Except Fault (LoopState S × List (Nat × S)) :=
  match forLoop ordered (ordered.length - s.i) s with
  | .error e => .error e
  | .ok s1 =>
    if s1.i = ordered.length then
      match sumScores s1.cursors ordered 0 with
      | .error e => .error e
      | .ok score =>
        match advanceDriver ordered s1 with
        | .error e => .error e
        | .ok s2 => .ok (s2, results ++ [(s1.candidate, score)])
    else .ok (s1, results)

/-- Lines 100-121: the `while (candidate < max_docid)` loop of `scored_and_query`. -/
def scored_and_query_loop [Add S] [Zero S] (ordered : List Nat) (max_docid : Nat) :
    Nat → LoopState S → List (Nat × S) → Except Fault (LoopState S × List (Nat × S))
  | 0, s, results => if s.candidate < max_docid then .error .outOfFuel else .ok (s, results)
  | fuel + 1, s, results =>
    if s.candidate < max_docid then
      match scored_and_query_body ordered s results with
      | .error e => .error e
      | .ok (s1, results1) => scored_and_query_loop ordered max_docid fuel s1 results1
    else .ok (s, results)

/-- Lines 74-123: `scored_and_query::operator()`, returning the final state of
the traversal next to the results. -/
def scored_and_query_run [Add S] [Zero S] (sort : (Nat → Nat → Bool) → List Nat → List Nat)
    (fuel : Nat) (cursors : List (Cursor S)) (max_docid : Nat) :
    Except Fault (LoopState S × List (Nat × S)) :=
  if cursors.isEmpty then
    .ok ({ cursors := cursors, candidate := 0, i := 0, skips := 0 }, [])
  else
    match (ordered_cursors sort cursors)[0]? with
    | none => .error .outOfRange
    | some p =>
      match cursors[p]? with
      | none => .error .outOfRange
      | some c =>
        scored_and_query_loop (ordered_cursors sort cursors) max_docid fuel
          { cursors := cursors, candidate := c.docid, i := 1, skips := 0 } []

/-- Lines 74-123: the value returned by `scored_and_query::operator()`. -/
def scored_and_query [Add S] [Zero S] (sort : (Nat → Nat → Bool) → List Nat → List Nat)
    (fuel : Nat) (cursors : List (Cursor S)) (max_docid : Nat) :
    Except Fault (List (Nat × S)) :=
  match scored_and_query_run sort fuel cursors max_docid with
  | .error e => .error e
  | .ok (_, results) => .ok results

/-- Whether `d` occurs in every posting list. -/
def hit (cursors : List (Cursor S)) (d : Nat) : Bool :=
  cursors.all (fun c => c.docs.contains d)

/-- The specification's intersection: the ascending list of all `d < M` that
occur in every posting list. -/
def intersectionBelow (cursors : List (Cursor S)) (M : Nat) : List Nat :=
  (List.range M).filter (hit cursors)

/-- A cursor over `docs` at its first posting, every score being `x`. -/
def mkCursor (docs : List Nat) (x : S) (sentinel : Nat) : Cursor S :=
  { docs := docs, scores := docs.map (fun _ => x), sentinel := sentinel, pos := 0 }

/-! ## Notions used in the statements and proofs -/

namespace Cursor

/-- The postings the cursor has left behind. -/
def passed (c : Cursor S) : List Nat := c.docs.take c.pos

/-- The postings from the current one on. -/
def remaining (c : Cursor S) : List Nat := c.docs.drop c.pos

end Cursor

/-- What the traversal maintains.  `cursors0` is the caller's collection at the
time of the call, `ordered` the view, `M` the bound. -/
structure Inv (cursors0 : List (Cursor S)) (ordered : List Nat) (s : LoopState S) : Prop where
  frame : s.cursors.map Cursor.reset = cursors0.map Cursor.reset
  passed : ∀ c ∈ s.cursors, ∀ x ∈ c.passed, x < s.candidate
  aligned : ∀ j (hj : j < ordered.length), j < s.i →
    ∀ c, s.cursors[ordered[j]]? = some c → c.docid = s.candidate
  i_le : s.i ≤ ordered.length

/-- What is fixed during a call: the posting lists are strictly increasing with
sentinels `>= M`, and the view points exactly at the cursors of the collection. -/
structure Ctx (cursors0 : List (Cursor S)) (ordered : List Nat) (M : Nat) : Prop where
  sorted : ∀ c ∈ cursors0, c.docs.Pairwise (· < ·)
  sentinel : ∀ c ∈ cursors0, M ≤ c.sentinel
  valid : ∀ p ∈ ordered, p < cursors0.length
  cover : ∀ p, p < cursors0.length → p ∈ ordered
  nonempty : 0 < ordered.length

/-- Adding the score a cursor reports at `d` to an accumulated sum. -/
def addScore [Add S] (d : Nat) (acc : Option S) (c : Cursor S) : Option S :=
  match acc, c.scoreAt d with
  | some a, some x => some (a + x)
  | _, _ => none

/-- The specification's score of `d`: starting from zero, the scores that the
cursors of the view report at their posting `d` are added from left to right. -/
def specScore [Add S] [Zero S] (view : List (Cursor S)) (d : Nat) : Option S :=
  view.foldl (addScore d) (some 0)

/-- The Ordered Cursor View as a list of cursors. -/
def orderedView (sort : (Nat → Nat → Bool) → List Nat → List Nat)
    (cursors : List (Cursor S)) : List (Cursor S) :=
  (ordered_cursors sort cursors).filterMap (fun p => cursors[p]?)

/-- The specification's scored result: every document of the intersection
paired with its score over the view. -/
def scoredIntersectionBelow [Add S] [Zero S] (view cursors : List (Cursor S)) (M : Nat) :
    List (Nat × S) :=
  (intersectionBelow cursors M).filterMap (fun d => (specScore view d).map (fun s => (d, s)))

/-- The number of halvings that bring `n` below `2 ^ 24`, the width of the
significand of a binary32 number (first argument: a bound on the halvings). -/
def excessBits : Nat → Nat → Nat
  | 0, _ => 0
  | fuel + 1, n => if n < 2 ^ 24 then 0 else excessBits fuel (n / 2) + 1

/-- IEEE-754 round-to-nearest-even of a natural number below `2 ^ 128` to
binary32: the bits that do not fit into the 24-bit significand are rounded
away. -/
def roundF32 (n : Nat) : Nat :=
  let e := excessBits 104 n
  let q := n / 2 ^ e
  let r := n % 2 ^ e
  if 2 * r < 2 ^ e then q * 2 ^ e
  else if 2 * r = 2 ^ e ∧ q % 2 = 0 then q * 2 ^ e
  else (q + 1) * 2 ^ e

/-- The fragment of C++ `float` that the examples need: the binary32 numbers
that are non-negative integers, with the correctly rounded IEEE-754 addition. -/
structure Binary32 where
  val : Nat
  deriving DecidableEq, Repr

instance : Add Binary32 := ⟨fun a b => ⟨roundF32 (a.val + b.val)⟩⟩

instance : Zero Binary32 := ⟨⟨0⟩⟩

/-- The lists `A`, `B`, `C` of the specification's example, every score `1.0`. -/
def exampleABC : List (Cursor Binary32) :=
  [mkCursor [1, 3, 5, 7, 9] ⟨1⟩ 100, mkCursor [3, 5, 9] ⟨1⟩ 100,
   mkCursor [2, 3, 5, 9, 11] ⟨1⟩ 100]

/-- The same three lists handed over in another order. -/
def exampleCAB : List (Cursor Binary32) :=
  [mkCursor [2, 3, 5, 9, 11] ⟨1⟩ 100, mkCursor [1, 3, 5, 7, 9] ⟨1⟩ 100,
   mkCursor [3, 5, 9] ⟨1⟩ 100]

/-- The disjoint lists of the specification's second example. -/
def exampleDisjoint : List (Cursor Binary32) :=
  [mkCursor [1, 2, 3] ⟨1⟩ 10, mkCursor [4, 5, 6] ⟨1⟩ 10]

/-- The single list of the specification's third example. -/
def exampleSingle : Cursor Binary32 := mkCursor [1, 2, 3, 4] ⟨1⟩ 10

/-- Two lists that both hold the bound `3` itself. -/
def exampleBound : List (Cursor Binary32) :=
  [mkCursor [1, 2, 3] ⟨1⟩ 10, mkCursor [2, 3] ⟨1⟩ 10]

/-- Three lists of the same size holding document `1` with the scores
`16777216.0`, `1.0` and `1.0`. -/
def exampleTies : List (Cursor Binary32) :=
  [mkCursor [1] ⟨16777216⟩ 10, mkCursor [1] ⟨1⟩ 10, mkCursor [1] ⟨1⟩ 10]

/-- The lists of `exampleTies`, the large score handed over last. -/
def exampleTiesRotated : List (Cursor Binary32) :=
  [mkCursor [1] ⟨1⟩ 10, mkCursor [1] ⟨1⟩ 10, mkCursor [1] ⟨16777216⟩ 10]

/-- Lists of pairwise distinct sizes with different scores. -/
def exampleDistinct : List (Cursor Binary32) :=
  [mkCursor [1, 2] ⟨16777216⟩ 10, mkCursor [1] ⟨1⟩ 10, mkCursor [0, 1, 2] ⟨1⟩ 10]

/-- The lists of `exampleDistinct` in another order. -/
def exampleDistinctRotated : List (Cursor Binary32) :=
  [mkCursor [1] ⟨1⟩ 10, mkCursor [0, 1, 2] ⟨1⟩ 10, mkCursor [1, 2] ⟨16777216⟩ 10]

/-! ## Notions for the claims on the traversal -/

/-- Lines 42-43: the state in which the `while` loop is entered,
`candidate = ordered_cursors[0]->docid()` and `i = 1`. -/
def initialState (sort : (Nat → Nat → Bool) → List Nat → List Nat)
    (cursors : List (Cursor S)) : Except Fault (LoopState S) :=
  match (ordered_cursors sort cursors)[0]? with
  | none => .error .outOfRange
  | some p =>
    match cursors[p]? with
    | none => .error .outOfRange
    | some c => .ok { cursors := cursors, candidate := c.docid, i := 1, skips := 0 }

/-- The states in which the `while` loop of `and_query` tests its condition:
the state `s0` it is entered with, and the state after every pass through its
body that was entered with a candidate below the bound. -/
inductive Reachable (ordered : List Nat) (M : Nat) (s0 : LoopState S) : LoopState S → Prop where
  | init : Reachable ordered M s0 s0
  | pass {s s1 : LoopState S} {res res1 : List Nat} :
      Reachable ordered M s0 s → s.candidate < M →
      and_query_body ordered s res = .ok (s1, res1) → Reachable ordered M s0 s1

/-- The states in which the `while` loop of `scored_and_query` tests its
condition. -/
inductive ScoredReachable [Add S] [Zero S] (ordered : List Nat) (M : Nat) (s0 : LoopState S) :
    LoopState S → Prop where
  | init : ScoredReachable ordered M s0 s0
  | pass {s s1 : LoopState S} {res res1 : List (Nat × S)} :
      ScoredReachable ordered M s0 s → s.candidate < M →
      scored_and_query_body ordered s res = .ok (s1, res1) → ScoredReachable ordered M s0 s1

/-- The data-model invariant of a posting cursor: the postings ascend and none
exceeds the sentinel, so that `docid()` never decreases when the cursor moves
forward. -/
def Cursor.Monotone (c : Cursor S) : Prop :=
  c.docs.Pairwise (· ≤ ·) ∧ ∀ d ∈ c.docs, d ≤ c.sentinel

/-- The collection `cs1` holds, index by index, the cursors of `cs`, each moved
forward or left where it was. -/
def Advanced (cs cs1 : List (Cursor S)) : Prop :=
  cs1.length = cs.length ∧
    ∀ (k : Nat) (c c1 : Cursor S), cs[k]? = some c → cs1[k]? = some c1 →
      c1.reset = c.reset ∧ c.pos ≤ c1.pos

/-- A cursor over the empty list whose sentinel is `x`. -/
def exhaustedCursor (S : Type) (x : Nat) : Cursor S :=
  { docs := [], scores := [], sentinel := x, pos := 0 }

/-- The state in which the traversal of the single cursor `exhaustedCursor S x`
starts. -/
def stuckState (S : Type) (x : Nat) : LoopState S :=
  { cursors := [exhaustedCursor S x], candidate := x, i := 1, skips := 0 }

/-- The calls of `next_geq` that can still find the cursor at view index `j`
where it stands: two while it is ahead of the candidate (the call that makes
its position the candidate, and the one that confirms it), one while it stands
on the candidate and the scan has not passed it, none otherwise. -/
def extraCredit (candidate i j : Nat) (c : Cursor S) : Nat :=
  if candidate < c.docid then 2
  else if c.docid = candidate ∧ i ≤ j then 1
  else 0

/-- The calls of `next_geq` the cursor at view index `j` can still receive: three
for every posting it has not left behind, and `extraCredit`. -/
def credit (candidate i j : Nat) (c : Cursor S) : Nat :=
  3 * (c.docs.length - c.pos) + extraCredit candidate i j c

/-- The credit of the cursors a list of pointers leads to, the first pointer
standing at view index `j`. -/
def potentialFrom (cs : List (Cursor S)) (candidate i : Nat) : Nat → List Nat → Nat
  | _, [] => 0
  | j, p :: ps =>
    (match cs[p]? with
      | some c => credit candidate i j c
      | none => 0) + potentialFrom cs candidate i (j + 1) ps

/-- The credit of all cursors of the view in a state of the traversal. -/
def potential (ordered : List Nat) (s : LoopState S) : Nat :=
  potentialFrom s.cursors s.candidate s.i 0 ordered

/-! ## The `std::sort` of libstdc++

The functions of `bits/stl_algo.h` and `bits/stl_heap.h` that `std::sort` runs,
on the range as a list: an iterator is a position in the list, `*it` is the
element there.  Reading past the end of the list yields `0`, writing there is
without effect; the two scans of `unguarded_partition` and the loop of
`unguarded_linear_insert`, which the source leaves unguarded, end at the latest
at the ends of the list. -/

/-- The function `std::__lg`, by halving: the position of the highest set bit
of `n`. The first argument bounds the number of halvings. -/
def lgAux : Nat → Nat → Nat
  | 0, _ => 0
  | k + 1, n => if n < 2 then 0 else lgAux k (n / 2) + 1

/-- The function `std::__lg`: the floor of the binary logarithm of `n`. -/
def lg (n : Nat) : Nat := lgAux n n

/-- The function `std::iter_swap`: the elements at the positions `i` and `j` of
the range change places. -/
def iter_swap (arr : List Nat) (i j : Nat) : List Nat :=
  match arr[i]?, arr[j]? with
  | some x, some y => (arr.set i y).set j x
  | _, _ => arr

/-- The function `std::__move_median_to_first`: the median of the elements at
`a`, `b` and `c` is swapped to the position `result`. -/
def move_median_to_first (comp : Nat → Nat → Bool) (arr : List Nat) (result a b c : Nat) :
    List Nat :=
  if comp (arr.getD a 0) (arr.getD b 0) then
    if comp (arr.getD b 0) (arr.getD c 0) then iter_swap arr result b
    else if comp (arr.getD a 0) (arr.getD c 0) then iter_swap arr result c
    else iter_swap arr result a
  else if comp (arr.getD a 0) (arr.getD c 0) then iter_swap arr result a
  else if comp (arr.getD b 0) (arr.getD c 0) then iter_swap arr result c
  else iter_swap arr result b

/-- The loop `while (comp(first, pivot)) ++first;` of `std::__unguarded_partition`;
it ends at the latest where the range does. -/
def scanUp (comp : Nat → Nat → Bool) (arr : List Nat) (pivot : Nat) : Nat → Nat → Nat
  | 0, first => first
  | k + 1, first =>
    match arr[first]? with
    | some x => if comp x (arr.getD pivot 0) then scanUp comp arr pivot k (first + 1) else first
    | none => first

/-- The loop `while (comp(pivot, last)) --last;` of `std::__unguarded_partition`;
it ends at the latest where the range begins. -/
def scanDown (comp : Nat → Nat → Bool) (arr : List Nat) (pivot : Nat) : Nat → Nat → Nat
  | 0, last => last
  | k + 1, last =>
    if comp (arr.getD pivot 0) (arr.getD last 0) then scanDown comp arr pivot k (last - 1)
    else last

/-- The function `std::__unguarded_partition(first, last, pivot, comp)`: the
position of the cut and the range after the swaps. The first argument bounds the
number of swaps. -/
def unguarded_partition (comp : Nat → Nat → Bool) (pivot : Nat) :
    Nat → List Nat → Nat → Nat → Nat × List Nat
  | 0, arr, first, _ => (first, arr)
  | k + 1, arr, first, last =>
    let first1 := scanUp comp arr pivot arr.length first
    let last1 := scanDown comp arr pivot (last - 1) (last - 1)
    if first1 < last1 then
      unguarded_partition comp pivot k (iter_swap arr first1 last1) (first1 + 1) last1
    else (first1, arr)

/-- The function `std::__unguarded_partition_pivot(first, last, comp)`. -/
def unguarded_partition_pivot (comp : Nat → Nat → Bool) (arr : List Nat) (first last : Nat) :
    Nat × List Nat :=
  let mid := first + (last - first) / 2
  unguarded_partition comp first arr.length
    (move_median_to_first comp arr first (first + 1) mid (last - 1)) (first + 1) last

/-- The function `std::__push_heap(first, holeIndex, topIndex, value, comp)`. The
first argument bounds the number of moves. -/
def push_heap (comp : Nat → Nat → Bool) (first : Nat) :
    Nat → List Nat → Nat → Nat → Nat → List Nat
  | 0, arr, holeIndex, _, value => arr.set (first + holeIndex) value
  | k + 1, arr, holeIndex, topIndex, value =>
    let parent := (holeIndex - 1) / 2
    if holeIndex > topIndex ∧ comp (arr.getD (first + parent) 0) value = true then
      push_heap comp first k (arr.set (first + holeIndex) (arr.getD (first + parent) 0))
        parent topIndex value
    else arr.set (first + holeIndex) value

/-- The `while` loop of `std::__adjust_heap`: the hole moves down to the larger
child. Where the loop tests its condition `holeIndex` and `secondChild` are
equal, so that one index stands for both. -/
def adjust_heap_down (comp : Nat → Nat → Bool) (first len : Nat) :
    Nat → List Nat → Nat → List Nat × Nat
  | 0, arr, holeIndex => (arr, holeIndex)
  | k + 1, arr, holeIndex =>
    if holeIndex < (len - 1) / 2 then
      let secondChild := 2 * (holeIndex + 1)
      let child :=
        if comp (arr.getD (first + secondChild) 0) (arr.getD (first + (secondChild - 1)) 0)
        then secondChild - 1 else secondChild
      adjust_heap_down comp first len k
        (arr.set (first + holeIndex) (arr.getD (first + child) 0)) child
    else (arr, holeIndex)

/-- The function `std::__adjust_heap(first, holeIndex, len, value, comp)`. -/
def adjust_heap (comp : Nat → Nat → Bool) (arr : List Nat) (first holeIndex len value : Nat) :
    List Nat :=
  let down := adjust_heap_down comp first len len arr holeIndex
  if len % 2 = 0 ∧ 2 ≤ len ∧ down.2 = (len - 2) / 2 then
    let child := 2 * (down.2 + 1) - 1
    push_heap comp first child (down.1.set (first + down.2) (down.1.getD (first + child) 0))
      child holeIndex value
  else push_heap comp first down.2 down.1 down.2 holeIndex value

/-- The function `std::__pop_heap(first, last, result, comp)`. -/
def pop_heap (comp : Nat → Nat → Bool) (arr : List Nat) (first last result : Nat) : List Nat :=
  adjust_heap comp (arr.set result (arr.getD first 0)) first 0 (last - first)
    (arr.getD result 0)

/-- The loop of `std::__make_heap`, from the last parent down to the root. -/
def make_heap_loop (comp : Nat → Nat → Bool) (first len : Nat) : Nat → List Nat → Nat → List Nat
  | 0, arr, _ => arr
  | k + 1, arr, parent =>
    let arr1 := adjust_heap comp arr first parent len (arr.getD (first + parent) 0)
    if parent = 0 then arr1 else make_heap_loop comp first len k arr1 (parent - 1)

/-- The function `std::__make_heap(first, last, comp)`. -/
def make_heap (comp : Nat → Nat → Bool) (arr : List Nat) (first last : Nat) : List Nat :=
  if last - first < 2 then arr
  else make_heap_loop comp first (last - first) ((last - first - 2) / 2 + 1) arr
    ((last - first - 2) / 2)

/-- The loop of `std::__heap_select` over the positions from `middle` on. -/
def heap_select_loop (comp : Nat → Nat → Bool) (first middle : Nat) :
    Nat → List Nat → Nat → List Nat
  | 0, arr, _ => arr
  | k + 1, arr, i =>
    heap_select_loop comp first middle k
      (if comp (arr.getD i 0) (arr.getD first 0) then pop_heap comp arr first middle i else arr)
      (i + 1)

/-- The function `std::__heap_select(first, middle, last, comp)`. -/
def heap_select (comp : Nat → Nat → Bool) (arr : List Nat) (first middle last : Nat) : List Nat :=
  heap_select_loop comp first middle (last - middle) (make_heap comp arr first middle) middle

/-- The function `std::__sort_heap(first, last, comp)`. The first argument bounds
the number of passes. -/
def sort_heap (comp : Nat → Nat → Bool) (first : Nat) : Nat → List Nat → Nat → List Nat
  | 0, arr, _ => arr
  | k + 1, arr, last =>
    if last - first > 1 then
      sort_heap comp first k (pop_heap comp arr first (last - 1) (last - 1)) (last - 1)
    else arr

/-- The function `std::__partial_sort(first, middle, last, comp)`. -/
def partial_sort (comp : Nat → Nat → Bool) (arr : List Nat) (first middle last : Nat) :
    List Nat :=
  sort_heap comp first (middle - first) (heap_select comp arr first middle last) middle

/-- The function `std::__introsort_loop(first, last, depth_limit, comp)`, by
recursion on the depth limit, which every pass of its loop lowers by one:
ranges of more than `16` elements are cut by `unguarded_partition_pivot`, the
upper part is sorted by the recursive call and the loop goes on with the lower
part; at depth limit `0` the range is sorted by `partial_sort`. -/
def introsort_loop (comp : Nat → Nat → Bool) : Nat → List Nat → Nat → Nat → List Nat
  | 0, arr, first, last =>
    if last - first > 16 then partial_sort comp arr first last last else arr
  | d + 1, arr, first, last =>
    if last - first > 16 then
      let cut := unguarded_partition_pivot comp arr first last
      introsort_loop comp d (introsort_loop comp d cut.2 cut.1 last) first cut.1
    else arr

/-- The loop of `std::__unguarded_linear_insert`: `val` moves down from the
position `last` past the elements it is less than. -/
def unguarded_linear_insert_loop (comp : Nat → Nat → Bool) :
    Nat → List Nat → Nat → Nat → List Nat
  | 0, arr, last, val => arr.set last val
  | k + 1, arr, last, val =>
    if comp val (arr.getD (last - 1) 0) then
      unguarded_linear_insert_loop comp k (arr.set last (arr.getD (last - 1) 0)) (last - 1) val
    else arr.set last val

/-- The function `std::__unguarded_linear_insert(last, comp)`. -/
def unguarded_linear_insert (comp : Nat → Nat → Bool) (arr : List Nat) (last : Nat) : List Nat :=
  unguarded_linear_insert_loop comp last arr last (arr.getD last 0)

/-- The loop of `std::__insertion_sort` from the position `i` on: an element
less than the first one is moved to the front by `std::move_backward`, any other
is put in place by `unguarded_linear_insert`. -/
def insertion_sort_loop (comp : Nat → Nat → Bool) (first : Nat) : Nat → List Nat → Nat → List Nat
  | 0, arr, _ => arr
  | k + 1, arr, i =>
    insertion_sort_loop comp first k
      (if comp (arr.getD i 0) (arr.getD first 0) then
        arr.take first ++ arr.getD i 0 :: (arr.drop first).take (i - first) ++ arr.drop (i + 1)
      else unguarded_linear_insert comp arr i)
      (i + 1)

/-- The function `std::__insertion_sort(first, last, comp)`. -/
def insertion_sort (comp : Nat → Nat → Bool) (arr : List Nat) (first last : Nat) : List Nat :=
  if first = last then arr else insertion_sort_loop comp first (last - (first + 1)) arr (first + 1)

/-- The function `std::__unguarded_insertion_sort(first, last, comp)`. -/
def unguarded_insertion_sort (comp : Nat → Nat → Bool) : Nat → List Nat → Nat → List Nat
  | 0, arr, _ => arr
  | k + 1, arr, i =>
    unguarded_insertion_sort comp k (unguarded_linear_insert comp arr i) (i + 1)

/-- The function `std::__final_insertion_sort(first, last, comp)`. -/
def final_insertion_sort (comp : Nat → Nat → Bool) (arr : List Nat) (first last : Nat) :
    List Nat :=
  if last - first > 16 then
    unguarded_insertion_sort comp (last - (first + 16))
      (insertion_sort comp arr first (first + 16)) (first + 16)
  else insertion_sort comp arr first last

/-- The function `std::sort` of libstdc++ (`std::__sort`) on the whole range
`l`: `introsort_loop` with depth limit `2 * lg n`, then `final_insertion_sort`. -/
def std_sort (comp : Nat → Nat → Bool) (l : List Nat) : List Nat :=
  if l.length = 0 then l
  else final_insertion_sort comp (introsort_loop comp (lg l.length * 2) l 0 l.length) 0 l.length

/-- Cursors of equal `size()` keep their original relative order in the view:
of two pointers to cursors of the same size, the one that comes first in the
view points to the cursor that comes first in the collection. -/
def StableView (cursors : List (Cursor S)) (ordered : List Nat) : Prop :=
  ordered.Pairwise (fun p q => sizeAt cursors p = sizeAt cursors q → p < q)

instance (cursors : List (Cursor S)) (ordered : List Nat) :
    Decidable (StableView cursors ordered) := by
  unfold StableView; infer_instance

/-- The first `n` of a family of lists of the same size: list `k` holds the one
document `k + 1`, with score `k`. -/
def tiedCursors (n : Nat) : List (Cursor Binary32) :=
  (List.range n).map (fun k => mkCursor [k + 1] ⟨k⟩ 100)

/-- The state in which the traversal of the specification's example starts. -/
def exampleStart : LoopState Binary32 :=
  { cursors := exampleABC, candidate := 3, i := 1, skips := 0 }

/-- The state of the specification's example after the first inner scan: `A`
and `C` have been moved to document `3`. -/
def exampleScanned : LoopState Binary32 :=
  { cursors := [{ mkCursor [1, 3, 5, 7, 9] ⟨1⟩ 100 with pos := 1 }, mkCursor [3, 5, 9] ⟨1⟩ 100,
      { mkCursor [2, 3, 5, 9, 11] ⟨1⟩ 100 with pos := 1 }],
    candidate := 3, i := 3, skips := 2 }

/-- The state of the specification's example after the first pass through the
body: document `3` is recorded and the driver `B` stands on `5`. -/
def examplePassed : LoopState Binary32 :=
  { cursors := [{ mkCursor [1, 3, 5, 7, 9] ⟨1⟩ 100 with pos := 1 },
      { mkCursor [3, 5, 9] ⟨1⟩ 100 with pos := 1 },
      { mkCursor [2, 3, 5, 9, 11] ⟨1⟩ 100 with pos := 1 }],
    candidate := 5, i := 1, skips := 2 }

/-- The state in which the traversal of the specification's example ends. -/
def exampleFinal : LoopState Binary32 :=
  { cursors := [{ mkCursor [1, 3, 5, 7, 9] ⟨1⟩ 100 with pos := 4 },
      { mkCursor [3, 5, 9] ⟨1⟩ 100 with pos := 3 },
      { mkCursor [2, 3, 5, 9, 11] ⟨1⟩ 100 with pos := 3 }],
    candidate := 100, i := 1, skips := 6 }

/-! ## Lemmas -/

/-! ### Lists -/

theorem drop_length_takeWhile (p : Nat → Bool) (l : List Nat) :
    l.drop (l.takeWhile p).length = l.dropWhile p := by
  induction l with
  | nil => rfl
  | cons a l ih =>
    by_cases h : p a = true
    · simp [List.takeWhile_cons, List.dropWhile_cons, h, ih]
    · simp [List.takeWhile_cons, List.dropWhile_cons, h]

theorem take_length_takeWhile (p : Nat → Bool) (l : List Nat) :
    l.take (l.takeWhile p).length = l.takeWhile p := by
  induction l with
  | nil => rfl
  | cons a l ih =>
    by_cases h : p a = true
    · simp [List.takeWhile_cons, h, ih]
    · simp [List.takeWhile_cons, h]

/-- Dropping what lies below `t` leaves a head that is not below `t`. -/
theorem head_dropWhile_ge (t : Nat) (l : List Nat) (x : Nat)
    (h : (l.dropWhile (fun d => decide (d < t))).head? = some x) : t ≤ x := by
  have := List.head?_dropWhile_not (fun d => decide (d < t)) l
  rw [h] at this
  simpa using this

/-- The head of a strictly increasing list is its least element. -/
theorem head_le_of_mem {l : List Nat} (hs : l.Pairwise (· < ·)) {x d : Nat}
    (hx : l.head? = some x) (hd : d ∈ l) : x ≤ d := by
  cases l with
  | nil => simp at hd
  | cons a l =>
    simp at hx; subst hx
    rcases List.mem_cons.1 hd with rfl | hd
    · exact le_rfl
    · exact le_of_lt ((List.pairwise_cons.1 hs).1 d hd)

/-- A filter over `range` does not change across a gap without hits. -/
theorem filter_range_gap (p : Nat → Bool) {a b : Nat} (hab : a ≤ b)
    (h : ∀ d, a ≤ d → d < b → p d = false) :
    (List.range b).filter p = (List.range a).filter p := by
  induction b with
  | zero => simp at hab; subst hab; rfl
  | succ b ih =>
    rcases Nat.lt_or_ge a (b + 1) with hlt | hge
    · have hab2 : a ≤ b := Nat.lt_succ_iff.1 hlt
      rw [List.range_succ, List.filter_append, ih hab2 (fun d h1 h2 => h d h1 (by omega))]
      simp [h b hab2 (by omega)]
    · have : a = b + 1 := by omega
      subst this; rfl

theorem filter_range_hit (p : Nat → Bool) {a b : Nat} (hab : a < b) (ha : p a = true)
    (h : ∀ d, a < d → d < b → p d = false) :
    (List.range b).filter p = (List.range a).filter p ++ [a] := by
  rw [filter_range_gap p (Nat.succ_le_of_lt hab) (fun d h1 h2 => h d (by omega) h2),
    List.range_succ, List.filter_append]
  simp [ha]

namespace Cursor

theorem passed_append_remaining (c : Cursor S) : c.passed ++ c.remaining = c.docs :=
  List.take_append_drop _ _

theorem docid_eq_head (c : Cursor S) : c.docid = c.remaining.head?.getD c.sentinel := by
  simp [docid, remaining, List.getD_eq_getElem?_getD, List.head?_drop]

theorem remaining_next_geq (c : Cursor S) (t : Nat) :
    (c.next_geq t).remaining = c.remaining.dropWhile (fun d => decide (d < t)) := by
  simp only [remaining, next_geq]
  rw [← List.drop_drop, drop_length_takeWhile]

theorem passed_next_geq (c : Cursor S) (t : Nat) :
    (c.next_geq t).passed = c.passed ++ c.remaining.takeWhile (fun d => decide (d < t)) := by
  simp only [passed, remaining, next_geq]
  rw [List.take_add, take_length_takeWhile]

theorem remaining_next (c : Cursor S) : c.next.remaining = c.remaining.tail := by
  unfold next
  split
  · simp [remaining, List.tail_drop]
  · rename_i h
    have : c.docs.drop c.pos = [] := List.drop_eq_nil_of_le (by omega)
    simp [remaining, this]

theorem passed_next (c : Cursor S) : c.next.passed = c.passed ++ c.remaining.head?.toList := by
  unfold next
  split
  · simp [passed, remaining, List.take_succ, List.head?_drop]
  · rename_i h
    have : c.docs.drop c.pos = [] := List.drop_eq_nil_of_le (by omega)
    simp [remaining, this]

theorem reset_next_geq (c : Cursor S) (t : Nat) : (c.next_geq t).reset = c.reset := rfl

theorem reset_next (c : Cursor S) : c.next.reset = c.reset := by
  unfold next; split <;> rfl

theorem docs_eq_of_reset {c d : Cursor S} (h : c.reset = d.reset) : c.docs = d.docs :=
  show c.reset.docs = d.reset.docs from congrArg Cursor.docs h

theorem sentinel_eq_of_reset {c d : Cursor S} (h : c.reset = d.reset) :
    c.sentinel = d.sentinel :=
  show c.reset.sentinel = d.reset.sentinel from congrArg Cursor.sentinel h

theorem scores_eq_of_reset {c d : Cursor S} (h : c.reset = d.reset) : c.scores = d.scores :=
  show c.reset.scores = d.reset.scores from congrArg Cursor.scores h

/-- On a strictly increasing list, a posting that is not behind the cursor is
not below the current `docid()`. -/
theorem docid_le_of_mem {c : Cursor S} (hs : c.docs.Pairwise (· < ·)) {a d : Nat}
    (hp : ∀ x ∈ c.passed, x < a) (had : a ≤ d) (hd : d ∈ c.docs) : c.docid ≤ d := by
  rw [← c.passed_append_remaining, List.mem_append] at hd
  rcases hd with hd | hd
  · exact absurd (hp d hd) (by omega)
  · have hs2 : c.remaining.Pairwise (· < ·) := hs.sublist (List.drop_sublist _ _)
    rw [docid_eq_head]
    cases hr : c.remaining.head? with
    | none => rw [List.head?_eq_none_iff.1 hr] at hd; simp at hd
    | some x => simpa using head_le_of_mem hs2 hr hd

/-- After `next_geq(t)` no posting left behind reaches `t`. -/
theorem passed_next_geq_lt {c : Cursor S} {t : Nat} (hp : ∀ x ∈ c.passed, x < t) :
    ∀ x ∈ (c.next_geq t).passed, x < t := by
  intro x hx
  rw [passed_next_geq, List.mem_append] at hx
  rcases hx with hx | hx
  · exact hp x hx
  · simpa using List.mem_takeWhile_imp hx

/-- After `next_geq(t)` the cursor reports a position `>= t`, provided the
sentinel lies above `t`. -/
theorem le_docid_next_geq (c : Cursor S) {t : Nat} (hsent : t ≤ c.sentinel) :
    t ≤ (c.next_geq t).docid := by
  rw [docid_eq_head, remaining_next_geq]
  cases hr : (c.remaining.dropWhile (fun d => decide (d < t))).head? with
  | none => simpa using hsent
  | some x => simpa using head_dropWhile_ge t _ x hr

/-- A cursor that reports a position below its sentinel stands on a posting. -/
theorem remaining_of_docid_lt {c : Cursor S} (h : c.docid < c.sentinel) :
    ∃ l, c.remaining = c.docid :: l := by
  rw [docid_eq_head] at h ⊢
  cases hr : c.remaining with
  | nil => simp [hr] at h
  | cons a l => exact ⟨l, by simp⟩

theorem docid_mem_docs {c : Cursor S} (h : c.docid < c.sentinel) : c.docid ∈ c.docs := by
  obtain ⟨l, hl⟩ := remaining_of_docid_lt h
  rw [← c.passed_append_remaining, hl]
  simp

/-- After `next()` from a posting `a` that dominates what was left behind, the
new position is strictly larger and everything left behind is at most `a`. -/
theorem passed_next_lt {c : Cursor S} (hs : c.docs.Pairwise (· < ·))
    (h : c.docid < c.sentinel) (hp : ∀ x ∈ c.passed, x < c.docid) :
    c.docid < c.next.docid ∧ ∀ x ∈ c.next.passed, x ≤ c.docid := by
  obtain ⟨l, hl⟩ := remaining_of_docid_lt h
  have hs2 : c.remaining.Pairwise (· < ·) := hs.sublist (List.drop_sublist _ _)
  rw [hl] at hs2
  have hlt : c.docid < c.next.docid := by
    rw [docid_eq_head c.next, remaining_next, hl]
    cases l with
    | nil =>
      have hsen : c.next.sentinel = c.sentinel := sentinel_eq_of_reset (reset_next c)
      simp [hsen]; exact h
    | cons b l => simpa using (List.pairwise_cons.1 hs2).1 b (by simp)
  refine ⟨hlt, ?_⟩
  intro x hx
  rw [passed_next, hl, List.mem_append] at hx
  rcases hx with hx | hx
  · exact le_of_lt (hp x hx)
  · simp at hx; omega

end Cursor

theorem hit_eq_true {cursors : List (Cursor S)} {d : Nat} :
    hit cursors d = true ↔ ∀ c ∈ cursors, d ∈ c.docs := by
  simp [hit, List.all_eq_true]

theorem hit_eq_false {cursors : List (Cursor S)} {d : Nat} {c : Cursor S}
    (hc : c ∈ cursors) (hd : d ∉ c.docs) : hit cursors d = false := by
  rw [← Bool.not_eq_true, hit_eq_true]
  exact fun h => hd (h c hc)

theorem set_eq_self {α : Type} {l : List α} {p : Nat} {a : α} (h : l[p]? = some a) :
    l.set p a = l := by
  apply List.ext_getElem?
  intro j
  rw [List.getElem?_set]
  split
  · rename_i hpj
    subst hpj
    have hlt : p < l.length := by
      by_contra hn
      rw [List.getElem?_eq_none (by omega)] at h
      cases h
    simp [hlt, h]
  · rfl

theorem length_of_frame {cs cursors0 : List (Cursor S)}
    (h : cs.map Cursor.reset = cursors0.map Cursor.reset) : cs.length = cursors0.length := by
  simpa using congrArg List.length h

theorem mem_of_frame {cs cursors0 : List (Cursor S)}
    (h : cs.map Cursor.reset = cursors0.map Cursor.reset) {c : Cursor S} (hc : c ∈ cs) :
    ∃ c0 ∈ cursors0, c0.reset = c.reset := by
  have : c.reset ∈ cs.map Cursor.reset := List.mem_map_of_mem _ hc
  rw [h] at this
  obtain ⟨c0, h0, h1⟩ := List.mem_map.1 this
  exact ⟨c0, h0, h1⟩

theorem frame_set {cs cursors0 : List (Cursor S)}
    (h : cs.map Cursor.reset = cursors0.map Cursor.reset) {p : Nat} {c c1 : Cursor S}
    (hc : cs[p]? = some c) (hr : c1.reset = c.reset) :
    (cs.set p c1).map Cursor.reset = cursors0.map Cursor.reset := by
  rw [List.map_set, hr, set_eq_self, h]
  simp [List.getElem?_map, hc]

theorem Ctx.sorted_cur {cursors0 : List (Cursor S)} {ordered : List Nat} {M : Nat}
    (hctx : Ctx cursors0 ordered M) {cs : List (Cursor S)}
    (hf : cs.map Cursor.reset = cursors0.map Cursor.reset) {c : Cursor S} (hc : c ∈ cs) :
    c.docs.Pairwise (· < ·) ∧ M ≤ c.sentinel := by
  obtain ⟨c0, h0, h1⟩ := mem_of_frame hf hc
  rw [← Cursor.docs_eq_of_reset h1, ← Cursor.sentinel_eq_of_reset h1]
  exact ⟨hctx.sorted c0 h0, hctx.sentinel c0 h0⟩

theorem hit_false_cur {cursors0 cs : List (Cursor S)}
    (hf : cs.map Cursor.reset = cursors0.map Cursor.reset) {c : Cursor S} (hc : c ∈ cs)
    {d : Nat} (hd : d ∉ c.docs) : hit cursors0 d = false := by
  obtain ⟨c0, h0, h1⟩ := mem_of_frame hf hc
  exact hit_eq_false h0 (by rwa [Cursor.docs_eq_of_reset h1])

theorem forLoop_step (ordered : List Nat) (k : Nat) (s : LoopState S)
    (hi : s.i < ordered.length) {c : Cursor S} (hget : s.cursors[ordered[s.i]]? = some c) :
    forLoop ordered (k + 1) s =
      if (c.next_geq s.candidate).docid ≠ s.candidate then
        .ok { cursors := s.cursors.set ordered[s.i] (c.next_geq s.candidate),
              candidate := (c.next_geq s.candidate).docid, i := 0, skips := s.skips + 1 }
      else
        forLoop ordered k
          { cursors := s.cursors.set ordered[s.i] (c.next_geq s.candidate),
            candidate := s.candidate, i := s.i + 1, skips := s.skips + 1 } := by
  rw [forLoop, dif_pos hi]
  simp only [hget]

theorem forLoop_done (ordered : List Nat) (k : Nat) (s : LoopState S)
    (hi : ¬ s.i < ordered.length) : forLoop ordered k s = .ok s := by
  cases k with
  | zero => rw [forLoop, if_neg hi]
  | succ k => rw [forLoop, dif_neg hi]

/-- The inner `for` loop, started in a state that satisfies the invariant with a
candidate below the bound: it returns, the invariant holds again, no document
between the old and the new candidate is in every list, and either the scan
completed on the same candidate or it stopped at a strictly larger one. -/
theorem forLoop_spec {cursors0 : List (Cursor S)} {ordered : List Nat} {M : Nat}
    (hctx : Ctx cursors0 ordered M) :
    ∀ (k : Nat) (s : LoopState S), Inv cursors0 ordered s → s.candidate < M →
      ordered.length - s.i ≤ k →
      ∃ s1, forLoop ordered k s = .ok s1 ∧ Inv cursors0 ordered s1 ∧
        (∀ d, s.candidate ≤ d → d < s1.candidate → hit cursors0 d = false) ∧
        ((s1.i = ordered.length ∧ s1.candidate = s.candidate) ∨
          (s1.i = 0 ∧ s.candidate < s1.candidate)) := by
  intro k
  induction k with
  | zero =>
    intro s hinv _ hk
    have hi : ¬ s.i < ordered.length := by omega
    refine ⟨s, forLoop_done ordered 0 s hi, hinv, fun d h1 h2 => absurd h2 (by omega),
      Or.inl ⟨?_, rfl⟩⟩
    have := hinv.i_le
    omega
  | succ k ih =>
    intro s hinv hc hk
    by_cases hi : s.i < ordered.length
    · have hp : ordered[s.i] < s.cursors.length := by
        rw [length_of_frame hinv.frame]
        exact hctx.valid _ (List.getElem_mem _)
      have hget : s.cursors[ordered[s.i]]? = some s.cursors[ordered[s.i]] :=
        List.getElem?_eq_getElem hp
      have hmem : s.cursors[ordered[s.i]] ∈ s.cursors := List.getElem_mem _
      obtain ⟨hsorted, hsent⟩ := hctx.sorted_cur hinv.frame hmem
      have hge : s.candidate ≤ (s.cursors[ordered[s.i]].next_geq s.candidate).docid :=
        Cursor.le_docid_next_geq _ (by omega)
      have hpass := Cursor.passed_next_geq_lt (hinv.passed _ hmem)
      have hframe := frame_set hinv.frame hget (Cursor.reset_next_geq _ s.candidate)
      have hpassed : ∀ c ∈ s.cursors.set ordered[s.i]
            (s.cursors[ordered[s.i]].next_geq s.candidate), ∀ x ∈ c.passed, x < s.candidate := by
        intro c hcm x hx
        rcases List.mem_or_eq_of_mem_set hcm with h | h
        · exact hinv.passed c h x hx
        · subst h; exact hpass x hx
      by_cases hne : (s.cursors[ordered[s.i]].next_geq s.candidate).docid ≠ s.candidate
      · refine ⟨_, by rw [forLoop_step ordered k s hi hget, if_pos hne], ?_, ?_, Or.inr ⟨rfl, ?_⟩⟩
        · exact
            { frame := hframe
              passed := fun c hcm x hx => lt_of_lt_of_le (hpassed c hcm x hx) hge
              aligned := fun j _ hj => absurd hj (Nat.not_lt_zero j)
              i_le := Nat.zero_le _ }
        · intro d h1 h2
          have hmem1 : s.cursors[ordered[s.i]].next_geq s.candidate ∈
              s.cursors.set ordered[s.i] (s.cursors[ordered[s.i]].next_geq s.candidate) :=
            List.mem_iff_getElem?.2 ⟨_, List.getElem?_set_self hp⟩
          refine hit_false_cur hframe hmem1 (fun hd => ?_)
          have := Cursor.docid_le_of_mem (c := s.cursors[ordered[s.i]].next_geq s.candidate)
            hsorted hpass h1 hd
          exact absurd h2 (by simpa using this)
        · exact lt_of_le_of_ne hge (Ne.symm hne)
      · have heq : (s.cursors[ordered[s.i]].next_geq s.candidate).docid = s.candidate :=
          not_not.1 hne
        have hinv1 : Inv cursors0 ordered
            { cursors := s.cursors.set ordered[s.i] (s.cursors[ordered[s.i]].next_geq s.candidate),
              candidate := s.candidate, i := s.i + 1, skips := s.skips + 1 } :=
          { frame := hframe
            passed := hpassed
            aligned := by
              intro j hj hlt c hcj
              simp only at hcj hlt ⊢
              by_cases hpj : ordered[s.i] = ordered[j]
              · rw [← hpj, List.getElem?_set_self hp] at hcj
                cases hcj; exact heq
              · rw [List.getElem?_set_ne hpj] at hcj
                rcases Nat.lt_or_ge j s.i with h | h
                · exact hinv.aligned j hj h c hcj
                · have : j = s.i := by omega
                  subst this
                  exact absurd rfl hpj
            i_le := hi }
        obtain ⟨s1, h1, h2, h3, h4⟩ := ih _ hinv1 hc (by simp only; omega)
        refine ⟨s1, ?_, h2, h3, h4⟩
        rw [forLoop_step ordered k s hi hget, if_neg hne]
        exact h1
    · refine ⟨s, forLoop_done ordered (k + 1) s hi, hinv, fun d h1 h2 => absurd h2 (by omega),
        Or.inl ⟨?_, rfl⟩⟩
      have := hinv.i_le
      omega

/-- When the scan has reached the end of the view, every cursor of the
collection stands on the candidate. -/
theorem Inv.aligned_all {cursors0 : List (Cursor S)} {ordered : List Nat} {M : Nat}
    (hctx : Ctx cursors0 ordered M) {s : LoopState S} (hinv : Inv cursors0 ordered s)
    (hi : s.i = ordered.length) : ∀ c ∈ s.cursors, c.docid = s.candidate := by
  intro c hc
  obtain ⟨p, hp, rfl⟩ := List.mem_iff_getElem.1 hc
  have hmem : p ∈ ordered := hctx.cover p (by rwa [← length_of_frame hinv.frame])
  obtain ⟨j, hj, hjp⟩ := List.mem_iff_getElem.1 hmem
  refine hinv.aligned j hj (by omega) _ ?_
  rw [hjp]
  exact List.getElem?_eq_getElem hp

/-- At a confirmed intersection point the candidate is in every list. -/
theorem Inv.hit_candidate {cursors0 : List (Cursor S)} {ordered : List Nat} {M : Nat}
    (hctx : Ctx cursors0 ordered M) {s : LoopState S} (hinv : Inv cursors0 ordered s)
    (hi : s.i = ordered.length) (hc : s.candidate < M) : hit cursors0 s.candidate = true := by
  rw [hit_eq_true]
  intro c0 h0
  have : c0.reset ∈ s.cursors.map Cursor.reset := by
    rw [hinv.frame]; exact List.mem_map_of_mem _ h0
  obtain ⟨c, hcm, hr⟩ := List.mem_map.1 this
  have hd := hinv.aligned_all hctx hi c hcm
  have hsent := (hctx.sorted_cur hinv.frame hcm).2
  rw [← Cursor.docs_eq_of_reset hr, ← hd]
  exact Cursor.docid_mem_docs (by omega)

/-- Advancing the driver after a confirmed intersection point: the step
succeeds, the invariant holds again with `i = 1`, the candidate grows strictly
and no document in between is in every list. -/
theorem advanceDriver_spec {cursors0 : List (Cursor S)} {ordered : List Nat} {M : Nat}
    (hctx : Ctx cursors0 ordered M) {s : LoopState S} (hinv : Inv cursors0 ordered s)
    (hi : s.i = ordered.length) (hc : s.candidate < M) :
    ∃ s2, advanceDriver ordered s = .ok s2 ∧ Inv cursors0 ordered s2 ∧
      s.candidate < s2.candidate ∧
      (∀ d, s.candidate < d → d < s2.candidate → hit cursors0 d = false) := by
  have hn := hctx.nonempty
  have h0 : ordered[0]? = some ordered[0] := List.getElem?_eq_getElem hn
  have hp : ordered[0] < s.cursors.length := by
    rw [length_of_frame hinv.frame]
    exact hctx.valid _ (List.getElem_mem _)
  have hget : s.cursors[ordered[0]]? = some s.cursors[ordered[0]] := List.getElem?_eq_getElem hp
  have hmem : s.cursors[ordered[0]] ∈ s.cursors := List.getElem_mem _
  obtain ⟨hsorted, hsent⟩ := hctx.sorted_cur hinv.frame hmem
  have hd := hinv.aligned_all hctx hi _ hmem
  have hpass : ∀ x ∈ (s.cursors[ordered[0]]).passed, x < (s.cursors[ordered[0]]).docid := by
    rw [hd]; exact hinv.passed _ hmem
  obtain ⟨hlt, hnp⟩ := Cursor.passed_next_lt hsorted (by omega) hpass
  rw [hd] at hlt hnp
  have hframe := frame_set hinv.frame hget (Cursor.reset_next _)
  refine ⟨{ cursors := s.cursors.set ordered[0] (s.cursors[ordered[0]]).next,
            candidate := (s.cursors[ordered[0]]).next.docid, i := 1, skips := s.skips },
    by simp only [advanceDriver, h0, hget], ?_, hlt, ?_⟩
  · exact
      { frame := hframe
        passed := by
          intro c hcm x hx
          rcases List.mem_or_eq_of_mem_set hcm with h | h
          · exact lt_trans (hinv.passed c h x hx) hlt
          · subst h; exact lt_of_le_of_lt (hnp x hx) hlt
        aligned := by
          intro j hj hj1 c hcj
          have : j = 0 := by simpa using hj1
          subst this
          simp only at hcj ⊢
          rw [List.getElem?_set_self hp] at hcj
          cases hcj; rfl
        i_le := hn }
  · intro d h1 h2
    have hmem1 : (s.cursors[ordered[0]]).next ∈ s.cursors.set ordered[0] (s.cursors[ordered[0]]).next :=
      List.mem_iff_getElem?.2 ⟨_, List.getElem?_set_self hp⟩
    refine hit_false_cur hframe hmem1 (fun hdm => ?_)
    have hdocs : (s.cursors[ordered[0]]).next.docs = (s.cursors[ordered[0]]).docs :=
      Cursor.docs_eq_of_reset (Cursor.reset_next _)
    have := Cursor.docid_le_of_mem (c := (s.cursors[ordered[0]]).next) (a := d)
      (by rw [hdocs]; exact hsorted) (fun x hx => lt_of_le_of_lt (hnp x hx) h1) le_rfl hdm
    simp only at h2
    omega

/-- One pass through the body of the `while` loop of `and_query`. -/
theorem and_query_body_spec {cursors0 : List (Cursor S)} {ordered : List Nat} {M : Nat}
    (hctx : Ctx cursors0 ordered M) {s : LoopState S} (hinv : Inv cursors0 ordered s)
    (hc : s.candidate < M) :
    ∃ s1, and_query_body ordered s ((List.range s.candidate).filter (hit cursors0)) =
        .ok (s1, (List.range (min s1.candidate M)).filter (hit cursors0)) ∧
      Inv cursors0 ordered s1 ∧ s.candidate < s1.candidate := by
  obtain ⟨s1, h1, hinv1, hgap, hcase⟩ := forLoop_spec hctx _ s hinv hc le_rfl
  rcases hcase with ⟨hi, hcand⟩ | ⟨hi, hlt⟩
  · obtain ⟨s2, h2, hinv2, hlt2, hgap2⟩ := advanceDriver_spec hctx hinv1 hi (by omega)
    have hhit := hinv1.hit_candidate hctx hi (by omega)
    refine ⟨s2, ?_, hinv2, by omega⟩
    simp only [and_query_body, h1, if_pos hi, h2]
    rw [hcand] at hhit hgap2 hlt2 ⊢
    rw [filter_range_hit (hit cursors0) (a := s.candidate) (b := min s2.candidate M)
      (by omega) hhit (fun d hd1 hd2 => hgap2 d hd1 (by omega))]
  · have hn := hctx.nonempty
    refine ⟨s1, ?_, hinv1, hlt⟩
    simp only [and_query_body, h1, if_neg (show ¬ s1.i = ordered.length by omega)]
    rw [filter_range_gap (hit cursors0) (a := s.candidate) (b := min s1.candidate M)
      (by omega) (fun d hd1 hd2 => hgap d hd1 (by omega))]

/-- The `while` loop of `and_query` returns with the whole intersection once the
fuel covers the distance of the candidate to the bound. -/
theorem and_query_loop_spec {cursors0 : List (Cursor S)} {ordered : List Nat} {M : Nat}
    (hctx : Ctx cursors0 ordered M) :
    ∀ (fuel : Nat) (s : LoopState S), Inv cursors0 ordered s → M ≤ s.candidate + fuel →
      ∃ s1, and_query_loop ordered M fuel s
          ((List.range (min s.candidate M)).filter (hit cursors0)) =
          .ok (s1, (List.range M).filter (hit cursors0)) ∧
        Inv cursors0 ordered s1 ∧ M ≤ s1.candidate := by
  intro fuel
  induction fuel with
  | zero =>
    intro s hinv hf
    have hc : ¬ s.candidate < M := by omega
    refine ⟨s, ?_, hinv, by omega⟩
    rw [and_query_loop, if_neg hc, Nat.min_eq_right (by omega)]
  | succ fuel ih =>
    intro s hinv hf
    by_cases hc : s.candidate < M
    · obtain ⟨s1, h1, hinv1, hlt⟩ := and_query_body_spec hctx hinv hc
      obtain ⟨s2, h2, hinv2, hge⟩ := ih s1 hinv1 (by omega)
      refine ⟨s2, ?_, hinv2, hge⟩
      rw [and_query_loop, if_pos hc, Nat.min_eq_left (by omega)]
      simp only [h1]
      exact h2
    · refine ⟨s, ?_, hinv, by omega⟩
      rw [and_query_loop, if_neg hc, Nat.min_eq_right (by omega)]

/-- The view built from a non-empty collection of well-formed cursors points
exactly at the cursors of the collection. -/
theorem ctx_of_wellFormed {sort : (Nat → Nat → Bool) → List Nat → List Nat}
    (hsort : StdSort sort) {cursors : List (Cursor S)} {M : Nat} (hne : cursors ≠ [])
    (hwf : ∀ c ∈ cursors, c.WellFormed M) : Ctx cursors (ordered_cursors sort cursors) M := by
  have hperm := (hsort (sizeAt cursors) (List.range cursors.length)).1
  exact
    { sorted := fun c hc => (hwf c hc).1
      sentinel := fun c hc => (hwf c hc).2.2
      valid := fun p hp => List.mem_range.1 ((hperm.mem_iff).1 hp)
      cover := fun p hp => (hperm.mem_iff).2 (List.mem_range.2 hp)
      nonempty := by
        show 0 < (ordered_cursors sort cursors).length
        unfold ordered_cursors
        rw [hperm.length_eq, List.length_range]
        exact List.length_pos.2 hne }

/-- The state in which the traversal starts satisfies the invariant, and no
document below the first candidate is in every list. -/
theorem inv_init {cursors : List (Cursor S)} {ordered : List Nat} {M : Nat}
    (hctx : Ctx cursors ordered M) (hpos : ∀ c ∈ cursors, c.pos = 0) {c : Cursor S}
    (hget : cursors[ordered[0]?.getD 0]? = some c) :
    Inv cursors ordered { cursors := cursors, candidate := c.docid, i := 1, skips := 0 } ∧
      (List.range (min c.docid M)).filter (hit cursors) = [] := by
  have hn := hctx.nonempty
  have h0 : ordered[0]? = some ordered[0] := List.getElem?_eq_getElem hn
  rw [h0] at hget
  simp only [Option.getD_some] at hget
  have hmem : c ∈ cursors := List.mem_iff_getElem?.2 ⟨_, hget⟩
  constructor
  · exact
      { frame := rfl
        passed := fun c1 h1 x hx => by simp [Cursor.passed, hpos c1 h1] at hx
        aligned := by
          intro j hj hj1 c1 hcj
          have : j = 0 := by simpa using hj1
          subst this
          simp only at hcj ⊢
          rw [hget] at hcj
          cases hcj; rfl
        i_le := hn }
  · rw [List.filter_eq_nil_iff]
    intro d hd
    rw [List.mem_range] at hd
    rw [hit_eq_false hmem]
    · simp
    · intro hdm
      have := Cursor.docid_le_of_mem (c := c) (a := 0) (hctx.sorted c hmem)
        (fun x hx => by simp [Cursor.passed, hpos c hmem] at hx) (Nat.zero_le _) hdm
      omega

/-- The run of `and_query` on well-formed cursors. -/
theorem and_query_run_spec {sort : (Nat → Nat → Bool) → List Nat → List Nat}
    (hsort : StdSort sort) {cursors : List (Cursor S)} {M : Nat} (hne : cursors ≠ [])
    (hwf : ∀ c ∈ cursors, c.WellFormed M) (fuel : Nat) (hfuel : M ≤ fuel) :
    ∃ s1, and_query_run sort fuel cursors M = .ok (s1, intersectionBelow cursors M) ∧
      Inv cursors (ordered_cursors sort cursors) s1 := by
  have hctx := ctx_of_wellFormed hsort hne hwf
  have hn := hctx.nonempty
  have h0 : (ordered_cursors sort cursors)[0]? = some (ordered_cursors sort cursors)[0] :=
    List.getElem?_eq_getElem hn
  have hp : (ordered_cursors sort cursors)[0] < cursors.length :=
    hctx.valid _ (List.getElem_mem _)
  have hget : cursors[(ordered_cursors sort cursors)[0]]? =
      some cursors[(ordered_cursors sort cursors)[0]] := List.getElem?_eq_getElem hp
  obtain ⟨hinv, hnil⟩ := inv_init hctx (fun c hc => (hwf c hc).2.1)
    (c := cursors[(ordered_cursors sort cursors)[0]]) (by rw [h0]; exact hget)
  obtain ⟨s1, h1, hinv1, _⟩ := and_query_loop_spec hctx fuel _ hinv (by simp only; omega)
  refine ⟨s1, ?_, hinv1⟩
  have hemp : cursors.isEmpty = false := by
    cases cursors with
    | nil => exact absurd rfl hne
    | cons a l => rfl
  simp only [hnil] at h1
  simp only [and_query_run, hemp, h0, hget]
  exact h1

namespace Cursor

theorem scoreAt_reset (c : Cursor S) (d : Nat) : c.reset.scoreAt d = c.scoreAt d := rfl

/-- A scored cursor standing on a posting reports the score of that posting. -/
theorem score_eq_scoreAt {c : Cursor S} (hs : c.docs.Pairwise (· < ·))
    (h : c.docid < c.sentinel) (hlen : c.scores.length = c.docs.length) :
    ∃ x, c.score = some x ∧ c.scoreAt c.docid = some x := by
  obtain ⟨l, hl⟩ := remaining_of_docid_lt h
  have hdocs := c.passed_append_remaining
  rw [hl] at hdocs
  have hpos : c.pos < c.docs.length := by
    by_contra hn
    have : c.remaining = [] := List.drop_eq_nil_of_le (by omega)
    rw [this] at hl; cases hl
  have hplen : c.passed.length = c.pos := by
    simp [passed, List.length_take]; omega
  have hnot : c.docid ∉ c.passed := by
    intro hm
    rw [← hdocs, List.pairwise_append] at hs
    exact absurd (hs.2.2 _ hm _ (List.mem_cons_self _ _)) (lt_irrefl _)
  have hidx : c.docs.indexOf c.docid = c.pos := by
    rw [← hdocs, List.indexOf_append_of_not_mem hnot, List.indexOf_cons_self, hplen]
    rfl
  have hsome : c.pos < c.scores.length := by omega
  refine ⟨c.scores[c.pos], ?_, ?_⟩
  · simp [score, List.getElem?_eq_getElem hsome]
  · simp [scoreAt, hidx, List.getElem?_eq_getElem hsome]

end Cursor

/-- The summation loop of `scored_and_query` computes the specification's fold
when every pointer of the view leads to a cursor that reports the score of `d`. -/
theorem sumScores_spec [Add S] {cs cursors0 : List (Cursor S)} (d : Nat) :
    ∀ (ps : List Nat) (acc : S),
      (∀ p ∈ ps, ∃ c c0 x, cs[p]? = some c ∧ cursors0[p]? = some c0 ∧ c.score = some x ∧
        c0.scoreAt d = some x) →
      ∃ t, sumScores cs ps acc = .ok t ∧
        (ps.filterMap (fun p => cursors0[p]?)).foldl (addScore d) (some acc) = some t := by
  intro ps
  induction ps with
  | nil => intro acc _; exact ⟨acc, rfl, rfl⟩
  | cons p ps ih =>
    intro acc h
    obtain ⟨c, c0, x, h1, h2, h3, h4⟩ := h p (List.mem_cons_self _ _)
    obtain ⟨t, ht1, ht2⟩ := ih (acc + x) (fun q hq => h q (List.mem_cons_of_mem _ hq))
    refine ⟨t, ?_, ?_⟩
    · simp only [sumScores, h1, h3]; exact ht1
    · simp only [List.filterMap_cons, h2, List.foldl_cons, addScore, h4]; exact ht2

/-- At a confirmed intersection point every pointer of the view leads to a
cursor that reports the score of the candidate. -/
theorem Inv.scores_ready {cursors0 : List (Cursor S)} {ordered : List Nat} {M : Nat}
    (hctx : Ctx cursors0 ordered M)
    (hlen : ∀ c ∈ cursors0, c.scores.length = c.docs.length)
    {s : LoopState S} (hinv : Inv cursors0 ordered s)
    (hi : s.i = ordered.length) (hc : s.candidate < M) :
    ∀ p ∈ ordered, ∃ c c0 x, s.cursors[p]? = some c ∧ cursors0[p]? = some c0 ∧
      c.score = some x ∧ c0.scoreAt s.candidate = some x := by
  intro p hp
  have hp0 : p < cursors0.length := hctx.valid p hp
  have hp1 : p < s.cursors.length := by rwa [length_of_frame hinv.frame]
  have hmem : s.cursors[p] ∈ s.cursors := List.getElem_mem _
  have hr : (s.cursors[p]).reset = (cursors0[p]).reset := by
    have := congrArg (fun l => l[p]?) hinv.frame
    simp only [List.getElem?_map, List.getElem?_eq_getElem hp0,
      List.getElem?_eq_getElem hp1, Option.map_some'] at this
    exact Option.some.inj this
  obtain ⟨hsorted, hsent⟩ := hctx.sorted_cur hinv.frame hmem
  have hd := hinv.aligned_all hctx hi _ hmem
  have hl : (s.cursors[p]).scores.length = (s.cursors[p]).docs.length := by
    rw [Cursor.scores_eq_of_reset hr, Cursor.docs_eq_of_reset hr]
    exact hlen _ (List.getElem_mem _)
  obtain ⟨x, hx1, hx2⟩ := Cursor.score_eq_scoreAt hsorted (by omega) hl
  refine ⟨_, _, x, List.getElem?_eq_getElem hp1, List.getElem?_eq_getElem hp0, hx1, ?_⟩
  rw [← Cursor.scoreAt_reset, ← hr, Cursor.scoreAt_reset, ← hd]
  exact hx2

/-- One pass through the body of the `while` loop of `scored_and_query`. -/
theorem scored_and_query_body_spec [Add S] [Zero S] {cursors0 : List (Cursor S)}
    {ordered : List Nat} {M : Nat} (hctx : Ctx cursors0 ordered M)
    (hlen : ∀ c ∈ cursors0, c.scores.length = c.docs.length)
    {s : LoopState S} (hinv : Inv cursors0 ordered s) (hc : s.candidate < M)
    (res : List (Nat × S))
    (hres : res.map Prod.fst = (List.range s.candidate).filter (hit cursors0))
    (hsc : ∀ x ∈ res, specScore (ordered.filterMap (fun p => cursors0[p]?)) x.1 = some x.2) :
    ∃ s1 res1, scored_and_query_body ordered s res = .ok (s1, res1) ∧
      res1.map Prod.fst = (List.range (min s1.candidate M)).filter (hit cursors0) ∧
      (∀ x ∈ res1, specScore (ordered.filterMap (fun p => cursors0[p]?)) x.1 = some x.2) ∧
      Inv cursors0 ordered s1 ∧ s.candidate < s1.candidate := by
  obtain ⟨s1, h1, hinv1, hgap, hcase⟩ := forLoop_spec hctx _ s hinv hc le_rfl
  rcases hcase with ⟨hi, hcand⟩ | ⟨hi, hlt⟩
  · obtain ⟨s2, h2, hinv2, hlt2, hgap2⟩ := advanceDriver_spec hctx hinv1 hi (by omega)
    have hhit := hinv1.hit_candidate hctx hi (by omega)
    obtain ⟨t, ht1, ht2⟩ := sumScores_spec s1.candidate ordered (0 : S)
      (hinv1.scores_ready hctx hlen hi (by omega))
    refine ⟨s2, res ++ [(s1.candidate, t)], ?_, ?_, ?_, hinv2, by omega⟩
    · simp only [scored_and_query_body, h1, if_pos hi, ht1, h2]
    · rw [hcand] at hhit hgap2 hlt2 ⊢
      rw [filter_range_hit (hit cursors0) (a := s.candidate) (b := min s2.candidate M)
        (by omega) hhit (fun d hd1 hd2 => hgap2 d hd1 (by omega))]
      simp [hres]
    · intro x hx
      rcases List.mem_append.1 hx with hx | hx
      · exact hsc x hx
      · simp only [List.mem_singleton] at hx
        subst hx
        exact ht2
  · have hn := hctx.nonempty
    refine ⟨s1, res, ?_, ?_, hsc, hinv1, hlt⟩
    · simp only [scored_and_query_body, h1, if_neg (show ¬ s1.i = ordered.length by omega)]
    · rw [filter_range_gap (hit cursors0) (a := s.candidate) (b := min s1.candidate M)
        (by omega) (fun d hd1 hd2 => hgap d hd1 (by omega))]
      exact hres

/-- The `while` loop of `scored_and_query` returns once the fuel covers the
distance of the candidate to the bound; the documents it returns are the whole
intersection and every score is the specification's sum. -/
theorem scored_and_query_loop_spec [Add S] [Zero S] {cursors0 : List (Cursor S)}
    {ordered : List Nat} {M : Nat} (hctx : Ctx cursors0 ordered M)
    (hlen : ∀ c ∈ cursors0, c.scores.length = c.docs.length) :
    ∀ (fuel : Nat) (s : LoopState S) (res : List (Nat × S)),
      Inv cursors0 ordered s → M ≤ s.candidate + fuel →
      res.map Prod.fst = (List.range (min s.candidate M)).filter (hit cursors0) →
      (∀ x ∈ res, specScore (ordered.filterMap (fun p => cursors0[p]?)) x.1 = some x.2) →
      ∃ s1 res1, scored_and_query_loop ordered M fuel s res = .ok (s1, res1) ∧
        res1.map Prod.fst = (List.range M).filter (hit cursors0) ∧
        (∀ x ∈ res1, specScore (ordered.filterMap (fun p => cursors0[p]?)) x.1 = some x.2) ∧
        Inv cursors0 ordered s1 ∧ M ≤ s1.candidate := by
  intro fuel
  induction fuel with
  | zero =>
    intro s res hinv hf hres hsc
    have hc : ¬ s.candidate < M := by omega
    refine ⟨s, res, ?_, ?_, hsc, hinv, by omega⟩
    · rw [scored_and_query_loop, if_neg hc]
    · rw [hres, Nat.min_eq_right (by omega)]
  | succ fuel ih =>
    intro s res hinv hf hres hsc
    by_cases hc : s.candidate < M
    · rw [Nat.min_eq_left (by omega)] at hres
      obtain ⟨s1, res1, h1, hres1, hsc1, hinv1, hlt⟩ :=
        scored_and_query_body_spec hctx hlen hinv hc res hres hsc
      obtain ⟨s2, res2, h2, hres2, hsc2, hinv2, hge⟩ := ih s1 res1 hinv1 (by omega) hres1 hsc1
      refine ⟨s2, res2, ?_, hres2, hsc2, hinv2, hge⟩
      rw [scored_and_query_loop, if_pos hc]
      simp only [h1]
      exact h2
    · refine ⟨s, res, ?_, ?_, hsc, hinv, by omega⟩
      · rw [scored_and_query_loop, if_neg hc]
      · rw [hres, Nat.min_eq_right (by omega)]

/-- The run of `scored_and_query` on well-formed scored cursors. -/
theorem scored_and_query_run_spec [Add S] [Zero S]
    {sort : (Nat → Nat → Bool) → List Nat → List Nat}
    (hsort : StdSort sort) {cursors : List (Cursor S)} {M : Nat} (hne : cursors ≠ [])
    (hwf : ∀ c ∈ cursors, c.WellFormedScored M) (fuel : Nat) (hfuel : M ≤ fuel) :
    ∃ s1 res, scored_and_query_run sort fuel cursors M = .ok (s1, res) ∧
      res.map Prod.fst = intersectionBelow cursors M ∧
      (∀ x ∈ res, specScore (orderedView sort cursors) x.1 = some x.2) ∧
      Inv cursors (ordered_cursors sort cursors) s1 := by
  have hctx := ctx_of_wellFormed hsort hne (fun c hc => (hwf c hc).1)
  have hn := hctx.nonempty
  have h0 : (ordered_cursors sort cursors)[0]? = some (ordered_cursors sort cursors)[0] :=
    List.getElem?_eq_getElem hn
  have hp : (ordered_cursors sort cursors)[0] < cursors.length :=
    hctx.valid _ (List.getElem_mem _)
  have hget : cursors[(ordered_cursors sort cursors)[0]]? =
      some cursors[(ordered_cursors sort cursors)[0]] := List.getElem?_eq_getElem hp
  obtain ⟨hinv, hnil⟩ := inv_init hctx (fun c hc => (hwf c hc).1.2.1)
    (c := cursors[(ordered_cursors sort cursors)[0]]) (by rw [h0]; exact hget)
  obtain ⟨s1, res, h1, hres, hsc, hinv1, _⟩ :=
    scored_and_query_loop_spec hctx (fun c hc => (hwf c hc).2) fuel _ [] hinv
      (by simp only; omega) (by rw [hnil]; rfl) (fun x hx => by simp at hx)
  refine ⟨s1, res, ?_, hres, hsc, hinv1⟩
  have hemp : cursors.isEmpty = false := by
    cases cursors with
    | nil => exact absurd rfl hne
    | cons a l => rfl
  simp only [scored_and_query_run, hemp, h0, hget]
  exact h1

/-- Insertion sort meets the contract of `std::sort`. -/
theorem stdSort_insertionSort : StdSort insertionSort := by
  intro key l
  have hrel : ∀ a b : Nat, (decide (key b < key a) = false) ↔ key a ≤ key b := by
    intro a b; simp
  haveI : IsTotal Nat (fun a b => decide (key b < key a) = false) :=
    ⟨fun a b => by simp only [hrel]; exact le_total _ _⟩
  haveI : IsTrans Nat (fun a b => decide (key b < key a) = false) :=
    ⟨fun a b c => by simp only [hrel]; exact le_trans⟩
  refine ⟨List.perm_insertionSort _ l, ?_⟩
  have := List.sorted_insertionSort (fun a b => decide (key b < key a) = false) l
  exact List.Pairwise.imp (fun {a b} h => (hrel a b).1 h) this

theorem filterMap_range_getElem {α : Type} (l : List α) :
    (List.range l.length).filterMap (fun p => l[p]?) = l := by
  induction l with
  | nil => rfl
  | cons a l ih =>
    rw [List.length_cons, List.range_succ_eq_map, List.filterMap_cons]
    simp only [List.getElem?_cons_zero, List.filterMap_map]
    have hfun : ((fun p => (a :: l)[p]?) ∘ Nat.succ) = fun p => l[p]? := by
      funext p; simp
    rw [hfun, ih]

/-- The view holds every cursor of the collection exactly once. -/
theorem orderedView_perm {sort : (Nat → Nat → Bool) → List Nat → List Nat}
    (hsort : StdSort sort) (cursors : List (Cursor S)) :
    (orderedView sort cursors).Perm cursors := by
  have hperm := (hsort (sizeAt cursors) (List.range cursors.length)).1
  have := hperm.filterMap (fun p => cursors[p]?)
  rw [filterMap_range_getElem] at this
  exact this

/-- In the view `size()` does not decrease. -/
theorem orderedView_sorted {sort : (Nat → Nat → Bool) → List Nat → List Nat}
    (hsort : StdSort sort) (cursors : List (Cursor S)) :
    (orderedView sort cursors).Pairwise (fun a b => a.size ≤ b.size) := by
  have hs := (hsort (sizeAt cursors) (List.range cursors.length)).2
  refine List.Pairwise.filterMap _ ?_ hs
  intro p q hpq a ha b hb
  simp only [Option.mem_def] at ha hb
  simpa [sizeAt, ha, hb] using hpq

theorem intersectionBelow_sorted (cursors : List (Cursor S)) (M : Nat) :
    (intersectionBelow cursors M).Pairwise (· < ·) :=
  (List.pairwise_lt_range M).filter _

theorem mem_intersectionBelow {cursors : List (Cursor S)} {M d : Nat} :
    d ∈ intersectionBelow cursors M ↔ d < M ∧ ∀ c ∈ cursors, d ∈ c.docs := by
  simp [intersectionBelow, List.mem_filter, hit_eq_true]

/-- Two strictly increasing lists with the same elements are equal. -/
theorem eq_of_sorted_of_mem_iff {l₁ l₂ : List Nat} (h₁ : l₁.Pairwise (· < ·))
    (h₂ : l₂.Pairwise (· < ·)) (h : ∀ d, d ∈ l₁ ↔ d ∈ l₂) : l₁ = l₂ := by
  have hn₁ : l₁.Nodup := h₁.imp (fun {a b} hab => Nat.ne_of_lt hab)
  have hn₂ : l₂.Nodup := h₂.imp (fun {a b} hab => Nat.ne_of_lt hab)
  exact List.eq_of_perm_of_sorted ((List.perm_ext_iff_of_nodup hn₁ hn₂).2 h) h₁ h₂

/-- The intersection does not depend on the order of the collection. -/
theorem intersectionBelow_perm {cursors cursors1 : List (Cursor S)}
    (h : cursors.Perm cursors1) (M : Nat) :
    intersectionBelow cursors M = intersectionBelow cursors1 M := by
  apply eq_of_sorted_of_mem_iff (intersectionBelow_sorted _ _) (intersectionBelow_sorted _ _)
  intro d
  simp only [mem_intersectionBelow]
  constructor
  · rintro ⟨h1, h2⟩; exact ⟨h1, fun c hc => h2 c (h.mem_iff.2 hc)⟩
  · rintro ⟨h1, h2⟩; exact ⟨h1, fun c hc => h2 c (h.mem_iff.1 hc)⟩

/-- The intersection of a single strictly increasing list is its part below the
bound. -/
theorem intersectionBelow_single {c : Cursor S} (hs : c.docs.Pairwise (· < ·)) (M : Nat) :
    intersectionBelow [c] M = c.docs.filter (fun d => decide (d < M)) := by
  apply eq_of_sorted_of_mem_iff (intersectionBelow_sorted _ _) (hs.filter _)
  intro d
  simp [mem_intersectionBelow, List.mem_filter, and_comm]

/-! ### The two variants run the same traversal -/

theorem body_simulation [Add S] [Zero S] {ordered : List Nat} {s s1 : LoopState S}
    {res res1 : List (Nat × S)}
    (h : scored_and_query_body ordered s res = .ok (s1, res1)) :
    and_query_body ordered s (res.map Prod.fst) = .ok (s1, res1.map Prod.fst) := by
  unfold scored_and_query_body at h
  unfold and_query_body
  cases hf : forLoop ordered (ordered.length - s.i) s with
  | error e => rw [hf] at h; cases h
  | ok s2 =>
    rw [hf] at h
    simp only at h ⊢
    by_cases hi : s2.i = ordered.length
    · rw [if_pos hi] at h ⊢
      cases hsum : sumScores s2.cursors ordered 0 with
      | error e => rw [hsum] at h; cases h
      | ok score =>
        rw [hsum] at h
        simp only at h
        cases hadv : advanceDriver ordered s2 with
        | error e => rw [hadv] at h; cases h
        | ok s3 =>
          rw [hadv] at h
          simp only [Except.ok.injEq, Prod.mk.injEq] at h ⊢
          obtain ⟨rfl, rfl⟩ := h
          simp
    · rw [if_neg hi] at h ⊢
      simp only [Except.ok.injEq, Prod.mk.injEq] at h ⊢
      obtain ⟨rfl, rfl⟩ := h
      simp

theorem loop_simulation [Add S] [Zero S] {ordered : List Nat} {M : Nat} :
    ∀ (fuel : Nat) (s s1 : LoopState S) (res res1 : List (Nat × S)),
      scored_and_query_loop ordered M fuel s res = .ok (s1, res1) →
      and_query_loop ordered M fuel s (res.map Prod.fst) = .ok (s1, res1.map Prod.fst) := by
  intro fuel
  induction fuel with
  | zero =>
    intro s s1 res res1 h
    rw [scored_and_query_loop] at h
    rw [and_query_loop]
    by_cases hc : s.candidate < M
    · rw [if_pos hc] at h; cases h
    · rw [if_neg hc] at h ⊢
      simp only [Except.ok.injEq, Prod.mk.injEq] at h ⊢
      obtain ⟨rfl, rfl⟩ := h
      simp
  | succ fuel ih =>
    intro s s1 res res1 h
    rw [scored_and_query_loop] at h
    rw [and_query_loop]
    by_cases hc : s.candidate < M
    · rw [if_pos hc] at h ⊢
      cases hb : scored_and_query_body ordered s res with
      | error e => rw [hb] at h; cases h
      | ok x =>
        obtain ⟨s2, res2⟩ := x
        rw [hb] at h
        simp only at h
        rw [body_simulation hb]
        exact ih _ _ _ _ h
    · rw [if_neg hc] at h ⊢
      simp only [Except.ok.injEq, Prod.mk.injEq] at h ⊢
      obtain ⟨rfl, rfl⟩ := h
      simp

theorem run_simulation [Add S] [Zero S] {sort : (Nat → Nat → Bool) → List Nat → List Nat}
    {fuel : Nat} {cursors : List (Cursor S)} {M : Nat} {s1 : LoopState S}
    {res1 : List (Nat × S)}
    (h : scored_and_query_run sort fuel cursors M = .ok (s1, res1)) :
    and_query_run sort fuel cursors M = .ok (s1, res1.map Prod.fst) := by
  unfold scored_and_query_run at h
  unfold and_query_run
  by_cases he : cursors.isEmpty = true
  · rw [if_pos he] at h ⊢
    simp only [Except.ok.injEq, Prod.mk.injEq] at h ⊢
    obtain ⟨rfl, rfl⟩ := h
    simp
  · rw [if_neg he] at h ⊢
    cases h0 : (ordered_cursors sort cursors)[0]? with
    | none => rw [h0] at h; cases h
    | some p =>
      rw [h0] at h
      simp only at h ⊢
      cases hc : cursors[p]? with
      | none => rw [hc] at h; cases h
      | some c =>
        rw [hc] at h
        simp only at h ⊢
        exact loop_simulation _ _ _ _ _ h

theorem query_simulation [Add S] [Zero S] {sort : (Nat → Nat → Bool) → List Nat → List Nat}
    {fuel : Nat} {cursors : List (Cursor S)} {M : Nat} {res : List (Nat × S)}
    (h : scored_and_query sort fuel cursors M = .ok res) :
    and_query sort fuel cursors M = .ok (res.map Prod.fst) := by
  unfold scored_and_query at h
  unfold and_query
  cases hr : scored_and_query_run sort fuel cursors M with
  | error e => rw [hr] at h; cases h
  | ok x =>
    obtain ⟨s1, res1⟩ := x
    rw [hr] at h
    simp only [Except.ok.injEq] at h
    subst h
    rw [run_simulation hr]

/-! ### What holds of every run, well-formed or not -/

/-- The inner loop either keeps the candidate or leaves with `i = 0`. -/
theorem forLoop_candidate (ordered : List Nat) :
    ∀ (k : Nat) (s s1 : LoopState S), forLoop ordered k s = .ok s1 →
      s1.candidate = s.candidate ∨ s1.i = 0 := by
  intro k
  induction k with
  | zero =>
    intro s s1 h
    rw [forLoop] at h
    split at h
    · cases h
    · cases h; exact Or.inl rfl
  | succ k ih =>
    intro s s1 h
    by_cases hi : s.i < ordered.length
    · cases hget : s.cursors[ordered[s.i]]? with
      | none =>
        rw [forLoop, dif_pos hi] at h
        simp only [hget] at h
        cases h
      | some c =>
        rw [forLoop_step ordered k s hi hget] at h
        by_cases hne : (c.next_geq s.candidate).docid ≠ s.candidate
        · rw [if_pos hne] at h
          cases h; exact Or.inr rfl
        · rw [if_neg hne] at h
          exact ih { cursors := s.cursors.set ordered[s.i] (c.next_geq s.candidate),
                     candidate := s.candidate, i := s.i + 1, skips := s.skips + 1 } s1 h
    · rw [forLoop_done ordered (k + 1) s hi] at h
      cases h; exact Or.inl rfl

theorem advanceDriver_ok {ordered : List Nat} {s s1 : LoopState S}
    (h : advanceDriver ordered s = .ok s1) : 0 < ordered.length := by
  unfold advanceDriver at h
  cases h0 : ordered[0]? with
  | none => rw [h0] at h; cases h
  | some p =>
    cases ordered with
    | nil => simp at h0
    | cons a l => simp

/-- One pass through the body appends nothing, or the candidate it was entered with. -/
theorem and_query_body_results {ordered : List Nat} {s s1 : LoopState S}
    {res res1 : List Nat} (h : and_query_body ordered s res = .ok (s1, res1)) :
    res1 = res ∨ res1 = res ++ [s.candidate] := by
  unfold and_query_body at h
  cases hf : forLoop ordered (ordered.length - s.i) s with
  | error e => rw [hf] at h; cases h
  | ok s2 =>
    rw [hf] at h
    simp only at h
    by_cases hi : s2.i = ordered.length
    · rw [if_pos hi] at h
      cases hadv : advanceDriver ordered s2 with
      | error e => rw [hadv] at h; cases h
      | ok s3 =>
        rw [hadv] at h
        simp only [Except.ok.injEq, Prod.mk.injEq] at h
        have hpos := advanceDriver_ok hadv
        rcases forLoop_candidate ordered _ _ _ hf with hc | hc
        · right; rw [← h.2, hc]
        · omega
    · rw [if_neg hi] at h
      simp only [Except.ok.injEq, Prod.mk.injEq] at h
      exact Or.inl h.2.symm

/-- Whatever the cursors, the loop only ever records candidates below the bound. -/
theorem and_query_loop_bound {ordered : List Nat} {M : Nat} :
    ∀ (fuel : Nat) (s s1 : LoopState S) (res res1 : List Nat),
      (∀ d ∈ res, d < M) → and_query_loop ordered M fuel s res = .ok (s1, res1) →
      ∀ d ∈ res1, d < M := by
  intro fuel
  induction fuel with
  | zero =>
    intro s s1 res res1 hres h
    rw [and_query_loop] at h
    split at h
    · cases h
    · cases h; exact hres
  | succ fuel ih =>
    intro s s1 res res1 hres h
    rw [and_query_loop] at h
    by_cases hc : s.candidate < M
    · rw [if_pos hc] at h
      cases hb : and_query_body ordered s res with
      | error e => rw [hb] at h; cases h
      | ok x =>
        obtain ⟨s2, res2⟩ := x
        rw [hb] at h
        simp only at h
        refine ih _ _ _ _ ?_ h
        rcases and_query_body_results hb with rfl | rfl
        · exact hres
        · intro d hd
          rcases List.mem_append.1 hd with hd | hd
          · exact hres d hd
          · simp only [List.mem_singleton] at hd
            omega
    · rw [if_neg hc] at h
      cases h; exact hres

theorem and_query_bound {sort : (Nat → Nat → Bool) → List Nat → List Nat} {fuel : Nat}
    {cursors : List (Cursor S)} {M : Nat} {res : List Nat}
    (h : and_query sort fuel cursors M = .ok res) : ∀ d ∈ res, d < M := by
  unfold and_query at h
  cases hr : and_query_run sort fuel cursors M with
  | error e => rw [hr] at h; cases h
  | ok x =>
    obtain ⟨s1, res1⟩ := x
    rw [hr] at h
    simp only [Except.ok.injEq] at h
    subst h
    unfold and_query_run at hr
    by_cases he : cursors.isEmpty = true
    · rw [if_pos he] at hr
      cases hr
      intro d hd; cases hd
    · rw [if_neg he] at hr
      cases h0 : (ordered_cursors sort cursors)[0]? with
      | none => rw [h0] at hr; cases hr
      | some p =>
        rw [h0] at hr
        simp only at hr
        cases hc : cursors[p]? with
        | none => rw [hc] at hr; cases hr
        | some c =>
          rw [hc] at hr
          simp only at hr
          exact and_query_loop_bound _ _ _ _ _ (fun d hd => by cases hd) hr

/-! ### Scored results are determined by the view -/

theorem eq_filterMap_of_scores [Add S] [Zero S] (view : List (Cursor S)) :
    ∀ (res : List (Nat × S)) (ids : List Nat), res.map Prod.fst = ids →
      (∀ x ∈ res, specScore view x.1 = some x.2) →
      res = ids.filterMap (fun d => (specScore view d).map (fun s => (d, s))) := by
  intro res
  induction res with
  | nil => intro ids h _; subst h; rfl
  | cons x res ih =>
    intro ids h hsc
    subst h
    have hx := hsc x (List.mem_cons_self _ _)
    rw [List.map_cons, List.filterMap_cons, hx]
    simp only [Option.map_some']
    rw [← ih _ rfl (fun y hy => hsc y (List.mem_cons_of_mem _ hy))]

/-- With pairwise distinct sizes the view does not depend on the order of the
collection, nor on which admissible sort builds it. -/
theorem orderedView_eq_of_distinct {sort sort1 : (Nat → Nat → Bool) → List Nat → List Nat}
    (hsort : StdSort sort) (hsort1 : StdSort sort1) {cursors cursors1 : List (Cursor S)}
    (hperm : cursors.Perm cursors1) (hsize : (cursors.map Cursor.size).Nodup) :
    orderedView sort cursors = orderedView sort1 cursors1 := by
  have hp := orderedView_perm hsort cursors
  have hp1 := orderedView_perm hsort1 cursors1
  have strict : ∀ (v : List (Cursor S)), v.Perm cursors →
      v.Pairwise (fun a b => a.size ≤ b.size) → v.Pairwise (fun a b => a.size < b.size) := by
    intro v hv hle
    have hnd : (v.map Cursor.size).Nodup := (hv.map Cursor.size).nodup_iff.2 hsize
    have hne : v.Pairwise (fun a b => a.size ≠ b.size) := List.pairwise_map.1 hnd
    exact (hle.and hne).imp (fun {a b} h => lt_of_le_of_ne h.1 h.2)
  haveI : IsAntisymm (Cursor S) (fun a b => a.size < b.size) :=
    ⟨fun a b h1 h2 => absurd h1 (Nat.lt_asymm h2)⟩
  exact List.eq_of_perm_of_sorted (hp.trans (hperm.trans hp1.symm))
    (strict _ hp (orderedView_sorted hsort cursors))
    (strict _ (hp1.trans hperm.symm) (orderedView_sorted hsort1 cursors1))

/-! ### Both variants on well-formed input -/

/-- On a non-empty collection of well-formed cursors `and_query` returns the
intersection below the bound. -/
theorem and_query_eq {sort : (Nat → Nat → Bool) → List Nat → List Nat}
    (hsort : StdSort sort) {cursors : List (Cursor S)} {M : Nat} (hne : cursors ≠ [])
    (hwf : ∀ c ∈ cursors, c.WellFormed M) {fuel : Nat} (hfuel : M ≤ fuel) :
    and_query sort fuel cursors M = .ok (intersectionBelow cursors M) := by
  obtain ⟨s1, h1, _⟩ := and_query_run_spec hsort hne hwf fuel hfuel
  simp only [and_query, h1]

/-- On a non-empty collection of well-formed scored cursors `scored_and_query`
returns the intersection below the bound, every document with the score the
specification gives it. -/
theorem scored_and_query_eq [Add S] [Zero S]
    {sort : (Nat → Nat → Bool) → List Nat → List Nat}
    (hsort : StdSort sort) {cursors : List (Cursor S)} {M : Nat} (hne : cursors ≠ [])
    (hwf : ∀ c ∈ cursors, c.WellFormedScored M) {fuel : Nat} (hfuel : M ≤ fuel) :
    scored_and_query sort fuel cursors M =
      .ok (scoredIntersectionBelow (orderedView sort cursors) cursors M) := by
  obtain ⟨s1, res, h1, h2, h3, _⟩ := scored_and_query_run_spec hsort hne hwf fuel hfuel
  simp only [scored_and_query, h1]
  rw [eq_filterMap_of_scores _ res _ h2 h3]
  rfl

theorem map_fst_scoredIntersectionBelow [Add S] [Zero S]
    {sort : (Nat → Nat → Bool) → List Nat → List Nat}
    (hsort : StdSort sort) {cursors : List (Cursor S)} {M : Nat} (hne : cursors ≠ [])
    (hwf : ∀ c ∈ cursors, c.WellFormedScored M) :
    (scoredIntersectionBelow (orderedView sort cursors) cursors M).map Prod.fst =
      intersectionBelow cursors M := by
  obtain ⟨s1, res, h1, h2, h3, _⟩ := scored_and_query_run_spec hsort hne hwf M le_rfl
  rw [← h2, eq_filterMap_of_scores _ res _ h2 h3]
  rfl

/-! ### The claims -/

/-- Claim C1: on every non-empty collection of cursors over strictly increasing
lists, each at its first posting with a sentinel `>= M`, `and_query` returns (for
every `std::sort` and whenever the fuel reaches `M`) the list
`intersectionBelow cursors M`, which is strictly increasing and holds exactly the
`d < M` that occur in every list. -/
theorem and_query_correct (sort : (Nat → Nat → Bool) → List Nat → List Nat)
    (hsort : StdSort sort) (cursors : List (Cursor S)) (M : Nat) (hne : cursors ≠ [])
    (hwf : ∀ c ∈ cursors, c.WellFormed M) (fuel : Nat) (hfuel : M ≤ fuel) :
    and_query sort fuel cursors M = .ok (intersectionBelow cursors M) ∧
      (intersectionBelow cursors M).Pairwise (· < ·) ∧
      ∀ d, d ∈ intersectionBelow cursors M ↔ d < M ∧ ∀ c ∈ cursors, d ∈ c.docs :=
  ⟨and_query_eq hsort hne hwf hfuel, intersectionBelow_sorted cursors M,
    fun _ => mem_intersectionBelow⟩

/-- Witness of C1: the specification's examples, `[3, 5, 9]` for `A`, `B`, `C`
with bound `100` and the empty list for the disjoint lists with bound `10`. -/
theorem and_query_correct_witness :
    (∀ c ∈ exampleABC, c.WellFormed 100) ∧
      and_query insertionSort 100 exampleABC 100 = .ok [3, 5, 9] ∧
      (∀ c ∈ exampleDisjoint, c.WellFormed 10) ∧
      and_query insertionSort 10 exampleDisjoint 10 = .ok [] :=
  ⟨by decide,
    (and_query_correct insertionSort stdSort_insertionSort exampleABC 100 (by decide)
      (by decide) 100 le_rfl).1.trans (congrArg Except.ok (by decide)),
    by decide,
    (and_query_correct insertionSort stdSort_insertionSort exampleDisjoint 10 (by decide)
      (by decide) 10 le_rfl).1.trans (congrArg Except.ok (by decide))⟩

/-- Claim C2: on a single cursor over a strictly increasing list, at its first
posting with a sentinel `>= M`, `and_query` returns the elements of the list that
are `< M`, in their original order. -/
theorem and_query_single (sort : (Nat → Nat → Bool) → List Nat → List Nat)
    (hsort : StdSort sort) (c : Cursor S) (M : Nat) (hwf : c.WellFormed M)
    (fuel : Nat) (hfuel : M ≤ fuel) :
    and_query sort fuel [c] M = .ok (c.docs.filter (fun d => decide (d < M))) := by
  rw [and_query_eq hsort (List.cons_ne_nil _ _)
    (fun c1 h1 => by rw [List.mem_singleton.1 h1]; exact hwf) hfuel,
    intersectionBelow_single hwf.1]

/-- Witness of C2: the list `[1, 2, 3, 4]` with bound `3` gives `[1, 2]`. -/
theorem and_query_single_witness :
    exampleSingle.WellFormed 3 ∧ and_query insertionSort 3 [exampleSingle] 3 = .ok [1, 2] :=
  ⟨by decide,
    and_query_single insertionSort stdSort_insertionSort exampleSingle 3 (by decide) 3 le_rfl⟩

/-- Claim C3: on every non-empty collection of well-formed scored cursors,
`scored_and_query` returns pairs `(d, s)` in which `s` is `specScore` of the
Ordered Cursor View at `d`: starting from zero, the score every cursor reports at
its posting `d` is added, from left to right in the order of the view.  The view
holds every input cursor exactly once, in ascending `size()`. -/
theorem scored_and_query_additive [Add S] [Zero S]
    (sort : (Nat → Nat → Bool) → List Nat → List Nat) (hsort : StdSort sort)
    (cursors : List (Cursor S)) (M : Nat) (hne : cursors ≠ [])
    (hwf : ∀ c ∈ cursors, c.WellFormedScored M) (fuel : Nat) (hfuel : M ≤ fuel) :
    ∃ res, scored_and_query sort fuel cursors M = .ok res ∧
      (orderedView sort cursors).Perm cursors ∧
      (orderedView sort cursors).Pairwise (fun a b => a.size ≤ b.size) ∧
      ∀ d s, (d, s) ∈ res →
        (orderedView sort cursors).foldl (addScore d) (some 0) = some s := by
  obtain ⟨s1, res, h1, _, h3, _⟩ := scored_and_query_run_spec hsort hne hwf fuel hfuel
  refine ⟨res, by simp only [scored_and_query, h1], orderedView_perm hsort cursors,
    orderedView_sorted hsort cursors, fun d s hds => h3 (d, s) hds⟩

/-- Witness of C3: the specification's example with every score `1.0`; the run
returns `[(3, 3.0), (5, 3.0), (9, 3.0)]`. -/
theorem scored_and_query_additive_witness :
    scored_and_query insertionSort 100 exampleABC 100 = .ok [(3, ⟨3⟩), (5, ⟨3⟩), (9, ⟨3⟩)] ∧
      ∃ res, scored_and_query insertionSort 100 exampleABC 100 = .ok res ∧
        (orderedView insertionSort exampleABC).Perm exampleABC ∧
        (orderedView insertionSort exampleABC).Pairwise (fun a b => a.size ≤ b.size) ∧
        ∀ d s, (d, s) ∈ res →
          (orderedView insertionSort exampleABC).foldl (addScore d) (some 0) = some s :=
  ⟨by rfl,
    scored_and_query_additive insertionSort stdSort_insertionSort exampleABC 100 (by decide)
      (by decide) 100 le_rfl⟩

/-- Claim C4: on every collection of well-formed scored cursors the two variants
run the same traversal: they end in the same state (cursor positions, candidate,
index and number of skips), and the first components of the pairs returned by
`scored_and_query` are the list returned by `and_query`. -/
theorem scored_and_query_same_traversal [Add S] [Zero S]
    (sort : (Nat → Nat → Bool) → List Nat → List Nat) (hsort : StdSort sort)
    (cursors : List (Cursor S)) (M : Nat)
    (hwf : ∀ c ∈ cursors, c.WellFormedScored M) (fuel : Nat) (hfuel : M ≤ fuel) :
    ∃ s1 res, scored_and_query_run sort fuel cursors M = .ok (s1, res) ∧
      and_query_run sort fuel cursors M = .ok (s1, res.map Prod.fst) ∧
      scored_and_query sort fuel cursors M = .ok res ∧
      and_query sort fuel cursors M = .ok (res.map Prod.fst) := by
  have key : ∃ s1 res, scored_and_query_run sort fuel cursors M = .ok (s1, res) := by
    by_cases hne : cursors = []
    · subst hne; exact ⟨_, _, rfl⟩
    · obtain ⟨s1, res, h1, _⟩ := scored_and_query_run_spec hsort hne hwf fuel hfuel
      exact ⟨s1, res, h1⟩
  obtain ⟨s1, res, h1⟩ := key
  have h2 : scored_and_query sort fuel cursors M = .ok res := by
    simp only [scored_and_query, h1]
  exact ⟨s1, res, h1, run_simulation h1, h2, query_simulation h2⟩

/-- Witness of C4: both variants on the specification's example. -/
theorem scored_and_query_same_traversal_witness :
    ∃ s1 res, scored_and_query_run insertionSort 100 exampleABC 100 = .ok (s1, res) ∧
      and_query_run insertionSort 100 exampleABC 100 = .ok (s1, res.map Prod.fst) ∧
      scored_and_query insertionSort 100 exampleABC 100 = .ok res ∧
      and_query insertionSort 100 exampleABC 100 = .ok (res.map Prod.fst) :=
  scored_and_query_same_traversal insertionSort stdSort_insertionSort exampleABC 100
    (by decide) 100 le_rfl

/-- Claim C5: on every collection of well-formed cursors the documents returned
by `and_query`, and the first components returned by `scored_and_query` (when
every posting has a score), are strictly increasing; no document occurs twice. -/
theorem results_strictly_increasing [Add S] [Zero S]
    (sort : (Nat → Nat → Bool) → List Nat → List Nat) (hsort : StdSort sort)
    (cursors : List (Cursor S)) (M : Nat) (hwf : ∀ c ∈ cursors, c.WellFormed M)
    (fuel : Nat) (hfuel : M ≤ fuel) :
    (∃ res, and_query sort fuel cursors M = .ok res ∧ res.Pairwise (· < ·) ∧ res.Nodup) ∧
      ((∀ c ∈ cursors, c.scores.length = c.docs.length) →
        ∃ res, scored_and_query sort fuel cursors M = .ok res ∧
          (res.map Prod.fst).Pairwise (· < ·) ∧ (res.map Prod.fst).Nodup) := by
  have hnd : ∀ l : List Nat, l.Pairwise (· < ·) → l.Nodup :=
    fun l h => h.imp (fun {a b} hab => Nat.ne_of_lt hab)
  by_cases hne : cursors = []
  · subst hne
    exact ⟨⟨[], rfl, List.Pairwise.nil, List.nodup_nil⟩,
      fun _ => ⟨[], rfl, List.Pairwise.nil, List.nodup_nil⟩⟩
  · have hs := intersectionBelow_sorted cursors M
    refine ⟨⟨_, and_query_eq hsort hne hwf hfuel, hs, hnd _ hs⟩, fun hlen => ?_⟩
    have hwfs : ∀ c ∈ cursors, c.WellFormedScored M := fun c hc => ⟨hwf c hc, hlen c hc⟩
    refine ⟨_, scored_and_query_eq hsort hne hwfs hfuel, ?_, ?_⟩
    · rw [map_fst_scoredIntersectionBelow hsort hne hwfs]; exact hs
    · rw [map_fst_scoredIntersectionBelow hsort hne hwfs]; exact hnd _ hs

/-- Witness of C5: both variants on the specification's example. -/
theorem results_strictly_increasing_witness :
    (∃ res, and_query insertionSort 100 exampleABC 100 = .ok res ∧
        res.Pairwise (· < ·) ∧ res.Nodup) ∧
      (∃ res, scored_and_query insertionSort 100 exampleABC 100 = .ok res ∧
        (res.map Prod.fst).Pairwise (· < ·) ∧ (res.map Prod.fst).Nodup) :=
  ⟨(results_strictly_increasing insertionSort stdSort_insertionSort exampleABC 100
      (by decide) 100 le_rfl).1,
    (results_strictly_increasing insertionSort stdSort_insertionSort exampleABC 100
      (by decide) 100 le_rfl).2 (by decide)⟩

/-- Claim C6: whatever the cursors, the sort and the fuel, every document
returned by `and_query` and every first component returned by `scored_and_query`
is strictly below `max_docid`; in particular `max_docid` itself is never
returned, also when it is in every list. -/
theorem results_below_max_docid [Add S] [Zero S]
    (sort : (Nat → Nat → Bool) → List Nat → List Nat) (fuel : Nat)
    (cursors : List (Cursor S)) (max_docid : Nat) :
    (∀ res, and_query sort fuel cursors max_docid = .ok res →
        (∀ d ∈ res, d < max_docid) ∧ max_docid ∉ res) ∧
      (∀ res, scored_and_query sort fuel cursors max_docid = .ok res →
        (∀ x ∈ res, x.1 < max_docid) ∧ max_docid ∉ res.map Prod.fst) := by
  constructor
  · intro res h
    have hb := and_query_bound h
    exact ⟨hb, fun hm => absurd (hb _ hm) (lt_irrefl _)⟩
  · intro res h
    have hb := and_query_bound (query_simulation h)
    exact ⟨fun x hx => hb _ (List.mem_map_of_mem _ hx),
      fun hm => absurd (hb _ hm) (lt_irrefl _)⟩

/-- Witness of C6: the lists `[1, 2, 3]` and `[2, 3]` with bound `3`; document
`3` is in both lists and is not returned. -/
theorem results_below_max_docid_witness :
    (∀ c ∈ exampleBound, 3 ∈ c.docs) ∧
      and_query insertionSort 3 exampleBound 3 = .ok [2] ∧
      ((∀ d ∈ [2], d < 3) ∧ 3 ∉ [2]) ∧
      scored_and_query insertionSort 3 exampleBound 3 = .ok [(2, ⟨2⟩)] ∧
      ((∀ x ∈ [(2, (⟨2⟩ : Binary32))], x.1 < 3) ∧ 3 ∉ [(2, (⟨2⟩ : Binary32))].map Prod.fst) :=
  ⟨by decide, by rfl,
    (results_below_max_docid insertionSort 3 exampleBound 3).1 [2] (by rfl), by rfl,
    (results_below_max_docid insertionSort 3 exampleBound 3).2 [(2, ⟨2⟩)] (by rfl)⟩

/-- Claim C7: on an empty collection both variants return the empty sequence,
for every bound (and every sort and fuel), without a fault. -/
theorem empty_input [Add S] [Zero S] (sort : (Nat → Nat → Bool) → List Nat → List Nat)
    (fuel M : Nat) :
    and_query sort fuel ([] : List (Cursor S)) M = .ok [] ∧
      scored_and_query sort fuel ([] : List (Cursor S)) M = .ok [] :=
  ⟨rfl, rfl⟩

/-- Claim C8: for well-formed cursors, `and_query` on a permutation of the
collection returns the same documents as on the collection itself, whichever
admissible sorts build the two views. -/
theorem and_query_perm (sort sort1 : (Nat → Nat → Bool) → List Nat → List Nat)
    (hsort : StdSort sort) (hsort1 : StdSort sort1) (cursors cursors1 : List (Cursor S))
    (M : Nat) (hperm : cursors.Perm cursors1) (hwf : ∀ c ∈ cursors, c.WellFormed M)
    (fuel fuel1 : Nat) (hfuel : M ≤ fuel) (hfuel1 : M ≤ fuel1) :
    ∃ res, and_query sort fuel cursors M = .ok res ∧
      and_query sort1 fuel1 cursors1 M = .ok res := by
  by_cases hne : cursors = []
  · subst hne
    rw [List.nil_perm.1 hperm]
    exact ⟨[], rfl, rfl⟩
  · have hne1 : cursors1 ≠ [] := fun h => hne (by subst h; exact List.perm_nil.1 hperm)
    have hwf1 : ∀ c ∈ cursors1, c.WellFormed M := fun c hc => hwf c (hperm.mem_iff.2 hc)
    refine ⟨_, and_query_eq hsort hne hwf hfuel, ?_⟩
    rw [intersectionBelow_perm hperm]
    exact and_query_eq hsort1 hne1 hwf1 hfuel1

/-- Witness of C8: the specification's example handed over as `A, B, C` and as
`C, A, B`. -/
theorem and_query_perm_witness :
    exampleABC.Perm exampleCAB ∧
      ∃ res, and_query insertionSort 100 exampleABC 100 = .ok res ∧
        and_query insertionSort 100 exampleCAB 100 = .ok res :=
  ⟨by decide,
    and_query_perm insertionSort insertionSort stdSort_insertionSort stdSort_insertionSort
      exampleABC exampleCAB 100 (by decide) (by decide) 100 100 le_rfl le_rfl⟩

/-- Counterexample to C9: three cursors of equal size over the list `[1]` with
the scores `16777216.0`, `1.0`, `1.0`.  Handed over in this order the score of
document `1` is `16777216.0`; with the large score last it is `16777218.0`. -/
theorem scored_and_query_perm_counterexample :
    StdSort insertionSort ∧ exampleTies.Perm exampleTiesRotated ∧
      (∀ c ∈ exampleTies, c.WellFormedScored 2) ∧
      scored_and_query insertionSort 2 exampleTies 2 = .ok [(1, ⟨16777216⟩)] ∧
      scored_and_query insertionSort 2 exampleTiesRotated 2 = .ok [(1, ⟨16777218⟩)] ∧
      scored_and_query insertionSort 2 exampleTiesRotated 2 ≠
        scored_and_query insertionSort 2 exampleTies 2 :=
  ⟨stdSort_insertionSort, by decide, by decide, by rfl, by rfl, by
    intro h
    have h1 : scored_and_query insertionSort 2 exampleTies 2 = .ok [(1, ⟨16777216⟩)] := by rfl
    have h2 : scored_and_query insertionSort 2 exampleTiesRotated 2 =
        .ok [(1, ⟨16777218⟩)] := by rfl
    rw [h1, h2] at h
    exact absurd (Except.ok.inj h) (by decide)⟩

/-- Claim C9, amended: for well-formed scored cursors, `scored_and_query` on a
permutation of the collection returns the same documents, and the same
(document, score) pairs when the cursors have pairwise distinct `size()`. -/
theorem scored_and_query_perm [Add S] [Zero S]
    (sort sort1 : (Nat → Nat → Bool) → List Nat → List Nat)
    (hsort : StdSort sort) (hsort1 : StdSort sort1) (cursors cursors1 : List (Cursor S))
    (M : Nat) (hperm : cursors.Perm cursors1)
    (hwf : ∀ c ∈ cursors, c.WellFormedScored M)
    (fuel fuel1 : Nat) (hfuel : M ≤ fuel) (hfuel1 : M ≤ fuel1) :
    ∃ res res1, scored_and_query sort fuel cursors M = .ok res ∧
      scored_and_query sort1 fuel1 cursors1 M = .ok res1 ∧
      res.map Prod.fst = res1.map Prod.fst ∧
      ((cursors.map Cursor.size).Nodup → res = res1) := by
  by_cases hne : cursors = []
  · subst hne
    rw [List.nil_perm.1 hperm]
    exact ⟨[], [], rfl, rfl, rfl, fun _ => rfl⟩
  · have hne1 : cursors1 ≠ [] := fun h => hne (by subst h; exact List.perm_nil.1 hperm)
    have hwf1 : ∀ c ∈ cursors1, c.WellFormedScored M :=
      fun c hc => hwf c (hperm.mem_iff.2 hc)
    refine ⟨_, _, scored_and_query_eq hsort hne hwf hfuel,
      scored_and_query_eq hsort1 hne1 hwf1 hfuel1, ?_, ?_⟩
    · rw [map_fst_scoredIntersectionBelow hsort hne hwf,
        map_fst_scoredIntersectionBelow hsort1 hne1 hwf1, intersectionBelow_perm hperm]
    · intro hsize
      rw [orderedView_eq_of_distinct hsort hsort1 hperm hsize]
      unfold scoredIntersectionBelow
      rw [intersectionBelow_perm hperm]

/-- Witness of C9, amended: lists of sizes `2`, `1`, `3` handed over in two
orders. -/
theorem scored_and_query_perm_witness :
    exampleDistinct.Perm exampleDistinctRotated ∧
      ∃ res res1, scored_and_query insertionSort 3 exampleDistinct 3 = .ok res ∧
        scored_and_query insertionSort 3 exampleDistinctRotated 3 = .ok res1 ∧
        res.map Prod.fst = res1.map Prod.fst ∧
        ((exampleDistinct.map Cursor.size).Nodup → res = res1) :=
  ⟨by decide,
    scored_and_query_perm insertionSort insertionSort stdSort_insertionSort
      stdSort_insertionSort exampleDistinct exampleDistinctRotated 3 (by decide) (by decide)
      3 3 le_rfl le_rfl⟩

/-- Claim C10: on every collection of well-formed cursors both traversals
terminate and return a result: once the fuel reaches `max_docid` the run neither
runs out of fuel nor leaves the range of the view or of the collection, and the
result no longer depends on the fuel. -/
theorem traversal_terminates [Add S] [Zero S]
    (sort : (Nat → Nat → Bool) → List Nat → List Nat) (hsort : StdSort sort)
    (cursors : List (Cursor S)) (max_docid : Nat)
    (hwf : ∀ c ∈ cursors, c.WellFormed max_docid) :
    (∃ res, ∀ fuel, max_docid ≤ fuel → and_query sort fuel cursors max_docid = .ok res) ∧
      ((∀ c ∈ cursors, c.scores.length = c.docs.length) →
        ∃ res, ∀ fuel, max_docid ≤ fuel →
          scored_and_query sort fuel cursors max_docid = .ok res) := by
  by_cases hne : cursors = []
  · subst hne
    exact ⟨⟨[], fun _ _ => rfl⟩, fun _ => ⟨[], fun _ _ => rfl⟩⟩
  · refine ⟨⟨_, fun fuel hfuel => and_query_eq hsort hne hwf hfuel⟩, fun hlen => ?_⟩
    exact ⟨_, fun fuel hfuel =>
      scored_and_query_eq hsort hne (fun c hc => ⟨hwf c hc, hlen c hc⟩) hfuel⟩

/-- Witness of C10: both variants on the specification's example. -/
theorem traversal_terminates_witness :
    (∃ res, ∀ fuel, 100 ≤ fuel → and_query insertionSort fuel exampleABC 100 = .ok res) ∧
      (∃ res, ∀ fuel, 100 ≤ fuel →
        scored_and_query insertionSort fuel exampleABC 100 = .ok res) :=
  ⟨(traversal_terminates insertionSort stdSort_insertionSort exampleABC 100 (by decide)).1,
    (traversal_terminates insertionSort stdSort_insertionSort exampleABC 100 (by decide)).2
      (by decide)⟩

/-! ## The traversal state by state -/

theorem and_query_run_eq (sort : (Nat → Nat → Bool) → List Nat → List Nat) (fuel : Nat)
    {cursors : List (Cursor S)} (hne : cursors ≠ []) (M : Nat) :
    and_query_run sort fuel cursors M =
      match initialState sort cursors with
      | .error e => .error e
      | .ok s0 => and_query_loop (ordered_cursors sort cursors) M fuel s0 [] := by
  have hemp : cursors.isEmpty = false := by
    cases cursors with
    | nil => exact absurd rfl hne
    | cons a l => rfl
  unfold and_query_run initialState
  rw [hemp, if_neg Bool.false_ne_true]
  cases (ordered_cursors sort cursors)[0]? with
  | none => rfl
  | some p =>
    cases hc : cursors[p]? with
    | none => simp only [hc]
    | some c => simp only [hc]

theorem scored_and_query_run_eq [Add S] [Zero S]
    (sort : (Nat → Nat → Bool) → List Nat → List Nat) (fuel : Nat)
    {cursors : List (Cursor S)} (hne : cursors ≠ []) (M : Nat) :
    scored_and_query_run sort fuel cursors M =
      match initialState sort cursors with
      | .error e => .error e
      | .ok s0 => scored_and_query_loop (ordered_cursors sort cursors) M fuel s0 [] := by
  have hemp : cursors.isEmpty = false := by
    cases cursors with
    | nil => exact absurd rfl hne
    | cons a l => rfl
  unfold scored_and_query_run initialState
  rw [hemp, if_neg Bool.false_ne_true]
  cases (ordered_cursors sort cursors)[0]? with
  | none => rfl
  | some p =>
    cases hc : cursors[p]? with
    | none => simp only [hc]
    | some c => simp only [hc]

/-- On a non-empty collection the view has a first pointer and it leads to a
cursor, so the traversal has a state to start in. -/
theorem initialState_ok {sort : (Nat → Nat → Bool) → List Nat → List Nat}
    (hsort : StdSort sort) {cursors : List (Cursor S)} (hne : cursors ≠ []) :
    ∃ p c, (ordered_cursors sort cursors)[0]? = some p ∧ cursors[p]? = some c ∧
      initialState sort cursors =
        .ok { cursors := cursors, candidate := c.docid, i := 1, skips := 0 } := by
  have hperm := (hsort (sizeAt cursors) (List.range cursors.length)).1
  have hlen : 0 < (ordered_cursors sort cursors).length := by
    unfold ordered_cursors
    rw [hperm.length_eq, List.length_range]
    exact List.length_pos.2 hne
  have h0 : (ordered_cursors sort cursors)[0]? = some (ordered_cursors sort cursors)[0] :=
    List.getElem?_eq_getElem hlen
  have hp : (ordered_cursors sort cursors)[0] < cursors.length :=
    List.mem_range.1 (hperm.mem_iff.1 (List.getElem_mem _))
  have hget : cursors[(ordered_cursors sort cursors)[0]]? =
      some cursors[(ordered_cursors sort cursors)[0]] := List.getElem?_eq_getElem hp
  refine ⟨_, _, h0, hget, ?_⟩
  simp only [initialState, h0, hget]

theorem and_query_loop_done {ordered : List Nat} {M : Nat} (fuel : Nat) (s : LoopState S)
    (res : List Nat) (h : ¬ s.candidate < M) :
    and_query_loop ordered M fuel s res = .ok (s, res) := by
  cases fuel with
  | zero => rw [and_query_loop, if_neg h]
  | succ fuel => rw [and_query_loop, if_neg h]

theorem scored_and_query_loop_done [Add S] [Zero S] {ordered : List Nat} {M : Nat}
    (fuel : Nat) (s : LoopState S) (res : List (Nat × S)) (h : ¬ s.candidate < M) :
    scored_and_query_loop ordered M fuel s res = .ok (s, res) := by
  cases fuel with
  | zero => rw [scored_and_query_loop, if_neg h]
  | succ fuel => rw [scored_and_query_loop, if_neg h]

/-! ### The caller's collection -/

theorem Advanced.refl (cs : List (Cursor S)) : Advanced cs cs :=
  ⟨rfl, fun k c c1 h h1 => by rw [h] at h1; cases h1; exact ⟨rfl, le_rfl⟩⟩

theorem Advanced.trans {cs cs1 cs2 : List (Cursor S)} (h : Advanced cs cs1)
    (h1 : Advanced cs1 cs2) : Advanced cs cs2 := by
  refine ⟨h1.1.trans h.1, fun k c c2 hc hc2 => ?_⟩
  have hk : k < cs1.length := by
    rw [h.1]
    by_contra hn
    rw [List.getElem?_eq_none (by omega)] at hc
    cases hc
  obtain ⟨ha, hb⟩ := h.2 k c cs1[k] hc (List.getElem?_eq_getElem hk)
  obtain ⟨ha1, hb1⟩ := h1.2 k cs1[k] c2 (List.getElem?_eq_getElem hk) hc2
  exact ⟨ha1.trans ha, le_trans hb hb1⟩

/-- Replacing one cursor by itself moved forward. -/
theorem Advanced.set {cs : List (Cursor S)} {p : Nat} {c c1 : Cursor S}
    (hc : cs[p]? = some c) (hr : c1.reset = c.reset) (hpos : c.pos ≤ c1.pos) :
    Advanced cs (cs.set p c1) := by
  refine ⟨List.length_set _ _ _, fun k d d1 hd hd1 => ?_⟩
  by_cases hpk : p = k
  · subst hpk
    rw [hc] at hd
    cases hd
    have hlt : p < cs.length := by
      by_contra hn
      rw [List.getElem?_eq_none (by omega)] at hc
      cases hc
    rw [List.getElem?_set_self hlt] at hd1
    cases hd1
    exact ⟨hr, hpos⟩
  · rw [List.getElem?_set_ne hpk, hd] at hd1
    cases hd1
    exact ⟨rfl, le_rfl⟩

theorem Cursor.pos_le_next_geq (c : Cursor S) (t : Nat) : c.pos ≤ (c.next_geq t).pos :=
  Nat.le_add_right _ _

theorem Cursor.pos_le_next (c : Cursor S) : c.pos ≤ c.next.pos := by
  unfold Cursor.next
  split
  · exact Nat.le_succ _
  · exact le_rfl

/-- Whatever the cursors, the inner loop only moves cursors forward, each in its
place. -/
theorem forLoop_advanced (ordered : List Nat) :
    ∀ (k : Nat) (s s1 : LoopState S), forLoop ordered k s = .ok s1 →
      Advanced s.cursors s1.cursors := by
  intro k
  induction k with
  | zero =>
    intro s s1 h
    rw [forLoop] at h
    split at h
    · cases h
    · cases h; exact Advanced.refl _
  | succ k ih =>
    intro s s1 h
    by_cases hi : s.i < ordered.length
    · cases hget : s.cursors[ordered[s.i]]? with
      | none =>
        rw [forLoop, dif_pos hi] at h
        simp only [hget] at h
        cases h
      | some c =>
        have hset := Advanced.set hget (Cursor.reset_next_geq c s.candidate)
          (Cursor.pos_le_next_geq c s.candidate)
        rw [forLoop_step ordered k s hi hget] at h
        by_cases hne : (c.next_geq s.candidate).docid ≠ s.candidate
        · rw [if_pos hne] at h
          cases h; exact hset
        · rw [if_neg hne] at h
          exact hset.trans
            (ih { cursors := s.cursors.set ordered[s.i] (c.next_geq s.candidate),
                  candidate := s.candidate, i := s.i + 1, skips := s.skips + 1 } s1 h)
    · rw [forLoop_done ordered (k + 1) s hi] at h
      cases h; exact Advanced.refl _

theorem advanceDriver_advanced {ordered : List Nat} {s s1 : LoopState S}
    (h : advanceDriver ordered s = .ok s1) : Advanced s.cursors s1.cursors := by
  unfold advanceDriver at h
  cases h0 : ordered[0]? with
  | none => rw [h0] at h; cases h
  | some p =>
    rw [h0] at h
    simp only at h
    cases hc : s.cursors[p]? with
    | none => rw [hc] at h; cases h
    | some c =>
      rw [hc] at h
      simp only [Except.ok.injEq] at h
      subst h
      exact Advanced.set hc (Cursor.reset_next c) (Cursor.pos_le_next c)

theorem and_query_body_advanced {ordered : List Nat} {s s1 : LoopState S}
    {res res1 : List Nat} (h : and_query_body ordered s res = .ok (s1, res1)) :
    Advanced s.cursors s1.cursors := by
  unfold and_query_body at h
  cases hf : forLoop ordered (ordered.length - s.i) s with
  | error e => rw [hf] at h; cases h
  | ok s2 =>
    rw [hf] at h
    simp only at h
    have h2 := forLoop_advanced ordered _ _ _ hf
    by_cases hi : s2.i = ordered.length
    · rw [if_pos hi] at h
      cases hadv : advanceDriver ordered s2 with
      | error e => rw [hadv] at h; cases h
      | ok s3 =>
        rw [hadv] at h
        simp only [Except.ok.injEq, Prod.mk.injEq] at h
        rw [← h.1]
        exact h2.trans (advanceDriver_advanced hadv)
    · rw [if_neg hi] at h
      simp only [Except.ok.injEq, Prod.mk.injEq] at h
      rw [← h.1]
      exact h2

theorem and_query_loop_advanced {ordered : List Nat} {M : Nat} :
    ∀ (fuel : Nat) (s s1 : LoopState S) (res res1 : List Nat),
      and_query_loop ordered M fuel s res = .ok (s1, res1) →
      Advanced s.cursors s1.cursors := by
  intro fuel
  induction fuel with
  | zero =>
    intro s s1 res res1 h
    rw [and_query_loop] at h
    split at h
    · cases h
    · cases h; exact Advanced.refl _
  | succ fuel ih =>
    intro s s1 res res1 h
    rw [and_query_loop] at h
    by_cases hc : s.candidate < M
    · rw [if_pos hc] at h
      cases hb : and_query_body ordered s res with
      | error e => rw [hb] at h; cases h
      | ok x =>
        obtain ⟨s2, res2⟩ := x
        rw [hb] at h
        simp only at h
        exact (and_query_body_advanced hb).trans (ih _ _ _ _ h)
    · rw [if_neg hc] at h
      cases h; exact Advanced.refl _

theorem and_query_run_advanced {sort : (Nat → Nat → Bool) → List Nat → List Nat}
    {fuel : Nat} {cursors : List (Cursor S)} {M : Nat} {s1 : LoopState S} {res : List Nat}
    (h : and_query_run sort fuel cursors M = .ok (s1, res)) : Advanced cursors s1.cursors := by
  by_cases hne : cursors = []
  · subst hne
    cases h
    exact Advanced.refl _
  · rw [and_query_run_eq sort fuel hne M] at h
    unfold initialState at h
    cases h0 : (ordered_cursors sort cursors)[0]? with
    | none => rw [h0] at h; cases h
    | some p =>
      rw [h0] at h
      simp only at h
      cases hc : cursors[p]? with
      | none => rw [hc] at h; cases h
      | some c =>
        rw [hc] at h
        simp only at h
        exact and_query_loop_advanced _ _ _ _ _ h

/-- On an ascending list bounded by the sentinel, a cursor further on reports a
`docid()` that is not smaller. -/
theorem Cursor.docid_le_of_pos_le {c c1 : Cursor S} (hr : c1.reset = c.reset)
    (hpos : c.pos ≤ c1.pos) (hm : c.Monotone) : c.docid ≤ c1.docid := by
  have hdocs : c1.docs = c.docs := Cursor.docs_eq_of_reset hr
  have hsent : c1.sentinel = c.sentinel := Cursor.sentinel_eq_of_reset hr
  unfold Cursor.docid
  rw [hdocs, hsent, List.getD_eq_getElem?_getD, List.getD_eq_getElem?_getD]
  by_cases h1 : c1.pos < c.docs.length
  · have h0 : c.pos < c.docs.length := by omega
    rw [List.getElem?_eq_getElem h0, List.getElem?_eq_getElem h1]
    simp only [Option.getD_some]
    rcases Nat.lt_or_ge c.pos c1.pos with hlt | hge
    · exact List.pairwise_iff_getElem.1 hm.1 _ _ h0 h1 hlt
    · have : c.pos = c1.pos := by omega
      simp [this]
  · rw [List.getElem?_eq_none (by omega : c.docs.length ≤ c1.pos)]
    simp only [Option.getD_none]
    by_cases h0 : c.pos < c.docs.length
    · rw [List.getElem?_eq_getElem h0]
      exact hm.2 _ (List.getElem_mem _)
    · rw [List.getElem?_eq_none (by omega : c.docs.length ≤ c.pos)]
      exact le_rfl

/-- What `Advanced` says about the cursor at one index. -/
theorem Advanced.at_index {cs cs1 : List (Cursor S)} (h : Advanced cs cs1) {k : Nat}
    {c : Cursor S} (hc : cs[k]? = some c) :
    ∃ c1, cs1[k]? = some c1 ∧ c1.docs = c.docs ∧ c1.scores = c.scores ∧
      c1.sentinel = c.sentinel ∧ c1.size = c.size ∧ c.pos ≤ c1.pos ∧
      (c.Monotone → c.docid ≤ c1.docid) := by
  have hk : k < cs1.length := by
    rw [h.1]
    by_contra hn
    rw [List.getElem?_eq_none (by omega)] at hc
    cases hc
  obtain ⟨hr, hpos⟩ := h.2 k c cs1[k] hc (List.getElem?_eq_getElem hk)
  have hdocs := Cursor.docs_eq_of_reset hr
  refine ⟨cs1[k], List.getElem?_eq_getElem hk, hdocs, Cursor.scores_eq_of_reset hr,
    Cursor.sentinel_eq_of_reset hr, ?_, hpos, Cursor.docid_le_of_pos_le hr hpos⟩
  unfold Cursor.size
  rw [hdocs]

/-! ### Counting the calls of `next_geq` -/

theorem extraCredit_le_two (candidate i j : Nat) (c : Cursor S) :
    extraCredit candidate i j c ≤ 2 := by
  unfold extraCredit
  split
  · exact le_rfl
  · split <;> omega

theorem extraCredit_le_of_lt {candidate candidate1 : Nat} (h : candidate < candidate1)
    (i i1 j : Nat) (c : Cursor S) :
    extraCredit candidate1 i1 j c ≤ extraCredit candidate i j c := by
  unfold extraCredit
  by_cases h1 : candidate1 < c.docid
  · rw [if_pos h1, if_pos (lt_trans h h1)]
  · rw [if_neg h1]
    by_cases h2 : c.docid = candidate1 ∧ i1 ≤ j
    · rw [if_pos h2, if_pos (by omega : candidate < c.docid)]
      omega
    · rw [if_neg h2]
      exact Nat.zero_le _

theorem extraCredit_le_of_le (candidate : Nat) {i i1 : Nat} (h : i ≤ i1) (j : Nat)
    (c : Cursor S) : extraCredit candidate i1 j c ≤ extraCredit candidate i j c := by
  unfold extraCredit
  by_cases h1 : candidate < c.docid
  · rw [if_pos h1, if_pos h1]
  · rw [if_neg h1, if_neg h1]
    by_cases h2 : c.docid = candidate ∧ i1 ≤ j
    · rw [if_pos h2, if_pos ⟨h2.1, le_trans h h2.2⟩]
    · rw [if_neg h2]
      exact Nat.zero_le _

/-- The potential does not grow when no cursor moves and no cursor gains credit. -/
theorem potentialFrom_mono (cs : List (Cursor S)) {candidate candidate1 i i1 : Nat}
    (H : ∀ (j : Nat) (c : Cursor S),
      extraCredit candidate1 i1 j c ≤ extraCredit candidate i j c) :
    ∀ (ps : List Nat) (j : Nat),
      potentialFrom cs candidate1 i1 j ps ≤ potentialFrom cs candidate i j ps := by
  intro ps
  induction ps with
  | nil => intro j; exact le_rfl
  | cons p ps ih =>
    intro j
    simp only [potentialFrom]
    refine Nat.add_le_add ?_ (ih (j + 1))
    cases cs[p]? with
    | none => exact le_rfl
    | some c => exact Nat.add_le_add_left (H j c) _

/-- The potential over pointers that do not lead to the cursor that changed. -/
theorem potentialFrom_set_of_not_mem {cs : List (Cursor S)} {p : Nat} (c1 : Cursor S)
    (candidate i : Nat) :
    ∀ (ps : List Nat) (j : Nat), p ∉ ps →
      potentialFrom (cs.set p c1) candidate i j ps = potentialFrom cs candidate i j ps := by
  intro ps
  induction ps with
  | nil => intro j _; rfl
  | cons q ps ih =>
    intro j hp
    simp only [potentialFrom]
    have hq : p ≠ q := fun h => hp (by rw [h]; exact List.mem_cons_self _ _)
    rw [List.getElem?_set_ne hq, ih (j + 1) (fun h => hp (List.mem_cons_of_mem _ h))]

/-- The potential when one cursor changes: if the cursor at view index `j + m`
loses `k` of its credit and no other cursor gains any, the potential drops by `k`. -/
theorem potentialFrom_set {cs : List (Cursor S)} {p : Nat} {c : Cursor S} (c1 : Cursor S)
    (k : Nat) (hc : cs[p]? = some c) {candidate candidate1 i i1 : Nat}
    (H : ∀ (j : Nat) (c : Cursor S),
      extraCredit candidate1 i1 j c ≤ extraCredit candidate i j c) :
    ∀ (ps : List Nat) (j m : Nat), ps.Nodup → ps[m]? = some p →
      credit candidate1 i1 (j + m) c1 + k ≤ credit candidate i (j + m) c →
      potentialFrom (cs.set p c1) candidate1 i1 j ps + k ≤ potentialFrom cs candidate i j ps := by
  have hlt : p < cs.length := by
    by_contra hn
    rw [List.getElem?_eq_none (by omega)] at hc
    cases hc
  intro ps
  induction ps with
  | nil => intro j m _ hm; simp at hm
  | cons q ps ih =>
    intro j m hnd hm hcr
    obtain ⟨hq, hnd1⟩ := List.nodup_cons.1 hnd
    simp only [potentialFrom]
    cases m with
    | zero =>
      simp only [List.getElem?_cons_zero, Option.some.injEq] at hm
      subst hm
      rw [List.getElem?_set_self hlt, hc, potentialFrom_set_of_not_mem c1 _ _ ps (j + 1) hq]
      simp only
      have := potentialFrom_mono cs H ps (j + 1)
      simp only [Nat.add_zero] at hcr
      omega
    | succ m =>
      simp only [List.getElem?_cons_succ] at hm
      have hpq : p ≠ q := fun h => hq (by rw [← h]; exact List.mem_iff_getElem?.2 ⟨m, hm⟩)
      rw [List.getElem?_set_ne hpq]
      have hrest := ih (j + 1) m hnd1 hm (by
        have : j + 1 + m = j + (m + 1) := by omega
        rw [this]; exact hcr)
      have hterm : (match cs[q]? with
          | some c => credit candidate1 i1 j c
          | none => 0) ≤ (match cs[q]? with
          | some c => credit candidate i j c
          | none => 0) := by
        cases cs[q]? with
        | none => exact le_rfl
        | some d => exact Nat.add_le_add_left (H j d) _
      omega

/-- The potential is at most three per posting and two per cursor. -/
theorem potentialFrom_le (cs : List (Cursor S)) (candidate i : Nat) :
    ∀ (ps : List Nat) (j : Nat),
      potentialFrom cs candidate i j ps ≤ (ps.map (fun p => 3 * sizeAt cs p + 2)).sum := by
  intro ps
  induction ps with
  | nil => intro j; exact le_rfl
  | cons p ps ih =>
    intro j
    simp only [potentialFrom, List.map_cons, List.sum_cons]
    refine Nat.add_le_add ?_ (ih (j + 1))
    unfold sizeAt
    cases cs[p]? with
    | none => simp
    | some c =>
      simp only [Option.map_some', Option.getD_some, credit, Cursor.size]
      have h1 := extraCredit_le_two candidate i j c
      have h2 : c.docs.length - c.pos ≤ c.docs.length := Nat.sub_le _ _
      exact Nat.add_le_add (Nat.mul_le_mul_left 3 h2) h1

theorem map_range_getElem {α : Type} (l : List α) (f : Option α → Nat) :
    (List.range l.length).map (fun p => f l[p]?) = l.map (fun a => f (some a)) := by
  apply List.ext_getElem
  · simp
  · intro n h1 h2
    simp only [List.length_map, List.length_range] at h1 h2
    simp [List.getElem?_eq_getElem h2]

/-- The bound on the potential in terms of the collection: three per posting
and two per cursor. -/
theorem potential_le_sizes {cursors : List (Cursor S)} {ordered : List Nat}
    (hperm : ordered.Perm (List.range cursors.length)) (s : LoopState S)
    (hs : s.cursors = cursors) :
    potential ordered s ≤ 3 * (cursors.map Cursor.size).sum + 2 * cursors.length := by
  unfold potential
  rw [hs]
  refine le_trans (potentialFrom_le cursors _ _ ordered 0) ?_
  rw [(hperm.map _).sum_eq]
  have h1 := map_range_getElem cursors (fun o => 3 * (o.map Cursor.size).getD 0 + 2)
  have h2 : (List.range cursors.length).map (fun p => 3 * sizeAt cursors p + 2) =
      cursors.map (fun a => 3 * a.size + 2) := by
    simpa [sizeAt] using h1
  rw [h2]
  clear h1 h2 hs hperm
  induction cursors with
  | nil => simp
  | cons a l ih =>
    simp only [List.map_cons, List.sum_cons, List.length_cons]
    omega

/-- A call of `next_geq(candidate)` costs the cursor at least one unit of credit,
whether it ends in a mismatch (the position becomes the candidate and the scan
restarts) or in a match at view index `i` (the scan moves on). -/
theorem Cursor.next_geq_credit (c : Cursor S) {candidate : Nat}
    (hsent : candidate ≤ c.sentinel) (i j : Nat) :
    ((c.next_geq candidate).docid ≠ candidate →
        credit (c.next_geq candidate).docid 0 j (c.next_geq candidate) + 1 ≤
          credit candidate i j c) ∧
      ((c.next_geq candidate).docid = candidate →
        credit candidate (i + 1) i (c.next_geq candidate) + 1 ≤ credit candidate i i c) := by
  have hge := Cursor.le_docid_next_geq c hsent
  have hdocs : (c.next_geq candidate).docs = c.docs := rfl
  have hpos : (c.next_geq candidate).pos = c.pos +
      ((c.docs.drop c.pos).takeWhile (fun d => decide (d < candidate))).length := rfl
  have hlen : ((c.docs.drop c.pos).takeWhile (fun d => decide (d < candidate))).length ≤
      c.docs.length - c.pos := by
    have := (List.takeWhile_sublist (fun d => decide (d < candidate))
      (l := c.docs.drop c.pos)).length_le
    simpa using this
  have h2 := @extraCredit_le_two S
  by_cases ht : ((c.docs.drop c.pos).takeWhile (fun d => decide (d < candidate))).length = 0
  · have hsame : (c.next_geq candidate).docid = c.docid := by
      unfold Cursor.docid
      rw [hdocs, hpos, ht]
      rfl
    have hp : (c.next_geq candidate).pos = c.pos := by rw [hpos, ht]; rfl
    constructor
    · intro hne
      rw [hsame] at hne hge ⊢
      unfold credit
      rw [hdocs, hp]
      have e1 : extraCredit c.docid 0 j (c.next_geq candidate) = 1 := by
        unfold extraCredit
        rw [hsame, if_neg (lt_irrefl _), if_pos ⟨rfl, Nat.zero_le _⟩]
      have e2 : extraCredit candidate i j c = 2 := by
        unfold extraCredit
        rw [if_pos (lt_of_le_of_ne hge (Ne.symm hne))]
      omega
    · intro heq
      rw [hsame] at heq
      unfold credit
      rw [hdocs, hp]
      have e1 : extraCredit candidate (i + 1) i (c.next_geq candidate) = 0 := by
        unfold extraCredit
        rw [hsame, heq, if_neg (lt_irrefl _), if_neg (by omega)]
      have e2 : extraCredit candidate i i c = 1 := by
        unfold extraCredit
        rw [heq, if_neg (lt_irrefl _), if_pos ⟨rfl, le_rfl⟩]
      omega
  · have hrem : c.docs.length - (c.next_geq candidate).pos + 1 ≤ c.docs.length - c.pos := by
      rw [hpos]; omega
    constructor
    · intro _
      unfold credit
      rw [hdocs]
      have := h2 (c.next_geq candidate).docid 0 j (c.next_geq candidate)
      omega
    · intro _
      unfold credit
      rw [hdocs]
      have := h2 candidate (i + 1) i (c.next_geq candidate)
      omega

/-- Every call of `next_geq` in the inner loop is paid for by the potential. -/
theorem forLoop_potential {ordered : List Nat} {M : Nat} (hnd : ordered.Nodup) :
    ∀ (k : Nat) (s s1 : LoopState S), (∀ c ∈ s.cursors, M ≤ c.sentinel) →
      s.candidate < M → forLoop ordered k s = .ok s1 →
      s1.skips + potential ordered s1 ≤ s.skips + potential ordered s := by
  intro k
  induction k with
  | zero =>
    intro s s1 _ _ h
    rw [forLoop] at h
    split at h
    · cases h
    · cases h; exact le_rfl
  | succ k ih =>
    intro s s1 hsent hc h
    by_cases hi : s.i < ordered.length
    · cases hget : s.cursors[ordered[s.i]]? with
      | none =>
        rw [forLoop, dif_pos hi] at h
        simp only [hget] at h
        cases h
      | some c =>
        have hmem : c ∈ s.cursors := List.mem_iff_getElem?.2 ⟨_, hget⟩
        have hcs : s.candidate ≤ c.sentinel := le_trans (le_of_lt hc) (hsent c hmem)
        obtain ⟨hmis, hmat⟩ := Cursor.next_geq_credit c hcs s.i s.i
        have hidx : ordered[s.i]? = some ordered[s.i] := List.getElem?_eq_getElem hi
        rw [forLoop_step ordered k s hi hget] at h
        by_cases hne : (c.next_geq s.candidate).docid ≠ s.candidate
        · rw [if_pos hne] at h
          cases h
          have hlt : s.candidate < (c.next_geq s.candidate).docid :=
            lt_of_le_of_ne (Cursor.le_docid_next_geq c hcs) (Ne.symm hne)
          have := potentialFrom_set (c.next_geq s.candidate) 1 hget
            (fun j d => extraCredit_le_of_lt hlt s.i 0 j d) ordered 0 s.i hnd hidx
            (by rw [Nat.zero_add]; exact hmis hne)
          show s.skips + 1 + potentialFrom
              (s.cursors.set ordered[s.i] (c.next_geq s.candidate))
              (c.next_geq s.candidate).docid 0 0 ordered ≤
            s.skips + potentialFrom s.cursors s.candidate s.i 0 ordered
          omega
        · rw [if_neg hne] at h
          have heq : (c.next_geq s.candidate).docid = s.candidate := not_not.1 hne
          have hpot := potentialFrom_set (c.next_geq s.candidate) 1 hget
            (fun j d => extraCredit_le_of_le s.candidate (Nat.le_add_right s.i 1) j d)
            ordered 0 s.i hnd hidx
            (by rw [Nat.zero_add]; exact hmat heq)
          have hrec := ih
            { cursors := s.cursors.set ordered[s.i] (c.next_geq s.candidate),
              candidate := s.candidate, i := s.i + 1, skips := s.skips + 1 } s1
            (by
              intro d hd
              rcases List.mem_or_eq_of_mem_set hd with hd | hd
              · exact hsent d hd
              · rw [hd]; exact hsent c hmem)
            hc h
          have hrec1 : s1.skips + potential ordered s1 ≤
              s.skips + 1 + potentialFrom
                (s.cursors.set ordered[s.i] (c.next_geq s.candidate)) s.candidate (s.i + 1) 0
                ordered := hrec
          show s1.skips + potential ordered s1 ≤
            s.skips + potentialFrom s.cursors s.candidate s.i 0 ordered
          omega
    · rw [forLoop_done ordered (k + 1) s hi] at h
      cases h; exact le_rfl

/-- Advancing the driver makes no call of `next_geq` and does not raise the
potential, provided the candidate grows. -/
theorem advanceDriver_potential {ordered : List Nat} (hnd : ordered.Nodup)
    {s s1 : LoopState S} (h : advanceDriver ordered s = .ok s1)
    (hlt : s.candidate < s1.candidate) :
    s1.skips = s.skips ∧ potential ordered s1 ≤ potential ordered s := by
  unfold advanceDriver at h
  cases h0 : ordered[0]? with
  | none => rw [h0] at h; cases h
  | some p =>
    rw [h0] at h
    simp only at h
    cases hc : s.cursors[p]? with
    | none => rw [hc] at h; cases h
    | some c =>
      rw [hc] at h
      simp only [Except.ok.injEq] at h
      subst h
      simp only at hlt
      refine ⟨rfl, ?_⟩
      have hcr : credit c.next.docid 1 (0 + 0) c.next + 0 ≤ credit s.candidate s.i (0 + 0) c := by
        unfold credit
        have e1 : extraCredit c.next.docid 1 0 c.next = 0 := by
          unfold extraCredit
          rw [if_neg (lt_irrefl _), if_neg (by omega)]
        have hdocs : c.next.docs = c.docs := Cursor.docs_eq_of_reset (Cursor.reset_next c)
        have hpos := Cursor.pos_le_next c
        rw [hdocs]
        simp only [Nat.add_zero, e1]
        omega
      have := potentialFrom_set c.next 0 hc (fun j d => extraCredit_le_of_lt hlt s.i 1 j d)
        ordered 0 0 hnd h0 hcr
      simpa [potential] using this

/-- One pass through the body of the `while` loop of `and_query`, entered in a
state that satisfies the invariant with a candidate below the bound, for any
results so far: the pass returns, the invariant holds again, the candidate has
grown, the calls of `next_geq` are paid for by the potential, and the pass took
one of the two branches. -/
theorem and_query_body_pass {cursors0 : List (Cursor S)} {ordered : List Nat} {M : Nat}
    (hctx : Ctx cursors0 ordered M) (hnd : ordered.Nodup) {s : LoopState S}
    (hinv : Inv cursors0 ordered s) (hc : s.candidate < M) (res : List Nat) :
    ∃ s1 res1 sf, and_query_body ordered s res = .ok (s1, res1) ∧
      Inv cursors0 ordered s1 ∧ s.candidate < s1.candidate ∧
      s1.skips + potential ordered s1 ≤ s.skips + potential ordered s ∧
      forLoop ordered (ordered.length - s.i) s = .ok sf ∧ Inv cursors0 ordered sf ∧
      ((sf.i = ordered.length ∧ sf.candidate = s.candidate ∧
          advanceDriver ordered sf = .ok s1 ∧ res1 = res ++ [s.candidate]) ∨
        (sf.i ≠ ordered.length ∧ sf = s1 ∧ res1 = res)) := by
  obtain ⟨sf, h1, hinv1, _, hcase⟩ := forLoop_spec hctx _ s hinv hc le_rfl
  have hsent : ∀ c ∈ s.cursors, M ≤ c.sentinel :=
    fun c hcm => (hctx.sorted_cur hinv.frame hcm).2
  have hpot := forLoop_potential hnd _ s sf hsent hc h1
  rcases hcase with ⟨hi, hcand⟩ | ⟨hi, hlt⟩
  · obtain ⟨s2, h2, hinv2, hlt2, _⟩ := advanceDriver_spec hctx hinv1 hi (by omega)
    obtain ⟨hsk, hpot2⟩ := advanceDriver_potential hnd h2 hlt2
    refine ⟨s2, res ++ [s.candidate], sf, ?_, hinv2, by omega, by omega, h1, hinv1,
      Or.inl ⟨hi, hcand, h2, rfl⟩⟩
    simp only [and_query_body, h1, if_pos hi, h2, hcand]
  · have hn := hctx.nonempty
    have hni : sf.i ≠ ordered.length := by omega
    refine ⟨sf, res, sf, ?_, hinv1, hlt, hpot, h1, hinv1, Or.inr ⟨hni, rfl, rfl⟩⟩
    simp only [and_query_body, h1, if_neg hni]

/-- One pass through the body of the `while` loop of `scored_and_query`, as
`and_query_body_pass`; on the match branch the scores are summed without a
fault. -/
theorem scored_and_query_body_pass [Add S] [Zero S] {cursors0 : List (Cursor S)}
    {ordered : List Nat} {M : Nat} (hctx : Ctx cursors0 ordered M)
    (hlen : ∀ c ∈ cursors0, c.scores.length = c.docs.length)
    {s : LoopState S} (hinv : Inv cursors0 ordered s) (hc : s.candidate < M)
    (res : List (Nat × S)) :
    ∃ s1 res1 sf, scored_and_query_body ordered s res = .ok (s1, res1) ∧
      Inv cursors0 ordered s1 ∧ s.candidate < s1.candidate ∧
      forLoop ordered (ordered.length - s.i) s = .ok sf ∧ Inv cursors0 ordered sf ∧
      ((sf.i = ordered.length ∧ sf.candidate = s.candidate ∧
          advanceDriver ordered sf = .ok s1 ∧
          ∃ score, sumScores sf.cursors ordered 0 = .ok score ∧
            res1 = res ++ [(s.candidate, score)]) ∨
        (sf.i ≠ ordered.length ∧ sf = s1 ∧ res1 = res)) := by
  obtain ⟨sf, h1, hinv1, _, hcase⟩ := forLoop_spec hctx _ s hinv hc le_rfl
  rcases hcase with ⟨hi, hcand⟩ | ⟨hi, hlt⟩
  · obtain ⟨s2, h2, hinv2, hlt2, _⟩ := advanceDriver_spec hctx hinv1 hi (by omega)
    obtain ⟨t, ht1, _⟩ := sumScores_spec sf.candidate ordered (0 : S)
      (hinv1.scores_ready hctx hlen hi (by omega))
    refine ⟨s2, res ++ [(s.candidate, t)], sf, ?_, hinv2, by omega, h1, hinv1,
      Or.inl ⟨hi, hcand, h2, t, ht1, rfl⟩⟩
    simp only [scored_and_query_body, h1, if_pos hi, ht1, h2, hcand]
  · have hn := hctx.nonempty
    have hni : sf.i ≠ ordered.length := by omega
    refine ⟨sf, res, sf, ?_, hinv1, hlt, h1, hinv1, Or.inr ⟨hni, rfl, rfl⟩⟩
    simp only [scored_and_query_body, h1, if_neg hni]

/-- Every state in which the loop of `and_query` tests its condition satisfies
the invariant. -/
theorem Reachable.inv {cursors0 : List (Cursor S)} {ordered : List Nat} {M : Nat}
    (hctx : Ctx cursors0 ordered M) (hnd : ordered.Nodup) {s0 s : LoopState S}
    (h0 : Inv cursors0 ordered s0) (h : Reachable ordered M s0 s) : Inv cursors0 ordered s := by
  induction h with
  | init => exact h0
  | pass _ hc hb ih =>
    obtain ⟨s1, res1, sf, hb1, hinv1, _⟩ := and_query_body_pass hctx hnd ih hc _
    rw [hb1] at hb
    simp only [Except.ok.injEq, Prod.mk.injEq] at hb
    rw [← hb.1]
    exact hinv1

/-- The loop of `scored_and_query` tests its condition in states in which the
loop of `and_query` does. -/
theorem ScoredReachable.reachable [Add S] [Zero S] {ordered : List Nat} {M : Nat}
    {s0 s : LoopState S} (h : ScoredReachable ordered M s0 s) : Reachable ordered M s0 s := by
  induction h with
  | init => exact Reachable.init
  | pass _ hc hb ih => exact Reachable.pass ih hc (body_simulation hb)

/-- The calls of `next_geq` made by the loop of `and_query` are paid for by the
potential of the state it starts in. -/
theorem and_query_loop_skips {cursors0 : List (Cursor S)} {ordered : List Nat} {M : Nat}
    (hctx : Ctx cursors0 ordered M) (hnd : ordered.Nodup) :
    ∀ (fuel : Nat) (s s1 : LoopState S) (res res1 : List Nat), Inv cursors0 ordered s →
      and_query_loop ordered M fuel s res = .ok (s1, res1) →
      s1.skips + potential ordered s1 ≤ s.skips + potential ordered s := by
  intro fuel
  induction fuel with
  | zero =>
    intro s s1 res res1 _ h
    rw [and_query_loop] at h
    split at h
    · cases h
    · cases h; exact le_rfl
  | succ fuel ih =>
    intro s s1 res res1 hinv h
    rw [and_query_loop] at h
    by_cases hc : s.candidate < M
    · rw [if_pos hc] at h
      obtain ⟨s2, res2, sf, hb, hinv2, _, hpot, _⟩ := and_query_body_pass hctx hnd hinv hc res
      rw [hb] at h
      simp only at h
      have := ih s2 s1 res2 res1 hinv2 h
      omega
    · rw [if_neg hc] at h
      cases h; exact le_rfl

/-! ### The view and the state the traversal starts in -/

theorem nodup_ordered_cursors {sort : (Nat → Nat → Bool) → List Nat → List Nat}
    (hsort : StdSort sort) (cursors : List (Cursor S)) :
    (ordered_cursors sort cursors).Nodup :=
  ((hsort (sizeAt cursors) (List.range cursors.length)).1.nodup_iff).2 (List.nodup_range _)

/-- The traversal of a non-empty collection of well-formed cursors starts in a
state that satisfies the invariant. -/
theorem initialState_inv {sort : (Nat → Nat → Bool) → List Nat → List Nat}
    (hsort : StdSort sort) {cursors : List (Cursor S)} {M : Nat} (hne : cursors ≠ [])
    (hwf : ∀ c ∈ cursors, c.WellFormed M) {s0 : LoopState S}
    (h0 : initialState sort cursors = .ok s0) :
    Inv cursors (ordered_cursors sort cursors) s0 ∧ s0.cursors = cursors ∧ s0.skips = 0 := by
  have hctx := ctx_of_wellFormed hsort hne hwf
  obtain ⟨p, c, hp, hget, hinit⟩ := initialState_ok hsort hne
  rw [hinit] at h0
  simp only [Except.ok.injEq] at h0
  subst h0
  exact ⟨(inv_init hctx (fun c hc => (hwf c hc).2.1) (c := c) (by rw [hp]; exact hget)).1,
    rfl, rfl⟩

/-! ### Without the sentinel precondition -/

theorem Cursor.next_of_exhausted {c : Cursor S} (h : c.docs.length ≤ c.pos) : c.next = c := by
  unfold Cursor.next
  rw [if_neg (by omega)]

theorem Cursor.docid_of_exhausted {c : Cursor S} (h : c.docs.length ≤ c.pos) :
    c.docid = c.sentinel := by
  unfold Cursor.docid
  rw [List.getD_eq_getElem?_getD, List.getElem?_eq_none h]
  rfl

/-- With a single exhausted cursor whose sentinel is the candidate, a pass through
the body records the candidate and returns to the state it was entered in. -/
theorem and_query_body_stuck {c : Cursor S} (h : c.docs.length ≤ c.pos) (k : Nat)
    (res : List Nat) :
    and_query_body [0] { cursors := [c], candidate := c.sentinel, i := 1, skips := k } res =
      .ok ({ cursors := [c], candidate := c.sentinel, i := 1, skips := k },
        res ++ [c.sentinel]) := by
  simp [and_query_body, forLoop, advanceDriver, Cursor.next_of_exhausted h,
    Cursor.docid_of_exhausted h]

/-- From that state the loop never reaches a candidate that ends it: whatever the
fuel, the run is out of fuel. -/
theorem and_query_loop_stuck {c : Cursor S} (h : c.docs.length ≤ c.pos) {M : Nat}
    (hM : c.sentinel < M) (k : Nat) :
    ∀ (fuel : Nat) (res : List Nat),
      and_query_loop [0] M fuel { cursors := [c], candidate := c.sentinel, i := 1, skips := k }
        res = .error .outOfFuel := by
  intro fuel
  induction fuel with
  | zero => intro res; rw [and_query_loop, if_pos hM]
  | succ fuel ih =>
    intro res
    rw [and_query_loop, if_pos hM, and_query_body_stuck h k res]
    exact ih _

theorem reachable_stuck {c : Cursor S} (h : c.docs.length ≤ c.pos) {M : Nat} (k : Nat)
    {s : LoopState S}
    (hr : Reachable [0] M { cursors := [c], candidate := c.sentinel, i := 1, skips := k } s) :
    s = { cursors := [c], candidate := c.sentinel, i := 1, skips := k } := by
  induction hr with
  | init => rfl
  | pass _ _ hb ih =>
    subst ih
    rw [and_query_body_stuck h k] at hb
    simp only [Except.ok.injEq, Prod.mk.injEq] at hb
    exact hb.1.symm

theorem ordered_cursors_singleton {sort : (Nat → Nat → Bool) → List Nat → List Nat}
    (hsort : StdSort sort) (c : Cursor S) : ordered_cursors sort [c] = [0] := by
  have hperm := (hsort (sizeAt [c]) (List.range [c].length)).1
  exact List.perm_singleton.1 hperm

/-! ### The final state is a reachable state -/

/-- A pass through the body followed by reachable states gives reachable states. -/
theorem Reachable.head {ordered : List Nat} {M : Nat} {s s1 s2 : LoopState S}
    {res res1 : List Nat} (hc : s.candidate < M)
    (hb : and_query_body ordered s res = .ok (s1, res1)) (h : Reachable ordered M s1 s2) :
    Reachable ordered M s s2 := by
  induction h with
  | init => exact Reachable.pass Reachable.init hc hb
  | pass _ hc1 hb1 ih => exact Reachable.pass ih hc1 hb1

/-- The state in which the loop of `and_query` ends is one of the states in
which it tests its condition. -/
theorem and_query_loop_reachable {ordered : List Nat} {M : Nat} :
    ∀ (fuel : Nat) (s s1 : LoopState S) (res res1 : List Nat),
      and_query_loop ordered M fuel s res = .ok (s1, res1) → Reachable ordered M s s1 := by
  intro fuel
  induction fuel with
  | zero =>
    intro s s1 res res1 h
    rw [and_query_loop] at h
    split at h
    · cases h
    · cases h; exact Reachable.init
  | succ fuel ih =>
    intro s s1 res res1 h
    rw [and_query_loop] at h
    by_cases hc : s.candidate < M
    · rw [if_pos hc] at h
      cases hb : and_query_body ordered s res with
      | error e => rw [hb] at h; cases h
      | ok x =>
        obtain ⟨s2, res2⟩ := x
        rw [hb] at h
        simp only at h
        exact Reachable.head hc hb (ih _ _ _ _ h)
    · rw [if_neg hc] at h
      cases h; exact Reachable.init

/-- The inner loop, entered with a candidate below the bound, leaves behind only
postings below the bound. -/
theorem forLoop_passed_lt (ordered : List Nat) {M : Nat} :
    ∀ (k : Nat) (s s1 : LoopState S), s.candidate < M →
      (∀ c ∈ s.cursors, ∀ x ∈ c.passed, x < M) → forLoop ordered k s = .ok s1 →
      ∀ c ∈ s1.cursors, ∀ x ∈ c.passed, x < M := by
  intro k
  induction k with
  | zero =>
    intro s s1 _ hq h
    rw [forLoop] at h
    split at h
    · cases h
    · cases h; exact hq
  | succ k ih =>
    intro s s1 hc hq h
    by_cases hi : s.i < ordered.length
    · cases hget : s.cursors[ordered[s.i]]? with
      | none =>
        rw [forLoop, dif_pos hi] at h
        simp only [hget] at h
        cases h
      | some c =>
        have hmem : c ∈ s.cursors := List.mem_iff_getElem?.2 ⟨_, hget⟩
        have hset : ∀ d ∈ s.cursors.set ordered[s.i] (c.next_geq s.candidate),
            ∀ x ∈ d.passed, x < M := by
          intro d hd x hx
          rcases List.mem_or_eq_of_mem_set hd with hd | hd
          · exact hq d hd x hx
          · subst hd
            rw [Cursor.passed_next_geq, List.mem_append] at hx
            rcases hx with hx | hx
            · exact hq c hmem x hx
            · have := List.mem_takeWhile_imp hx
              simp only [decide_eq_true_eq] at this
              omega
        rw [forLoop_step ordered k s hi hget] at h
        by_cases hne : (c.next_geq s.candidate).docid ≠ s.candidate
        · rw [if_pos hne] at h
          cases h; exact hset
        · rw [if_neg hne] at h
          exact ih { cursors := s.cursors.set ordered[s.i] (c.next_geq s.candidate),
                     candidate := s.candidate, i := s.i + 1, skips := s.skips + 1 } s1 hc hset h
    · rw [forLoop_done ordered (k + 1) s hi] at h
      cases h; exact hq

/-- In every state the loop reaches from well-formed cursors, the postings the
cursors have left behind are below the bound. -/
theorem Reachable.passed_lt {cursors0 : List (Cursor S)} {ordered : List Nat} {M : Nat}
    (hctx : Ctx cursors0 ordered M) (hnd : ordered.Nodup) {s0 s : LoopState S}
    (h0 : Inv cursors0 ordered s0) (hq0 : ∀ c ∈ s0.cursors, ∀ x ∈ c.passed, x < M)
    (h : Reachable ordered M s0 s) : ∀ c ∈ s.cursors, ∀ x ∈ c.passed, x < M := by
  induction h with
  | init => exact hq0
  | pass hr hc hb ih =>
    rename_i s2 s3 res res1
    obtain ⟨s1, res2, sf, hb1, _, _, _, hf, hinvf, hcase⟩ :=
      and_query_body_pass hctx hnd (hr.inv hctx hnd h0) hc res
    rw [hb1] at hb
    simp only [Except.ok.injEq, Prod.mk.injEq] at hb
    have hs : s1 = s3 := hb.1
    subst hs
    have hqf := forLoop_passed_lt ordered _ s2 sf hc ih hf
    rcases hcase with ⟨hi, hcand, hadv, _⟩ | ⟨_, hs, _⟩
    · unfold advanceDriver at hadv
      cases hp0 : ordered[0]? with
      | none => rw [hp0] at hadv; cases hadv
      | some p =>
        rw [hp0] at hadv
        simp only at hadv
        cases hcp : sf.cursors[p]? with
        | none => rw [hcp] at hadv; cases hadv
        | some c =>
          rw [hcp] at hadv
          simp only [Except.ok.injEq] at hadv
          subst hadv
          have hmem : c ∈ sf.cursors := List.mem_iff_getElem?.2 ⟨_, hcp⟩
          have hd := hinvf.aligned_all hctx hi c hmem
          intro d hdm x hx
          simp only at hdm
          rcases List.mem_or_eq_of_mem_set hdm with hdm | hdm
          · exact hqf d hdm x hx
          · subst hdm
            have hsent := (hctx.sorted_cur hinvf.frame hmem).2
            obtain ⟨l, hl⟩ := Cursor.remaining_of_docid_lt (c := c) (by omega)
            rw [Cursor.passed_next, hl, List.mem_append] at hx
            rcases hx with hx | hx
            · exact hqf c hmem x hx
            · simp at hx; omega
    · subst hs; exact hqf

/-- A cursor over a strictly increasing list that started at its first posting
and has left behind only postings below its sentinel reports a `docid()` that is
not smaller than at the start. -/
theorem Cursor.docid_le_of_passed_lt {c c1 : Cursor S} (hr : c1.reset = c.reset)
    (hpos : c.pos = 0) (hs : c.docs.Pairwise (· < ·)) {M : Nat} (hM : M ≤ c.sentinel)
    (hq : ∀ x ∈ c1.passed, x < M) : c.docid ≤ c1.docid := by
  have hdocs : c1.docs = c.docs := Cursor.docs_eq_of_reset hr
  have hsent : c1.sentinel = c.sentinel := Cursor.sentinel_eq_of_reset hr
  unfold Cursor.passed at hq
  unfold Cursor.docid
  rw [hdocs] at hq ⊢
  rw [hsent, hpos, List.getD_eq_getElem?_getD, List.getD_eq_getElem?_getD]
  by_cases h0 : 0 < c.docs.length
  · rw [List.getElem?_eq_getElem h0]
    simp only [Option.getD_some]
    by_cases h1 : c1.pos < c.docs.length
    · rw [List.getElem?_eq_getElem h1]
      simp only [Option.getD_some]
      rcases Nat.eq_zero_or_pos c1.pos with hz | hp
      · simp [hz]
      · exact le_of_lt (List.pairwise_iff_getElem.1 hs _ _ h0 h1 hp)
    · rw [List.getElem?_eq_none (by omega : c.docs.length ≤ c1.pos)]
      simp only [Option.getD_none]
      have hmem : c.docs[0] ∈ c.docs.take c1.pos := by
        rw [List.take_of_length_le (by omega)]
        exact List.getElem_mem _
      have := hq _ hmem
      omega
  · have hnil : c.docs = [] := List.length_eq_zero.1 (by omega)
    simp [hnil]

/-- When `and_query` returns on well-formed cursors, no cursor reports a smaller
`docid()` than before the call. -/
theorem and_query_run_docid_le {sort : (Nat → Nat → Bool) → List Nat → List Nat}
    (hsort : StdSort sort) {cursors : List (Cursor S)} {M : Nat}
    (hwf : ∀ c ∈ cursors, c.WellFormed M) {fuel : Nat} {s1 : LoopState S} {res : List Nat}
    (h : and_query_run sort fuel cursors M = .ok (s1, res)) {k : Nat} {c c1 : Cursor S}
    (hc : cursors[k]? = some c) (hc1 : s1.cursors[k]? = some c1) : c.docid ≤ c1.docid := by
  have hne : cursors ≠ [] := by
    intro hnil
    subst hnil
    simp at hc
  have hctx := ctx_of_wellFormed hsort hne hwf
  have hnd := nodup_ordered_cursors hsort cursors
  have hadv := and_query_run_advanced h
  rw [and_query_run_eq sort fuel hne M] at h
  cases h0 : initialState sort cursors with
  | error e => rw [h0] at h; cases h
  | ok s0 =>
    rw [h0] at h
    simp only at h
    obtain ⟨hinv0, hcs, _⟩ := initialState_inv hsort hne hwf h0
    have hq0 : ∀ d ∈ s0.cursors, ∀ x ∈ d.passed, x < M := by
      intro d hd x hx
      rw [hcs] at hd
      simp [Cursor.passed, (hwf d hd).2.1] at hx
    have hq := (and_query_loop_reachable fuel s0 s1 [] res h).passed_lt hctx hnd hinv0 hq0
    have hmem : c ∈ cursors := List.mem_iff_getElem?.2 ⟨_, hc⟩
    have hmem1 : c1 ∈ s1.cursors := List.mem_iff_getElem?.2 ⟨_, hc1⟩
    obtain ⟨hs, hp, hM⟩ := hwf c hmem
    exact Cursor.docid_le_of_passed_lt (hadv.2 k c c1 hc hc1).1 hp hs hM (hq c1 hmem1)

/-- The data-model invariant is what makes `docid()` a non-decreasing function of
the position. -/
theorem Cursor.monotone_iff (c : Cursor S) :
    c.Monotone ↔ ∀ p q, p ≤ q → c.docs.getD p c.sentinel ≤ c.docs.getD q c.sentinel := by
  constructor
  · intro hm p q hpq
    have := @Cursor.docid_le_of_pos_le S { c with pos := p } { c with pos := q } rfl hpq hm
    exact this
  · intro h
    constructor
    · rw [List.pairwise_iff_getElem]
      intro i j hi hj hij
      have := h i j (le_of_lt hij)
      simpa [List.getD_eq_getElem?_getD, List.getElem?_eq_getElem hi,
        List.getElem?_eq_getElem hj] using this
    · intro d hd
      obtain ⟨i, hi, rfl⟩ := List.mem_iff_getElem.1 hd
      have := h i c.docs.length (le_of_lt hi)
      simpa [List.getD_eq_getElem?_getD, List.getElem?_eq_getElem hi] using this

/-- The cursor the first pointer of the view leads to is a cursor of least
`size()`. -/
theorem view_head_least {sort : (Nat → Nat → Bool) → List Nat → List Nat}
    (hsort : StdSort sort) {cursors : List (Cursor S)} {p : Nat} {c : Cursor S}
    (hp : (ordered_cursors sort cursors)[0]? = some p) (hc : cursors[p]? = some c) :
    ∀ d ∈ cursors, c.size ≤ d.size := by
  obtain ⟨hperm, hsorted⟩ := hsort (sizeAt cursors) (List.range cursors.length)
  intro d hd
  obtain ⟨k, hk, rfl⟩ := List.mem_iff_getElem.1 hd
  have hmem : k ∈ ordered_cursors sort cursors := hperm.mem_iff.2 (List.mem_range.2 hk)
  have hsp : sizeAt cursors p = c.size := by simp [sizeAt, hc]
  have hsk : sizeAt cursors k = (cursors[k]).size := by
    simp [sizeAt, List.getElem?_eq_getElem hk]
  rw [← hsp, ← hsk]
  cases hord : ordered_cursors sort cursors with
  | nil => rw [hord] at hp; simp at hp
  | cons a l =>
    rw [hord] at hp hmem
    simp only [List.getElem?_cons_zero, Option.some.injEq] at hp
    subst hp
    have hs : (a :: l).Pairwise (fun x y => sizeAt cursors x ≤ sizeAt cursors y) := by
      rw [← hord]; exact hsorted
    rcases List.mem_cons.1 hmem with h | h
    · rw [h]
    · exact (List.pairwise_cons.1 hs).1 k h

/-! ## The `std::sort` of libstdc++ is a sort, stable on short ranges -/

/-! ### Swaps and moves -/

theorem set_set_perm_of_get {l : List Nat} {i j x y : Nat} (hi : l[i]? = some x)
    (hj : l[j]? = some y) : ((l.set i y).set j x).Perm l := by
  obtain ⟨hil, hix⟩ := List.getElem?_eq_some_iff.1 hi
  obtain ⟨hjl, hjy⟩ := List.getElem?_eq_some_iff.1 hj
  by_cases hij : i = j
  · subst hij
    rw [List.set_set]
    have hxy : x = y := by rw [← hix, ← hjy]
    subst hxy
    have : l.set i x = l := by
      apply List.ext_getElem?
      intro k
      rw [List.getElem?_set]
      split
      · next h => subst h; simp [hil, hi]
      · rfl
    rw [this]
  · rw [List.perm_iff_count]
    intro b
    have hjl2 : j < (l.set i y).length := by simpa using hjl
    rw [List.count_set x b (l.set i y) j hjl2, List.count_set y b l i hil]
    have hget : (l.set i y)[j] = y := by
      rw [List.getElem_set_ne hij]; exact hjy
    rw [hget, hix]
    have hmem : x ∈ l := hix ▸ List.getElem_mem hil
    have hpos : (if (x == b) = true then 1 else 0) ≤ l.count b := by
      split
      · next h =>
        have hxb : x = b := by simpa using h
        subst hxb
        exact List.count_pos_iff.2 hmem
      · exact Nat.zero_le _
    omega

theorem iter_swap_perm (arr : List Nat) (i j : Nat) : (iter_swap arr i j).Perm arr := by
  unfold iter_swap
  split
  · next _ x y hi hj => exact set_set_perm_of_get hi hj
  · exact List.Perm.refl _

/-- Moving the element at `j` into a hole at `i` and leaving the hole at `j` permutes
the range in which the hole is filled. -/
theorem hole_move_perm {l : List Nat} {i j : Nat} (hi : i < l.length) (hj : j < l.length)
    (hij : i ≠ j) (v : Nat) : ((l.set i (l.getD j 0)).set j v).Perm (l.set i v) := by
  have h1 : (l.set i v)[i]? = some v := List.getElem?_set_self hi
  have h2 : (l.set i v)[j]? = some (l.getD j 0) := by
    rw [List.getElem?_set_ne hij, List.getD_eq_getElem l 0 hj]
    exact List.getElem?_eq_getElem hj
  have := set_set_perm_of_get h1 h2
  rwa [List.set_set] at this

theorem move_median_to_first_perm (comp : Nat → Nat → Bool) (arr : List Nat)
    (result a b c : Nat) : (move_median_to_first comp arr result a b c).Perm arr := by
  unfold move_median_to_first
  split_ifs <;> exact iter_swap_perm _ _ _

theorem scanUp_le (comp : Nat → Nat → Bool) (arr : List Nat) (pivot : Nat) :
    ∀ (k first : Nat), first ≤ arr.length → scanUp comp arr pivot k first ≤ arr.length
  | 0, first, h => h
  | k + 1, first, h => by
    unfold scanUp
    split
    · next x hx =>
      split
      · exact scanUp_le comp arr pivot k (first + 1) (List.getElem?_eq_some_iff.1 hx).1
      · exact h
    · exact h

theorem scanDown_le (comp : Nat → Nat → Bool) (arr : List Nat) (pivot : Nat) :
    ∀ (k last : Nat), scanDown comp arr pivot k last ≤ last
  | 0, last => Nat.le_refl _
  | k + 1, last => by
    unfold scanDown
    split
    · exact (scanDown_le comp arr pivot k (last - 1)).trans (Nat.sub_le _ _)
    · exact Nat.le_refl _

theorem unguarded_partition_spec (comp : Nat → Nat → Bool) (pivot : Nat) :
    ∀ (k : Nat) (arr : List Nat) (first last : Nat), first ≤ arr.length → last ≤ arr.length →
      (unguarded_partition comp pivot k arr first last).2.Perm arr ∧
        (unguarded_partition comp pivot k arr first last).1 ≤ arr.length
  | 0, arr, first, last, h, _ => ⟨List.Perm.refl _, h⟩
  | k + 1, arr, first, last, h, hl => by
    unfold unguarded_partition
    simp only
    have hup := scanUp_le comp arr pivot arr.length first h
    have hdown := scanDown_le comp arr pivot (last - 1) (last - 1)
    split
    · next hlt =>
      have hp := iter_swap_perm arr (scanUp comp arr pivot arr.length first)
        (scanDown comp arr pivot (last - 1) (last - 1))
      have hlen := hp.length_eq
      obtain ⟨h1, h2⟩ := unguarded_partition_spec comp pivot k
        (iter_swap arr (scanUp comp arr pivot arr.length first)
          (scanDown comp arr pivot (last - 1) (last - 1)))
        (scanUp comp arr pivot arr.length first + 1)
        (scanDown comp arr pivot (last - 1) (last - 1)) (by rw [hlen]; omega)
        (by rw [hlen]; omega)
      exact ⟨h1.trans hp, by rw [hlen] at h2; exact h2⟩
    · exact ⟨List.Perm.refl _, hup⟩

theorem unguarded_partition_pivot_spec (comp : Nat → Nat → Bool) (arr : List Nat)
    (first last : Nat) (hf : first < arr.length) (hl : last ≤ arr.length) :
    (unguarded_partition_pivot comp arr first last).2.Perm arr ∧
      (unguarded_partition_pivot comp arr first last).1 ≤ arr.length := by
  unfold unguarded_partition_pivot
  simp only
  have hp := move_median_to_first_perm comp arr first (first + 1)
    (first + (last - first) / 2) (last - 1)
  have hlen := hp.length_eq
  obtain ⟨h1, h2⟩ := unguarded_partition_spec comp first arr.length
    (move_median_to_first comp arr first (first + 1) (first + (last - first) / 2) (last - 1))
    (first + 1) last (by rw [hlen]; omega) (by rw [hlen]; omega)
  exact ⟨h1.trans hp, by rw [hlen] at h2; exact h2⟩

/-! ### The heap -/

theorem push_heap_perm (comp : Nat → Nat → Bool) (first : Nat) :
    ∀ (k : Nat) (arr : List Nat) (holeIndex topIndex value : Nat),
      first + holeIndex < arr.length →
      (push_heap comp first k arr holeIndex topIndex value).Perm
        (arr.set (first + holeIndex) value)
  | 0, arr, holeIndex, topIndex, value, _ => List.Perm.refl _
  | k + 1, arr, holeIndex, topIndex, value, h => by
    unfold push_heap
    simp only
    split
    · next hc =>
      have hpar : (holeIndex - 1) / 2 < holeIndex := by omega
      have ih := push_heap_perm comp first k
        (arr.set (first + holeIndex) (arr.getD (first + (holeIndex - 1) / 2) 0))
        ((holeIndex - 1) / 2) topIndex value (by rw [List.length_set]; omega)
      exact ih.trans (hole_move_perm h (by omega) (by omega) value)
    · exact List.Perm.refl _

theorem adjust_heap_down_spec (comp : Nat → Nat → Bool) (first len : Nat) (value : Nat) :
    ∀ (k : Nat) (arr : List Nat) (holeIndex : Nat), first + len ≤ arr.length →
      holeIndex < len →
      ((adjust_heap_down comp first len k arr holeIndex).1.set
          (first + (adjust_heap_down comp first len k arr holeIndex).2) value).Perm
        (arr.set (first + holeIndex) value) ∧
      (adjust_heap_down comp first len k arr holeIndex).2 < len ∧
      (adjust_heap_down comp first len k arr holeIndex).1.length = arr.length
  | 0, arr, holeIndex, _, hh => ⟨List.Perm.refl _, hh, rfl⟩
  | k + 1, arr, holeIndex, hlen, hh => by
    unfold adjust_heap_down
    simp only
    split
    · next hlt =>
      split
      · next hc =>
        obtain ⟨h1, h2, h3⟩ := adjust_heap_down_spec comp first len value k
          (arr.set (first + holeIndex) (arr.getD (first + (2 * (holeIndex + 1) - 1)) 0))
          (2 * (holeIndex + 1) - 1) (by rw [List.length_set]; exact hlen) (by omega)
        refine ⟨h1.trans (hole_move_perm (by omega) (by omega) (by omega) value), h2, ?_⟩
        rw [h3, List.length_set]
      · next hc =>
        obtain ⟨h1, h2, h3⟩ := adjust_heap_down_spec comp first len value k
          (arr.set (first + holeIndex) (arr.getD (first + (2 * (holeIndex + 1))) 0))
          (2 * (holeIndex + 1)) (by rw [List.length_set]; exact hlen) (by omega)
        refine ⟨h1.trans (hole_move_perm (by omega) (by omega) (by omega) value), h2, ?_⟩
        rw [h3, List.length_set]
    · exact ⟨List.Perm.refl _, hh, rfl⟩

theorem adjust_heap_perm (comp : Nat → Nat → Bool) (arr : List Nat)
    (first holeIndex len value : Nat) (hlen : first + len ≤ arr.length) (hh : holeIndex < len) :
    (adjust_heap comp arr first holeIndex len value).Perm (arr.set (first + holeIndex) value) := by
  obtain ⟨h1, h2, h3⟩ := adjust_heap_down_spec comp first len value len arr holeIndex hlen hh
  unfold adjust_heap
  simp only
  split
  · next hc =>
    have hp := push_heap_perm comp first
      (2 * ((adjust_heap_down comp first len len arr holeIndex).2 + 1) - 1)
      ((adjust_heap_down comp first len len arr holeIndex).1.set
        (first + (adjust_heap_down comp first len len arr holeIndex).2)
        ((adjust_heap_down comp first len len arr holeIndex).1.getD
          (first + (2 * ((adjust_heap_down comp first len len arr holeIndex).2 + 1) - 1)) 0))
      (2 * ((adjust_heap_down comp first len len arr holeIndex).2 + 1) - 1) holeIndex value
      (by rw [List.length_set, h3]; omega)
    refine hp.trans (List.Perm.trans ?_ h1)
    exact hole_move_perm (by rw [h3]; omega) (by rw [h3]; omega) (by omega) value
  · exact (push_heap_perm comp first _ _ _ holeIndex value (by rw [h3]; omega)).trans h1

theorem set_getD_self {l : List Nat} {i : Nat} (hi : i < l.length) : l.set i (l.getD i 0) = l := by
  apply List.ext_getElem?
  intro k
  rw [List.getElem?_set]
  split
  · next h =>
    subst h
    simp [hi, List.getD_eq_getElem l 0 hi]
  · rfl

theorem pop_heap_perm (comp : Nat → Nat → Bool) (arr : List Nat) (first last result : Nat)
    (hfl : first < last) (hl : last ≤ arr.length) (hr : result < arr.length) :
    (pop_heap comp arr first last result).Perm arr := by
  unfold pop_heap
  have hp := adjust_heap_perm comp (arr.set result (arr.getD first 0)) first 0 (last - first)
    (arr.getD result 0) (by rw [List.length_set]; omega) (by omega)
  refine hp.trans ?_
  rw [Nat.add_zero]
  by_cases hrf : result = first
  · subst hrf
    rw [List.set_set, set_getD_self hr]
  · have := hole_move_perm hr (show first < arr.length by omega) hrf (arr.getD result 0)
    rw [set_getD_self hr] at this
    exact this

theorem make_heap_loop_perm (comp : Nat → Nat → Bool) (first len : Nat) :
    ∀ (k : Nat) (arr : List Nat) (parent : Nat), first + len ≤ arr.length → parent < len →
      (make_heap_loop comp first len k arr parent).Perm arr
  | 0, arr, parent, _, _ => List.Perm.refl _
  | k + 1, arr, parent, hlen, hp => by
    unfold make_heap_loop
    simp only
    have h1 := adjust_heap_perm comp arr first parent len (arr.getD (first + parent) 0) hlen hp
    rw [set_getD_self (by omega)] at h1
    split
    · exact h1
    · exact (make_heap_loop_perm comp first len k _ (parent - 1)
        (by rw [h1.length_eq]; exact hlen) (by omega)).trans h1

theorem make_heap_perm (comp : Nat → Nat → Bool) (arr : List Nat) (first last : Nat)
    (hl : last ≤ arr.length) : (make_heap comp arr first last).Perm arr := by
  unfold make_heap
  split
  · exact List.Perm.refl _
  · exact make_heap_loop_perm comp first (last - first) _ arr _ (by omega) (by omega)

theorem sort_heap_perm (comp : Nat → Nat → Bool) (first : Nat) :
    ∀ (k : Nat) (arr : List Nat) (last : Nat), last ≤ arr.length →
      (sort_heap comp first k arr last).Perm arr
  | 0, arr, last, _ => List.Perm.refl _
  | k + 1, arr, last, hl => by
    unfold sort_heap
    split
    · next hgt =>
      have h1 := pop_heap_perm comp arr first (last - 1) (last - 1) (by omega) (by omega)
        (by omega)
      exact (sort_heap_perm comp first k _ (last - 1) (by rw [h1.length_eq]; omega)).trans h1
    · exact List.Perm.refl _

theorem partial_sort_perm (comp : Nat → Nat → Bool) (arr : List Nat) (first last : Nat)
    (hl : last ≤ arr.length) : (partial_sort comp arr first last last).Perm arr := by
  unfold partial_sort heap_select
  rw [Nat.sub_self]
  have h1 := make_heap_perm comp arr first last hl
  show (sort_heap comp first (last - first) (make_heap comp arr first last) last).Perm arr
  exact (sort_heap_perm comp first _ _ last (by rw [h1.length_eq]; exact hl)).trans h1

theorem introsort_loop_perm (comp : Nat → Nat → Bool) :
    ∀ (d : Nat) (arr : List Nat) (first last : Nat), last ≤ arr.length →
      (introsort_loop comp d arr first last).Perm arr
  | 0, arr, first, last, hl => by
    unfold introsort_loop
    split
    · exact partial_sort_perm comp arr first last hl
    · exact List.Perm.refl _
  | d + 1, arr, first, last, hl => by
    unfold introsort_loop
    simp only
    split
    · next hgt =>
      obtain ⟨h1, h2⟩ := unguarded_partition_pivot_spec comp arr first last (by omega) hl
      have h3 := introsort_loop_perm comp d (unguarded_partition_pivot comp arr first last).2
        (unguarded_partition_pivot comp arr first last).1 last (by rw [h1.length_eq]; exact hl)
      have h4 := introsort_loop_perm comp d
        (introsort_loop comp d (unguarded_partition_pivot comp arr first last).2
          (unguarded_partition_pivot comp arr first last).1 last)
        first (unguarded_partition_pivot comp arr first last).1
        (by rw [h3.length_eq, h1.length_eq]; exact h2)
      exact h4.trans (h3.trans h1)
    · exact List.Perm.refl _

/-! ### The final insertion sort -/

theorem getD_append_cons (p : List Nat) (a : Nat) (q : List Nat) (d : Nat) :
    (p ++ a :: q).getD p.length d = a := by
  induction p with
  | nil => rfl
  | cons b p ih => simpa using ih

theorem set_append_cons (p : List Nat) (a : Nat) (q : List Nat) (v : Nat) :
    (p ++ a :: q).set p.length v = p ++ v :: q := by
  induction p with
  | nil => rfl
  | cons b p ih => simp [List.set, ih]

/-- The loop of `unguarded_linear_insert` on a range whose part before the hole is
`rev` read backwards: `val` is inserted into `rev` from its front. -/
theorem unguarded_linear_insert_loop_eq (comp : Nat → Nat → Bool) (val : Nat) :
    ∀ (rev post : List Nat) (x : Nat),
      unguarded_linear_insert_loop comp rev.length (rev.reverse ++ x :: post) rev.length val =
        (List.orderedInsert (fun a b => comp a b = false) val rev).reverse ++ post
  | [], post, x => by
    simp [unguarded_linear_insert_loop]
  | y :: rev, post, x => by
    have hget : (rev.reverse ++ y :: x :: post).getD rev.length 0 = y := by
      have := getD_append_cons rev.reverse y (x :: post) 0
      rwa [List.length_reverse] at this
    have hset : ∀ v : Nat, (rev.reverse ++ y :: x :: post).set (rev.length + 1) v =
        rev.reverse ++ y :: v :: post := by
      intro v
      have := set_append_cons (rev.reverse ++ [y]) x post v
      rw [List.length_append, List.length_reverse, List.length_singleton,
        List.append_assoc, List.append_assoc] at this
      exact this
    have harr : (y :: rev).reverse ++ x :: post = rev.reverse ++ y :: x :: post := by simp
    rw [harr]
    show unguarded_linear_insert_loop comp (rev.length + 1) (rev.reverse ++ y :: x :: post)
      (rev.length + 1) val = _
    unfold unguarded_linear_insert_loop
    rw [Nat.add_sub_cancel, hget, hset, hset]
    by_cases hc : comp val y = true
    · rw [if_pos hc, unguarded_linear_insert_loop_eq comp val rev (y :: post) y]
      rw [List.orderedInsert, if_neg (by simp [hc])]
      simp
    · rw [if_neg hc]
      rw [List.orderedInsert, if_pos (by simpa using hc)]
      simp

theorem unguarded_linear_insert_eq (comp : Nat → Nat → Bool) (rev post : List Nat) (x : Nat) :
    unguarded_linear_insert comp (rev.reverse ++ x :: post) rev.length =
      (List.orderedInsert (fun a b => comp a b = false) x rev).reverse ++ post := by
  unfold unguarded_linear_insert
  have hget : (rev.reverse ++ x :: post).getD rev.length 0 = x := by
    have := getD_append_cons rev.reverse x post 0
    rwa [List.length_reverse] at this
  rw [hget]
  exact unguarded_linear_insert_loop_eq comp x rev post x

theorem take_append_cons (p : List Nat) (q : List Nat) : (p ++ q).take p.length = p := by
  induction p with
  | nil => simp
  | cons b p ih => simp

theorem drop_append_cons (p : List Nat) (a : Nat) (q : List Nat) :
    (p ++ a :: q).drop (p.length + 1) = q := by
  induction p with
  | nil => simp
  | cons b p ih => simp

theorem orderedInsert_of_forall_lt (comp : Nat → Nat → Bool) (x : Nat) :
    ∀ (L : List Nat), (∀ y ∈ L, comp x y = true) →
      List.orderedInsert (fun a b => comp a b = false) x L = L ++ [x]
  | [], _ => rfl
  | y :: L, h => by
    rw [List.orderedInsert, if_neg (by simp [h y (List.mem_cons_self _ _)])]
    rw [orderedInsert_of_forall_lt comp x L (fun z hz => h z (List.mem_cons_of_mem _ hz))]
    rfl

/-- Insertion sort by `fun a b => comp a b = false` puts the keys in descending
order when `comp` compares keys. -/
theorem insertionSort_sorted_key {comp : Nat → Nat → Bool} {key : Nat → Nat}
    (hcomp : ∀ a b, comp a b = decide (key a < key b)) (l : List Nat) :
    (List.insertionSort (fun a b => comp a b = false) l).Pairwise
      (fun a b => key b ≤ key a) := by
  haveI : IsTotal Nat (fun a b => comp a b = false) :=
    ⟨fun a b => by
      simp only [hcomp, decide_eq_false_iff_not, Nat.not_lt]
      exact Nat.le_total _ _⟩
  haveI : IsTrans Nat (fun a b => comp a b = false) :=
    ⟨fun a b c => by
      simp only [hcomp, decide_eq_false_iff_not, Nat.not_lt]
      exact fun h1 h2 => Nat.le_trans h2 h1⟩
  have h := List.sorted_insertionSort (fun a b => comp a b = false) l
  refine List.Pairwise.imp ?_ h
  intro a b hab
  simpa [hcomp] using hab

/-- The loop of `insertion_sort` from the start of the range: after `k` more
passes the part it has seen is sorted by insertion. -/
theorem insertion_sort_loop_eq {comp : Nat → Nat → Bool} {key : Nat → Nat}
    (hcomp : ∀ a b, comp a b = decide (key a < key b)) :
    ∀ (k : Nat) (done todo : List Nat), done ≠ [] → k ≤ todo.length →
      insertion_sort_loop comp 0 k
          ((List.insertionSort (fun a b => comp a b = false) done.reverse).reverse ++ todo)
          done.length =
        (List.insertionSort (fun a b => comp a b = false) (done ++ todo.take k).reverse).reverse ++
          todo.drop k
  | 0, done, todo, _, _ => by
    simp [insertion_sort_loop]
  | k + 1, done, todo, hne, hk => by
    cases todo with
    | nil => simp at hk
    | cons x todo =>
      have hlen : (List.insertionSort (fun a b => comp a b = false) done.reverse).reverse.length =
          done.length := by simp [List.length_insertionSort]
      have hget := getD_append_cons
        (List.insertionSort (fun a b => comp a b = false) done.reverse).reverse x todo 0
      have htake := take_append_cons
        (List.insertionSort (fun a b => comp a b = false) done.reverse).reverse (x :: todo)
      have hdrop := drop_append_cons
        (List.insertionSort (fun a b => comp a b = false) done.reverse).reverse x todo
      have huli := unguarded_linear_insert_eq comp
        (List.insertionSort (fun a b => comp a b = false) done.reverse) todo x
      rw [List.length_insertionSort, List.length_reverse] at huli
      rw [hlen] at hget htake hdrop
      have hstep : (if comp
            (((List.insertionSort (fun a b => comp a b = false) done.reverse).reverse ++
              x :: todo).getD done.length 0)
            (((List.insertionSort (fun a b => comp a b = false) done.reverse).reverse ++
              x :: todo).getD 0 0) = true then
            ((List.insertionSort (fun a b => comp a b = false) done.reverse).reverse ++
                x :: todo).take 0 ++
              ((List.insertionSort (fun a b => comp a b = false) done.reverse).reverse ++
                x :: todo).getD done.length 0 ::
              (((List.insertionSort (fun a b => comp a b = false) done.reverse).reverse ++
                x :: todo).drop 0).take (done.length - 0) ++
              ((List.insertionSort (fun a b => comp a b = false) done.reverse).reverse ++
                x :: todo).drop (done.length + 1)
          else unguarded_linear_insert comp
            ((List.insertionSort (fun a b => comp a b = false) done.reverse).reverse ++ x :: todo)
            done.length) =
          (List.insertionSort (fun a b => comp a b = false) (done ++ [x]).reverse).reverse ++
            todo := by
        have hins : List.insertionSort (fun a b => comp a b = false) (done ++ [x]).reverse =
            List.orderedInsert (fun a b => comp a b = false) x
              (List.insertionSort (fun a b => comp a b = false) done.reverse) := by
          rw [List.reverse_append]; rfl
        rw [hins, hget]
        split
        · next hc =>
          rw [List.take_zero, List.drop_zero, Nat.sub_zero, htake, hdrop]
          have hsorted := insertionSort_sorted_key hcomp done.reverse
          have hall : ∀ y ∈ List.insertionSort (fun a b => comp a b = false) done.reverse,
              comp x y = true := by
            have hpre := List.pairwise_reverse.2 hsorted
            cases hS : (List.insertionSort (fun a b => comp a b = false) done.reverse).reverse with
            | nil =>
              rw [hS] at hlen
              exact absurd (List.length_eq_zero.1 hlen.symm) hne
            | cons p0 ps =>
              rw [hS] at hc hpre
              have hc0 : key x < key p0 := by simpa [hcomp] using hc
              intro y hy
              have hy2 : y ∈ p0 :: ps := by rw [← hS]; exact List.mem_reverse.2 hy
              rw [hcomp]
              have hle : key p0 ≤ key y := by
                rcases List.mem_cons.1 hy2 with h | h
                · rw [h]
                · exact (List.pairwise_cons.1 hpre).1 y h
              exact decide_eq_true (Nat.lt_of_lt_of_le hc0 hle)
          rw [orderedInsert_of_forall_lt comp x _ hall]
          simp
        · exact huli
      unfold insertion_sort_loop
      rw [hstep]
      have ih := insertion_sort_loop_eq hcomp k (done ++ [x]) todo (by simp)
        (by simpa using hk)
      rw [List.length_append, List.length_singleton] at ih
      rw [ih]
      simp

theorem unguarded_insertion_sort_eq (comp : Nat → Nat → Bool) :
    ∀ (k : Nat) (done todo : List Nat), k ≤ todo.length →
      unguarded_insertion_sort comp k
          ((List.insertionSort (fun a b => comp a b = false) done.reverse).reverse ++ todo)
          done.length =
        (List.insertionSort (fun a b => comp a b = false) (done ++ todo.take k).reverse).reverse ++
          todo.drop k
  | 0, done, todo, _ => by
    simp [unguarded_insertion_sort]
  | k + 1, done, todo, hk => by
    cases todo with
    | nil => simp at hk
    | cons x todo =>
      have huli := unguarded_linear_insert_eq comp
        (List.insertionSort (fun a b => comp a b = false) done.reverse) todo x
      rw [List.length_insertionSort, List.length_reverse] at huli
      have hins : List.insertionSort (fun a b => comp a b = false) (done ++ [x]).reverse =
          List.orderedInsert (fun a b => comp a b = false) x
            (List.insertionSort (fun a b => comp a b = false) done.reverse) := by
        rw [List.reverse_append]; rfl
      unfold unguarded_insertion_sort
      rw [huli, ← hins]
      have ih := unguarded_insertion_sort_eq comp k (done ++ [x]) todo (by simpa using hk)
      rw [List.length_append, List.length_singleton] at ih
      rw [ih]
      simp

/-- The function `final_insertion_sort` on a whole range is insertion sort: the
range is read from its start, every element is inserted from the back into the
part sorted so far. -/
theorem final_insertion_sort_eq {comp : Nat → Nat → Bool} {key : Nat → Nat}
    (hcomp : ∀ a b, comp a b = decide (key a < key b)) (arr : List Nat) :
    final_insertion_sort comp arr 0 arr.length =
      (List.insertionSort (fun a b => comp a b = false) arr.reverse).reverse := by
  cases arr with
  | nil => simp [final_insertion_sort, insertion_sort]
  | cons a rest =>
    have h1 : ∀ k, k ≤ rest.length →
        insertion_sort_loop comp 0 k (a :: rest) 1 =
          (List.insertionSort (fun a b => comp a b = false) (a :: rest.take k).reverse).reverse ++
            rest.drop k := by
      intro k hk
      have := insertion_sort_loop_eq hcomp k [a] rest (by simp) hk
      simpa [List.insertionSort, List.orderedInsert] using this
    unfold final_insertion_sort
    split
    · next hgt =>
      have hlen : 16 ≤ rest.length := by
        have := hgt
        simp only [List.length_cons] at this
        omega
      unfold insertion_sort
      rw [if_neg (by omega)]
      have e1 : (0 + 16) - (0 + 1) = 15 := rfl
      have e2 : 0 + 1 = 1 := rfl
      have e3 : 0 + 16 = 16 := rfl
      rw [e1, e2, e3, h1 15 (by omega)]
      have h2 := unguarded_insertion_sort_eq comp ((a :: rest).length - 16)
        (a :: rest.take 15) (rest.drop 15)
        (by rw [List.length_drop, List.length_cons]; omega)
      have hl : (a :: rest.take 15).length = 16 := by
        rw [List.length_cons, List.length_take]; omega
      rw [hl] at h2
      rw [h2]
      have htd : (rest.drop 15).take ((a :: rest).length - 16) = rest.drop 15 := by
        apply List.take_of_length_le
        rw [List.length_drop, List.length_cons]; omega
      have hdd : (rest.drop 15).drop ((a :: rest).length - 16) = [] := by
        apply List.drop_eq_nil_of_le
        rw [List.length_drop, List.length_cons]; omega
      rw [htd, hdd, List.append_nil]
      simp
    · next hle =>
      unfold insertion_sort
      rw [if_neg (by simp)]
      have e1 : (a :: rest).length - (0 + 1) = rest.length := by simp
      have e2 : 0 + 1 = 1 := rfl
      rw [e1, e2, h1 rest.length (Nat.le_refl _)]
      simp

theorem lt_comp_false_iff {comp : Nat → Nat → Bool} {key : Nat → Nat}
    (hcomp : ∀ a b, comp a b = decide (key a < key b)) (a b : Nat) :
    comp a b = false ↔ key b ≤ key a := by
  rw [hcomp]; simp

/-- The function `std_sort` with a comparison of keys is the insertion sort of
what `introsort_loop` leaves. -/
theorem std_sort_eq {comp : Nat → Nat → Bool} {key : Nat → Nat}
    (hcomp : ∀ a b, comp a b = decide (key a < key b)) (l : List Nat) :
    std_sort comp l =
      (List.insertionSort (fun a b => comp a b = false)
        (introsort_loop comp (lg l.length * 2) l 0 l.length).reverse).reverse := by
  unfold std_sort
  split
  · next h =>
    have hl : l = [] := List.length_eq_zero.1 h
    subst hl
    cases hd : lg ([] : List Nat).length * 2 <;> simp [introsort_loop]
  · have hp := introsort_loop_perm comp (lg l.length * 2) l 0 l.length (Nat.le_refl _)
    have := final_insertion_sort_eq hcomp (introsort_loop comp (lg l.length * 2) l 0 l.length)
    rw [hp.length_eq] at this
    exact this

theorem std_sort_perm {comp : Nat → Nat → Bool} {key : Nat → Nat}
    (hcomp : ∀ a b, comp a b = decide (key a < key b)) (l : List Nat) :
    (std_sort comp l).Perm l := by
  rw [std_sort_eq hcomp]
  exact (List.reverse_perm _).trans ((List.perm_insertionSort _ _).trans
    ((List.reverse_perm _).trans (introsort_loop_perm comp _ l 0 l.length (Nat.le_refl _))))

theorem std_sort_sorted {comp : Nat → Nat → Bool} {key : Nat → Nat}
    (hcomp : ∀ a b, comp a b = decide (key a < key b)) (l : List Nat) :
    (std_sort comp l).Pairwise (fun a b => key a ≤ key b) := by
  rw [std_sort_eq hcomp]
  exact List.pairwise_reverse.2 (insertionSort_sorted_key hcomp _)

/-- On a range of at most `16` elements `introsort_loop` does nothing. -/
theorem introsort_loop_short (comp : Nat → Nat → Bool) (d : Nat) (arr : List Nat)
    (first last : Nat) (h : last - first ≤ 16) : introsort_loop comp d arr first last = arr := by
  cases d <;> simp [introsort_loop, Nat.not_lt.2 h]

/-- Inserting an element that is greater, as a number, than those of a list in
which keys descend and equal keys stand in descending order, keeps that order. -/
theorem orderedInsert_stable {comp : Nat → Nat → Bool} {key : Nat → Nat}
    (hcomp : ∀ a b, comp a b = decide (key a < key b)) (x : Nat) :
    ∀ (L : List Nat), L.Pairwise (fun a b => key b ≤ key a ∧ (key a = key b → b < a)) →
      (∀ y ∈ L, y < x) →
      (List.orderedInsert (fun a b => comp a b = false) x L).Pairwise
        (fun a b => key b ≤ key a ∧ (key a = key b → b < a))
  | [], _, _ => by simp
  | y :: L, hp, hx => by
    rw [List.orderedInsert]
    obtain ⟨hy, hL⟩ := List.pairwise_cons.1 hp
    split
    · next hc =>
      have hyx : key y ≤ key x := (lt_comp_false_iff hcomp x y).1 hc
      refine List.pairwise_cons.2 ⟨?_, hp⟩
      intro z hz
      refine ⟨?_, fun _ => hx z hz⟩
      rcases List.mem_cons.1 hz with h | h
      · rw [h]; exact hyx
      · exact Nat.le_trans (hy z h).1 hyx
    · next hc =>
      have hxy : key x < key y := by
        have := mt (lt_comp_false_iff hcomp x y).2 hc
        omega
      refine List.pairwise_cons.2 ⟨?_, orderedInsert_stable hcomp x L hL
        (fun z hz => hx z (List.mem_cons_of_mem _ hz))⟩
      intro z hz
      rcases (List.mem_orderedInsert (fun a b => comp a b = false)).1 hz with h | h
      · rw [h]; exact ⟨Nat.le_of_lt hxy, fun e => absurd e (by omega)⟩
      · exact hy z h

theorem insertionSort_stable {comp : Nat → Nat → Bool} {key : Nat → Nat}
    (hcomp : ∀ a b, comp a b = decide (key a < key b)) :
    ∀ (m : List Nat), m.Pairwise (fun a b => b < a) →
      (List.insertionSort (fun a b => comp a b = false) m).Pairwise
        (fun a b => key b ≤ key a ∧ (key a = key b → b < a))
  | [], _ => by simp
  | x :: m, hp => by
    obtain ⟨hx, hm⟩ := List.pairwise_cons.1 hp
    rw [List.insertionSort]
    exact orderedInsert_stable hcomp x _ (insertionSort_stable hcomp m hm)
      (fun y hy => hx y ((List.perm_insertionSort _ m).subset hy))

/-- On an ascending range of at most `16` elements `std_sort` keeps elements of
equal key in their order. -/
theorem std_sort_stable_short {comp : Nat → Nat → Bool} {key : Nat → Nat}
    (hcomp : ∀ a b, comp a b = decide (key a < key b)) (l : List Nat)
    (hasc : l.Pairwise (fun a b => a < b)) (hlen : l.length ≤ 16) :
    (std_sort comp l).Pairwise (fun a b => key a = key b → a < b) := by
  rw [std_sort_eq hcomp, introsort_loop_short comp _ l 0 l.length (by omega)]
  have h := insertionSort_stable hcomp l.reverse (List.pairwise_reverse.2 hasc)
  refine List.Pairwise.imp ?_ (List.pairwise_reverse.2 h)
  intro a b hab e
  exact hab.2 e.symm

/-! ### The bounds on the loops are not reached -/

/-- A scan upwards that may take as many steps as the range has elements left
ends on its own. -/
theorem scanUp_fuel (comp : Nat → Nat → Bool) (arr : List Nat) (pivot : Nat) :
    ∀ (k first : Nat), arr.length ≤ first + k →
      scanUp comp arr pivot (k + 1) first = scanUp comp arr pivot k first
  | 0, first, h => by
    have hnone : arr[first]? = none := List.getElem?_eq_none (by omega)
    simp [scanUp, hnone]
  | k + 1, first, h => by
    rw [scanUp]
    conv => rhs; rw [scanUp]
    cases hx : arr[first]? with
    | none => rfl
    | some x =>
      simp only
      rw [scanUp_fuel comp arr pivot k (first + 1) (by omega)]

/-- A partition that may take `last` passes ends on its own: every pass but the
last one lowers `last`. -/
theorem unguarded_partition_fuel (comp : Nat → Nat → Bool) (pivot : Nat) :
    ∀ (k : Nat) (arr : List Nat) (first last : Nat), 0 < last → last ≤ k →
      unguarded_partition comp pivot (k + 1) arr first last =
        unguarded_partition comp pivot k arr first last
  | 0, arr, first, last, h0, h => by omega
  | k + 1, arr, first, last, h0, h => by
    rw [unguarded_partition]
    conv => rhs; rw [unguarded_partition]
    have hdown := scanDown_le comp arr pivot (last - 1) (last - 1)
    split
    · next hlt =>
      have hlen := (iter_swap_perm arr (scanUp comp arr pivot arr.length first)
        (scanDown comp arr pivot (last - 1) (last - 1))).length_eq
      exact unguarded_partition_fuel comp pivot k _ _ _ (by omega) (by omega)
    · rfl

/-- The loop of `push_heap` ends on its own after at most `holeIndex` moves. -/
theorem push_heap_fuel (comp : Nat → Nat → Bool) (first : Nat) :
    ∀ (k : Nat) (arr : List Nat) (holeIndex topIndex value : Nat), holeIndex ≤ k →
      push_heap comp first (k + 1) arr holeIndex topIndex value =
        push_heap comp first k arr holeIndex topIndex value
  | 0, arr, holeIndex, topIndex, value, h => by
    have h0 : holeIndex = 0 := by omega
    subst h0
    simp [push_heap]
  | k + 1, arr, holeIndex, topIndex, value, h => by
    rw [push_heap]
    conv => rhs; rw [push_heap]
    split
    · next hc =>
      exact push_heap_fuel comp first k _ _ _ _ (by omega)
    · rfl

/-- The loop of `adjust_heap` ends on its own after at most `len` moves. -/
theorem adjust_heap_down_fuel (comp : Nat → Nat → Bool) (first len : Nat) :
    ∀ (k : Nat) (arr : List Nat) (holeIndex : Nat), len ≤ holeIndex + k →
      adjust_heap_down comp first len (k + 1) arr holeIndex =
        adjust_heap_down comp first len k arr holeIndex
  | 0, arr, holeIndex, h => by
    simp only [adjust_heap_down]
    rw [if_neg (by omega)]
  | k + 1, arr, holeIndex, h => by
    rw [adjust_heap_down]
    conv => rhs; rw [adjust_heap_down]
    simp only
    split
    · next hlt =>
      split
      · exact adjust_heap_down_fuel comp first len k _ _ (by omega)
      · exact adjust_heap_down_fuel comp first len k _ _ (by omega)
    · rfl

/-- The loop of `sort_heap` ends on its own after at most `last - first`
passes. -/
theorem sort_heap_fuel (comp : Nat → Nat → Bool) (first : Nat) :
    ∀ (k : Nat) (arr : List Nat) (last : Nat), last - first ≤ k + 1 →
      sort_heap comp first (k + 1) arr last = sort_heap comp first k arr last
  | 0, arr, last, h => by
    simp only [sort_heap]
    rw [if_neg (by omega)]
  | k + 1, arr, last, h => by
    rw [sort_heap]
    conv => rhs; rw [sort_heap]
    split
    · next hgt =>
      exact sort_heap_fuel comp first k _ _ (by omega)
    · rfl

/-- The `std::sort` of libstdc++ meets the contract of `std::sort`. -/
theorem stdSort_std_sort : StdSort std_sort :=
  fun key l => ⟨@std_sort_perm _ key (fun _ _ => rfl) l, @std_sort_sorted _ key (fun _ _ => rfl) l⟩

/-- The view that `std_sort` builds of at most `16` cursors keeps cursors of equal
size in their original order. -/
theorem stableView_std_sort_short (cursors : List (Cursor S)) (h : cursors.length ≤ 16) :
    StableView cursors (ordered_cursors std_sort cursors) :=
  @std_sort_stable_short _ (sizeAt cursors) (fun _ _ => rfl) (List.range cursors.length)
    (List.pairwise_lt_range _) (by rw [List.length_range]; exact h)

/-! ### The claims on the traversal -/

/-- Claim C11: on every non-empty collection the view has a first cursor, which
is a cursor of least `size()`, and if `max_docid` is at most the `docid()` this
cursor reports at the time of the call, both variants return the empty result
(whatever the fuel; the cursors need not be well-formed). -/
theorem early_bound [Add S] [Zero S] (sort : (Nat → Nat → Bool) → List Nat → List Nat)
    (hsort : StdSort sort) (cursors : List (Cursor S)) (hne : cursors ≠ [])
    (max_docid fuel : Nat) :
    ∃ p c, (ordered_cursors sort cursors)[0]? = some p ∧ cursors[p]? = some c ∧
      (∀ d ∈ cursors, c.size ≤ d.size) ∧
      (max_docid ≤ c.docid →
        and_query sort fuel cursors max_docid = .ok [] ∧
        scored_and_query sort fuel cursors max_docid = .ok []) := by
  obtain ⟨p, c, h0, hget, hinit⟩ := initialState_ok hsort hne
  refine ⟨p, c, h0, hget, view_head_least hsort h0 hget, fun hM => ⟨?_, ?_⟩⟩
  · have hrun := and_query_run_eq sort fuel hne max_docid
    rw [hinit] at hrun
    simp only at hrun
    rw [and_query_loop_done fuel _ _ (by simp only; omega)] at hrun
    simp only [and_query, hrun]
  · have hrun := scored_and_query_run_eq sort fuel hne max_docid
    rw [hinit] at hrun
    simp only at hrun
    rw [scored_and_query_loop_done fuel _ _ (by simp only; omega)] at hrun
    simp only [scored_and_query, hrun]

/-- Witness of C11: the specification's example with the bound `3`, which is
the first posting of the shortest list `B`. -/
theorem early_bound_witness :
    ∃ p c, (ordered_cursors insertionSort exampleABC)[0]? = some p ∧
      exampleABC[p]? = some c ∧ (∀ d ∈ exampleABC, c.size ≤ d.size) ∧ 3 ≤ c.docid ∧
      and_query insertionSort 0 exampleABC 3 = .ok [] ∧
      scored_and_query insertionSort 0 exampleABC 3 = .ok [] := by
  obtain ⟨p, c, h0, hget, hleast, h⟩ :=
    early_bound insertionSort stdSort_insertionSort exampleABC (by decide) 3 0
  have hp : p = 1 := by
    have : (ordered_cursors insertionSort exampleABC)[0]? = some 1 := by rfl
    rw [this] at h0
    exact (Option.some.inj h0).symm
  subst hp
  have hc : 3 ≤ c.docid := by
    have : exampleABC[1]? = some (mkCursor [3, 5, 9] ⟨1⟩ 100) := by rfl
    rw [this] at hget
    rw [← Option.some.inj hget]
    decide
  exact ⟨1, c, h0, hget, hleast, hc, h hc⟩

/-- Claim C12: in every state the traversal of well-formed cursors reaches at
the head of the `while` loop (of either variant) with a candidate below the
bound, if the inner scan ends with `i` equal to the length of the view, then
every pointer of the view, the first one included, leads to a cursor whose
`docid()` is the candidate. -/
theorem aligned_at_match [Add S] [Zero S]
    (sort : (Nat → Nat → Bool) → List Nat → List Nat) (hsort : StdSort sort)
    (cursors : List (Cursor S)) (M : Nat) (hne : cursors ≠ [])
    (hwf : ∀ c ∈ cursors, c.WellFormed M) (s0 : LoopState S)
    (h0 : initialState sort cursors = .ok s0) (s : LoopState S)
    (hr : Reachable (ordered_cursors sort cursors) M s0 s ∨
      ScoredReachable (ordered_cursors sort cursors) M s0 s)
    (hc : s.candidate < M) (sf : LoopState S)
    (hf : forLoop (ordered_cursors sort cursors)
      ((ordered_cursors sort cursors).length - s.i) s = .ok sf)
    (hi : sf.i = (ordered_cursors sort cursors).length) :
    ∀ j (hj : j < (ordered_cursors sort cursors).length),
      ∃ c, sf.cursors[(ordered_cursors sort cursors)[j]]? = some c ∧
        c.docid = sf.candidate := by
  have hctx := ctx_of_wellFormed hsort hne hwf
  have hnd := nodup_ordered_cursors hsort cursors
  have hinv0 := (initialState_inv hsort hne hwf h0).1
  have hreach : Reachable (ordered_cursors sort cursors) M s0 s := by
    rcases hr with h | h
    · exact h
    · exact h.reachable
  have hinv := hreach.inv hctx hnd hinv0
  obtain ⟨sf1, h1, hinv1, _⟩ := forLoop_spec hctx _ s hinv hc le_rfl
  rw [h1] at hf
  simp only [Except.ok.injEq] at hf
  subst hf
  intro j hj
  have hp : (ordered_cursors sort cursors)[j] < sf1.cursors.length := by
    rw [length_of_frame hinv1.frame]
    exact hctx.valid _ (List.getElem_mem _)
  exact ⟨_, List.getElem?_eq_getElem hp,
    hinv1.aligned j hj (by omega) _ (List.getElem?_eq_getElem hp)⟩

/-- Witness of C12: the first inner scan of the specification's example ends
with `i = 3` and all three cursors on document `3`. -/
theorem aligned_at_match_witness :
    forLoop (ordered_cursors insertionSort exampleABC)
        ((ordered_cursors insertionSort exampleABC).length - exampleStart.i) exampleStart =
        .ok exampleScanned ∧
      ∀ j (hj : j < (ordered_cursors insertionSort exampleABC).length),
        ∃ c, exampleScanned.cursors[(ordered_cursors insertionSort exampleABC)[j]]? = some c ∧
          c.docid = exampleScanned.candidate :=
  ⟨by rfl,
    aligned_at_match insertionSort stdSort_insertionSort exampleABC 100 (by decide) (by decide)
      exampleStart (by rfl) exampleStart (Or.inl Reachable.init) (by decide) exampleScanned
      (by rfl) (by rfl)⟩

/-- Claim C13: whatever the cursors, the sort and the fuel, when `and_query` or
`scored_and_query` returns, the caller's collection has the same length and at
every index the same cursor as before (same postings, scores, sentinel and
`size()`), whose position has not moved backward; its `docid()` has not
decreased if the cursor meets the data-model invariant (its postings ascend and
none exceeds the sentinel), nor if the cursors are well-formed for the bound. -/
theorem caller_collection_kept [Add S] [Zero S]
    (sort : (Nat → Nat → Bool) → List Nat → List Nat) (fuel : Nat)
    (cursors : List (Cursor S)) (M : Nat) :
    (∀ s1 res, and_query_run sort fuel cursors M = .ok (s1, res) →
        s1.cursors.length = cursors.length ∧
        ∀ (k : Nat) (c : Cursor S), cursors[k]? = some c →
          ∃ c1 : Cursor S, s1.cursors[k]? = some c1 ∧ c1.docs = c.docs ∧
            c1.scores = c.scores ∧ c1.sentinel = c.sentinel ∧ c1.size = c.size ∧
            c.pos ≤ c1.pos ∧
            (c.Monotone ∨ (StdSort sort ∧ ∀ d ∈ cursors, d.WellFormed M) →
              c.docid ≤ c1.docid)) ∧
      (∀ s1 res, scored_and_query_run sort fuel cursors M = .ok (s1, res) →
        s1.cursors.length = cursors.length ∧
        ∀ (k : Nat) (c : Cursor S), cursors[k]? = some c →
          ∃ c1 : Cursor S, s1.cursors[k]? = some c1 ∧ c1.docs = c.docs ∧
            c1.scores = c.scores ∧ c1.sentinel = c.sentinel ∧ c1.size = c.size ∧
            c.pos ≤ c1.pos ∧
            (c.Monotone ∨ (StdSort sort ∧ ∀ d ∈ cursors, d.WellFormed M) →
              c.docid ≤ c1.docid)) := by
  have key : ∀ s1 res, and_query_run sort fuel cursors M = .ok (s1, res) →
      s1.cursors.length = cursors.length ∧
      ∀ (k : Nat) (c : Cursor S), cursors[k]? = some c →
        ∃ c1 : Cursor S, s1.cursors[k]? = some c1 ∧ c1.docs = c.docs ∧
          c1.scores = c.scores ∧ c1.sentinel = c.sentinel ∧ c1.size = c.size ∧
          c.pos ≤ c1.pos ∧
          (c.Monotone ∨ (StdSort sort ∧ ∀ d ∈ cursors, d.WellFormed M) →
            c.docid ≤ c1.docid) := by
    intro s1 res h
    have hadv := and_query_run_advanced h
    refine ⟨hadv.1, fun k c hc => ?_⟩
    obtain ⟨c1, h1, h2, h3, h4, h5, h6, h7⟩ := hadv.at_index hc
    refine ⟨c1, h1, h2, h3, h4, h5, h6, fun hor => ?_⟩
    rcases hor with hm | ⟨hsort, hwf⟩
    · exact h7 hm
    · exact and_query_run_docid_le hsort hwf h hc h1
  exact ⟨key, fun s1 res h => key s1 (res.map Prod.fst) (run_simulation h)⟩

/-- Witness of C13: the specification's example; `A` ends on its last posting
`9`, `B` is exhausted and `C` stands on `9`. -/
theorem caller_collection_kept_witness :
    and_query_run insertionSort 100 exampleABC 100 = .ok (exampleFinal, [3, 5, 9]) ∧
      (∀ d ∈ exampleABC, d.WellFormed 100) ∧
      exampleFinal.cursors.length = exampleABC.length ∧
      ∀ (k : Nat) (c : Cursor Binary32), exampleABC[k]? = some c →
        ∃ c1 : Cursor Binary32, exampleFinal.cursors[k]? = some c1 ∧ c1.docs = c.docs ∧
          c1.scores = c.scores ∧ c1.sentinel = c.sentinel ∧ c1.size = c.size ∧
          c.pos ≤ c1.pos ∧
          (c.Monotone ∨ (StdSort insertionSort ∧ ∀ d ∈ exampleABC, d.WellFormed 100) →
            c.docid ≤ c1.docid) :=
  ⟨by rfl, by decide,
    (caller_collection_kept insertionSort 100 exampleABC 100).1 exampleFinal [3, 5, 9] (by rfl)⟩

set_option maxRecDepth 100000 in
/-- Counterexample to C14: seventeen cursors of size `1`, cursor `k` holding the
document `k + 1`.  The `std::sort` of libstdc++ cuts a range of more than `16`
elements around the median of three of them: the view it builds starts with the
cursors `8` and `16` and holds cursor `0` behind them, so that cursors of equal
size do not keep their original relative order. -/
theorem stable_view_counterexample :
    tiedCursors 17 ≠ [] ∧ (tiedCursors 17).length = 17 ∧
      (∀ c ∈ tiedCursors 17, c.size = 1) ∧
      ordered_cursors std_sort (tiedCursors 17) =
        [8, 16, 15, 14, 13, 12, 11, 10, 9, 0, 7, 6, 5, 4, 3, 2, 1] ∧
      (orderedView std_sort (tiedCursors 17)).map Cursor.docs =
        [[9], [17], [16], [15], [14], [13], [12], [11], [10], [1], [8], [7], [6], [5], [4],
          [3], [2]] ∧
      ¬ StableView (tiedCursors 17) (ordered_cursors std_sort (tiedCursors 17)) :=
  ⟨by decide, by rfl, by decide, by rfl, by rfl, by decide⟩

/-- Claim C14, amended: the view that `and_query` and `scored_and_query` build
with the `std::sort` of libstdc++ is a permutation of the input cursors (as
pointers: of the indices of the collection) in which `size()` does not decrease,
and in a collection of at most `16` cursors those of equal `size()` keep their
original relative order. -/
theorem view_sorted_stable_short (cursors : List (Cursor S)) :
    (ordered_cursors std_sort cursors).Perm (List.range cursors.length) ∧
      (orderedView std_sort cursors).Perm cursors ∧
      (orderedView std_sort cursors).Pairwise (fun a b => a.size ≤ b.size) ∧
      (cursors.length ≤ 16 → StableView cursors (ordered_cursors std_sort cursors)) :=
  ⟨(stdSort_std_sort (sizeAt cursors) (List.range cursors.length)).1,
    orderedView_perm stdSort_std_sort cursors, orderedView_sorted stdSort_std_sort cursors,
    stableView_std_sort_short cursors⟩

set_option maxRecDepth 100000 in
/-- Witness of C14, amended: sixteen cursors of size `1` are left in the order in
which they were handed over. -/
theorem view_sorted_stable_short_witness :
    tiedCursors 16 ≠ [] ∧ (tiedCursors 16).length ≤ 16 ∧ (∀ c ∈ tiedCursors 16, c.size = 1) ∧
      ordered_cursors std_sort (tiedCursors 16) = List.range 16 ∧
      StableView (tiedCursors 16) (ordered_cursors std_sort (tiedCursors 16)) :=
  ⟨by decide, by decide, by decide, by rfl,
    (view_sorted_stable_short (tiedCursors 16)).2.2.2 (by decide)⟩

/-- Claim C15: on well-formed cursors the number of calls of `next_geq` that
`and_query` makes (the counter `skips` of the final state) is at most three
times the total number of postings plus the number of cursors; the run returns
once the fuel reaches `max_docid`. -/
theorem next_geq_calls_linear (sort : (Nat → Nat → Bool) → List Nat → List Nat)
    (hsort : StdSort sort) (cursors : List (Cursor S)) (max_docid : Nat)
    (hwf : ∀ c ∈ cursors, c.WellFormed max_docid) (fuel : Nat) :
    (∀ s1 res, and_query_run sort fuel cursors max_docid = .ok (s1, res) →
        s1.skips ≤ 3 * ((cursors.map Cursor.size).sum + cursors.length)) ∧
      (max_docid ≤ fuel →
        ∃ s1 res, and_query_run sort fuel cursors max_docid = .ok (s1, res)) := by
  by_cases hne : cursors = []
  · subst hne
    refine ⟨fun s1 res h => ?_, fun _ => ⟨_, _, rfl⟩⟩
    cases h
    exact Nat.zero_le _
  · have hctx := ctx_of_wellFormed hsort hne hwf
    have hnd := nodup_ordered_cursors hsort cursors
    refine ⟨fun s1 res h => ?_, fun hfuel => ?_⟩
    · rw [and_query_run_eq sort fuel hne max_docid] at h
      cases h0 : initialState sort cursors with
      | error e => rw [h0] at h; cases h
      | ok s0 =>
        rw [h0] at h
        simp only at h
        obtain ⟨hinv0, hcs, hsk⟩ := initialState_inv hsort hne hwf h0
        have hpot := and_query_loop_skips hctx hnd fuel s0 s1 [] res hinv0 h
        have hle : potential (ordered_cursors sort cursors) s0 ≤
            3 * (cursors.map Cursor.size).sum + 2 * cursors.length :=
          potential_le_sizes (hsort (sizeAt cursors) (List.range cursors.length)).1 s0 hcs
        omega
    · obtain ⟨s1, h1, _⟩ := and_query_run_spec hsort hne hwf fuel hfuel
      exact ⟨s1, _, h1⟩

/-- Witness of C15: the specification's example, thirteen postings in three
lists, is traversed with six calls of `next_geq`. -/
theorem next_geq_calls_linear_witness :
    and_query_run insertionSort 100 exampleABC 100 = .ok (exampleFinal, [3, 5, 9]) ∧
      exampleFinal.skips = 6 ∧
      exampleFinal.skips ≤ 3 * ((exampleABC.map Cursor.size).sum + exampleABC.length) :=
  ⟨by rfl, by rfl,
    (next_geq_calls_linear insertionSort stdSort_insertionSort exampleABC 100 (by decide)
      100).1 exampleFinal [3, 5, 9] (by rfl)⟩

/-- Claim C16: in every state the traversal of well-formed cursors reaches at
the head of the `while` loop with a candidate below the bound, the pass through
the body returns with a strictly larger candidate, on the mismatch branch (the
inner scan stops before the end of the view and its state is the new state) and
on the match branch (the scan reaches the end and the driver is advanced); so
for `and_query`, and for `scored_and_query` when every posting has a score. -/
theorem candidate_strictly_increases [Add S] [Zero S]
    (sort : (Nat → Nat → Bool) → List Nat → List Nat) (hsort : StdSort sort)
    (cursors : List (Cursor S)) (M : Nat) (hne : cursors ≠ [])
    (hwf : ∀ c ∈ cursors, c.WellFormed M) (s0 : LoopState S)
    (h0 : initialState sort cursors = .ok s0) :
    (∀ s, Reachable (ordered_cursors sort cursors) M s0 s → s.candidate < M →
        ∀ res, ∃ s1 res1 sf,
          and_query_body (ordered_cursors sort cursors) s res = .ok (s1, res1) ∧
          s.candidate < s1.candidate ∧
          forLoop (ordered_cursors sort cursors)
            ((ordered_cursors sort cursors).length - s.i) s = .ok sf ∧
          ((sf.i = (ordered_cursors sort cursors).length ∧
              advanceDriver (ordered_cursors sort cursors) sf = .ok s1) ∨
            (sf.i ≠ (ordered_cursors sort cursors).length ∧ sf = s1))) ∧
      ((∀ c ∈ cursors, c.scores.length = c.docs.length) →
        ∀ s, ScoredReachable (ordered_cursors sort cursors) M s0 s → s.candidate < M →
          ∀ res, ∃ s1 res1 sf,
            scored_and_query_body (ordered_cursors sort cursors) s res = .ok (s1, res1) ∧
            s.candidate < s1.candidate ∧
            forLoop (ordered_cursors sort cursors)
              ((ordered_cursors sort cursors).length - s.i) s = .ok sf ∧
            ((sf.i = (ordered_cursors sort cursors).length ∧
                advanceDriver (ordered_cursors sort cursors) sf = .ok s1) ∨
              (sf.i ≠ (ordered_cursors sort cursors).length ∧ sf = s1))) := by
  have hctx := ctx_of_wellFormed hsort hne hwf
  have hnd := nodup_ordered_cursors hsort cursors
  have hinv0 := (initialState_inv hsort hne hwf h0).1
  constructor
  · intro s hr hc res
    obtain ⟨s1, res1, sf, hb, _, hlt, _, hf, _, hcase⟩ :=
      and_query_body_pass hctx hnd (hr.inv hctx hnd hinv0) hc res
    refine ⟨s1, res1, sf, hb, hlt, hf, ?_⟩
    rcases hcase with ⟨h1, _, h2, _⟩ | ⟨h1, h2, _⟩
    · exact Or.inl ⟨h1, h2⟩
    · exact Or.inr ⟨h1, h2⟩
  · intro hlen s hr hc res
    obtain ⟨s1, res1, sf, hb, _, hlt, hf, _, hcase⟩ :=
      scored_and_query_body_pass hctx hlen (hr.reachable.inv hctx hnd hinv0) hc res
    refine ⟨s1, res1, sf, hb, hlt, hf, ?_⟩
    rcases hcase with ⟨h1, _, h2, _⟩ | ⟨h1, h2, _⟩
    · exact Or.inl ⟨h1, h2⟩
    · exact Or.inr ⟨h1, h2⟩

/-- Witness of C16: the first pass of the specification's example takes the
candidate from `3` to `5`, and so does the state after it, which is reachable. -/
theorem candidate_strictly_increases_witness :
    and_query_body (ordered_cursors insertionSort exampleABC) exampleStart [] =
        .ok (examplePassed, [3]) ∧
      exampleStart.candidate < examplePassed.candidate ∧
      ∃ s1 res1 sf,
        and_query_body (ordered_cursors insertionSort exampleABC) examplePassed [3] =
          .ok (s1, res1) ∧
        examplePassed.candidate < s1.candidate ∧
        forLoop (ordered_cursors insertionSort exampleABC)
          ((ordered_cursors insertionSort exampleABC).length - examplePassed.i)
          examplePassed = .ok sf ∧
        ((sf.i = (ordered_cursors insertionSort exampleABC).length ∧
            advanceDriver (ordered_cursors insertionSort exampleABC) sf = .ok s1) ∨
          (sf.i ≠ (ordered_cursors insertionSort exampleABC).length ∧ sf = s1)) :=
  ⟨by rfl, by decide,
    (candidate_strictly_increases insertionSort stdSort_insertionSort exampleABC 100
      (by decide) (by decide) exampleStart (by rfl)).1 examplePassed
      (@Reachable.pass Binary32 (ordered_cursors insertionSort exampleABC) 100 exampleStart
        exampleStart examplePassed [] [3] Reachable.init (by decide) (by rfl))
      (by decide) [3]⟩

/-- Claim C17: for a single cursor over the empty list whose sentinel `x` is
below `max_docid`, the traversal of `and_query` starts with candidate `x` and
the cursor exhausted; every pass through the body records `x`, leaves the cursor
where it is (`next()` changes nothing) and ends in the same state, which is the
only state the loop reaches; whatever the fuel, the run does not return. -/
theorem sentinel_needed (sort : (Nat → Nat → Bool) → List Nat → List Nat)
    (hsort : StdSort sort) (x max_docid : Nat) (h : x < max_docid) :
    initialState sort [exhaustedCursor S x] = .ok (stuckState S x) ∧
      (exhaustedCursor S x).docid = x ∧
      (exhaustedCursor S x).next = exhaustedCursor S x ∧
      (∀ res, and_query_body (ordered_cursors sort [exhaustedCursor S x]) (stuckState S x) res =
          .ok (stuckState S x, res ++ [x])) ∧
      (∀ s, Reachable (ordered_cursors sort [exhaustedCursor S x]) max_docid
          (stuckState S x) s → s = stuckState S x) ∧
      (∀ fuel, and_query sort fuel [exhaustedCursor S x] max_docid = .error .outOfFuel) := by
  have hex : (exhaustedCursor S x).docs.length ≤ (exhaustedCursor S x).pos := le_rfl
  have hord := ordered_cursors_singleton hsort (exhaustedCursor S x)
  have hinit : initialState sort [exhaustedCursor S x] = .ok (stuckState S x) := by
    unfold initialState
    rw [hord]
    rfl
  refine ⟨hinit, rfl, rfl, ?_, ?_, ?_⟩
  · intro res
    rw [hord]
    exact and_query_body_stuck hex 0 res
  · intro s hs
    rw [hord] at hs
    exact reachable_stuck hex 0 hs
  · intro fuel
    have hrun := and_query_run_eq sort fuel (List.cons_ne_nil (exhaustedCursor S x) [])
      max_docid
    rw [hinit, hord] at hrun
    simp only at hrun
    have hstuck : and_query_loop [0] max_docid fuel (stuckState S x) [] = .error .outOfFuel :=
      and_query_loop_stuck hex h 0 fuel []
    have hrun2 : and_query_run sort fuel [exhaustedCursor S x] max_docid =
        .error .outOfFuel := hrun.trans hstuck
    simp only [and_query, hrun2]

/-- Witness of C17: an empty list with sentinel `0` and the bound `1`. -/
theorem sentinel_needed_witness :
    (0 : Nat) < 1 ∧
      (∀ res, and_query_body (ordered_cursors insertionSort [exhaustedCursor Binary32 0])
          (stuckState Binary32 0) res = .ok (stuckState Binary32 0, res ++ [0])) ∧
      (∀ fuel, and_query insertionSort fuel [exhaustedCursor Binary32 0] 1 =
          .error .outOfFuel) :=
  ⟨by decide,
    (sentinel_needed insertionSort stdSort_insertionSort 0 1 (by decide)).2.2.2.1,
    (sentinel_needed insertionSort stdSort_insertionSort 0 1 (by decide)).2.2.2.2.2⟩

end Pisa
